import Mathlib

/-!
A verification development for `simple_js_game` (`src/index.js`).

The game is a single JavaScript prototype object `Game`.  Its methods are
embedded here as Lean functions over an explicit `Game` record:

* a method that mutates `this` returns the new `Game`;
* `Math.random()` is an explicit list of natural numbers `rnd`, consumed from
  the front (a missing draw reads as `0`); `Math.floor(Math.random() * n)` is
  the draw reduced modulo `n`, so that every value in `[0, n)` is an outcome;
* coordinates are `Int` (the script computes `x - 1` at `x = 0` and tests the
  result against the map bounds);
* a `while` loop over a work queue takes a fuel argument and answers `none`
  when the fuel is used up; the methods pass `mapWidth * mapHeight + 1`, and
  the theorems show that this is always enough;
* `null` is the inner `none` of an `Option`.
-/

namespace SimpleJsGame

/-! ## Data model -/

/-- The constants of `TILE_TYPES`. -/
inductive TileType
  | WALL
  | FLOOR
  | PLAYER
  | ENEMY
  | HEALTH_POTION
  | SWORD
  deriving DecidableEq, Repr

/-- A coordinate object `{x, y}`. -/
structure Cell where
  x : Int
  y : Int
  deriving DecidableEq, Repr

/-- A direction object `{dx, dy}`. -/
structure Dir where
  dx : Int
  dy : Int
  deriving DecidableEq, Repr

/-- The record `this.player`. -/
structure Player where
  x : Int
  y : Int
  health : Int
  maxHealth : Int
  attackPower : Int
  deriving DecidableEq, Repr

/-- An element of `this.enemies`. -/
structure Enemy where
  x : Int
  y : Int
  health : Int
  maxHealth : Int
  deriving DecidableEq, Repr

/-- An element of `this.items`; `type` is `HEALTH_POTION` or `SWORD`. -/
structure Item where
  x : Int
  y : Int
  type : TileType
  deriving DecidableEq, Repr

/-- An area object `{cells}` as built by `floodFillArea`. -/
structure Area where
  cells : List Cell
  deriving DecidableEq, Repr

/-- A room object `{x, y, width, height}` as pushed by `generateRooms`. -/
structure Room where
  x : Int
  y : Int
  width : Int
  height : Int
  deriving DecidableEq, Repr

/-- The fields of a `Game` object (`tileSize` only matters to rendering and is
left out).  `map` is the array of rows, so `map[y][x]` is row `y`, column `x`. -/
structure Game where
  map : List (List TileType)
  player : Player
  enemies : List Enemy
  items : List Item
  mapWidth : Nat
  mapHeight : Nat
  deriving DecidableEq, Repr

/-- The object built by the constructor `Game()`. -/
def Game.new : Game :=
  { map := [], player := ⟨0, 0, 100, 100, 10⟩, enemies := [], items := [],
    mapWidth := 40, mapHeight := 24 }

/-! ## Two-dimensional arrays -/

/-- The read `m[y][x]`; `none` when the index is outside the array. -/
def get2 {α : Type} (m : List (List α)) (x y : Int) : Option α :=
  if 0 ≤ x ∧ 0 ≤ y then (m[y.toNat]?).bind (fun row => row[x.toNat]?) else none

/-- The write `m[y][x] = v` at an index inside the array.  (Outside the array
the script would grow a row or throw; the model leaves the array as it is, and
every write below is shown or assumed to be inside.) -/
def set2 {α : Type} (m : List (List α)) (x y : Int) (v : α) : List (List α) :=
  if 0 ≤ x ∧ 0 ≤ y then
    match m[y.toNat]? with
    | some row => m.set y.toNat (row.set x.toNat v)
    | none => m
  else m

/-- The array built by the nested initialisation loops
`for y < h: a[y] = []; for x < w: a[y][x] = v`. -/
def fill2 {α : Type} (w h : Nat) (v : α) : List (List α) :=
  List.replicate h (List.replicate w v)

/-- The coordinates visited by `for y < h: for x < w`, in that order. -/
def allCells (w h : Nat) : List Cell :=
  (List.range h).flatMap (fun (y : Nat) => (List.range w).map (fun (x : Nat) => Cell.mk (Int.ofNat x) (Int.ofNat y)))

/-- The integers `lo, lo+1, ..., hi-1` of a loop `for (v = lo; v < hi; v++)`. -/
def intRange (lo hi : Int) : List Int :=
  (List.range (hi - lo).toNat).map (fun (i : Nat) => lo + Int.ofNat i)

/-- The test `x >= 0 && x < mapWidth && y >= 0 && y < mapHeight`. -/
def Game.inBounds (g : Game) (x y : Int) : Bool :=
  decide (0 ≤ x ∧ x < (g.mapWidth : Int) ∧ 0 ≤ y ∧ y < (g.mapHeight : Int))

/-- The test `this.map[y][x] === t`. -/
def Game.tileIs (g : Game) (x y : Int) (t : TileType) : Bool :=
  decide (get2 g.map x y = some t)

/-- The test `!visited[y][x]`. -/
def notVisited (visited : List (List Bool)) (x y : Int) : Bool :=
  decide (get2 visited x y ≠ some true)

/-! ## Randomness -/

/-- The call `getRandomInt(min, max)`, `Math.floor(Math.random() * (max - min + 1)) + min`,
on the draw `r`.  With `n = max - min + 1 > 0` the outcomes are `min .. max`;
with `n <= 0` the product lies in `(n, 0]` and the outcomes are `min + n .. min`. -/
def getRandomInt (r : Nat) (min max : Int) : Int :=
  let n := max - min + 1
  if 0 < n then min + (r : Int) % n else min - (r : Int) % (1 - n)

/-- The index `Math.floor(Math.random() * n)` on the draw `r`. -/
def randomIndex (r n : Nat) : Nat := r % n

/-- The loop of `shuffleArray` for `i` from `k` down to `1`:
`j = Math.floor(Math.random() * (i + 1))`, then swap `array[i]` and `array[j]`. -/
def shuffleLoop {α : Type} : Nat → List α → List Nat → List α × List Nat
  | 0, array, rnd => (array, rnd)
  | i + 1, array, rnd =>
    let j := randomIndex (rnd.headD 0) (i + 2)
    match array[i + 1]?, array[j]? with
    | some ai, some aj => shuffleLoop i ((array.set (i + 1) aj).set j ai) rnd.tail
    | _, _ => shuffleLoop i array rnd.tail

/-- The method `shuffleArray` (Fisher-Yates from the last index down). -/
def shuffleArray {α : Type} (array : List α) (rnd : List Nat) : List α × List Nat :=
  shuffleLoop (array.length - 1) array rnd

/-! ## Connectivity check -/

/-- The direction table of `checkConnectivity` and `floodFillArea`:
up, right, down, left. -/
def fillDirections : List Dir := [⟨0, -1⟩, ⟨1, 0⟩, ⟨0, 1⟩, ⟨-1, 0⟩]

/-- The first Floor cell of the row-major scan of `checkConnectivity`
(`startX`, `startY`), `none` standing for `startX === -1`. -/
def Game.firstFloor (g : Game) : Option Cell :=
  (allCells g.mapWidth g.mapHeight).find? (fun c => g.tileIs c.x c.y TileType.FLOOR)

/-- The counter `totalEmptyCount` of `checkConnectivity`. -/
def Game.totalEmptyCount (g : Game) : Nat :=
  (allCells g.mapWidth g.mapHeight).countP (fun c => g.tileIs c.x c.y TileType.FLOOR)

/-- One pass of the body of the direction loop of `checkConnectivity`. -/
def Game.checkVisit (g : Game) (cell : Cell)
    (st : List (List Bool) × List Cell) (d : Dir) : List (List Bool) × List Cell :=
  let newX := cell.x + d.dx
  let newY := cell.y + d.dy
  if g.inBounds newX newY && notVisited st.1 newX newY && g.tileIs newX newY TileType.FLOOR then
    (set2 st.1 newX newY true, st.2 ++ [⟨newX, newY⟩])
  else st

/-- The loop `while (queue.length > 0)` of `checkConnectivity`; the result is
the final `reachableCount`. -/
def Game.checkLoop (g : Game) : Nat → List (List Bool) → List Cell → Nat → Option Nat
  | 0, _, _, _ => none
  | _ + 1, _, [], reachableCount => some reachableCount
  | fuel + 1, visited, cell :: queue, reachableCount =>
    let st := fillDirections.foldl (g.checkVisit cell) (visited, queue)
    g.checkLoop fuel st.1 st.2 (reachableCount + 1)

/-- The method `checkConnectivity`. -/
def Game.checkConnectivity (g : Game) : Option Bool :=
  match g.firstFloor with
  | none => some false
  | some start =>
    let visited := set2 (fill2 g.mapWidth g.mapHeight false) start.x start.y true
    (g.checkLoop (g.mapWidth * g.mapHeight + 1) visited [start] 0).map
      (fun reachableCount => decide (reachableCount = g.totalEmptyCount))

/-! ## Isolated areas -/

/-- The state of the loop of `floodFillArea`. -/
structure FillState where
  visited : List (List Bool)
  cells : List Cell
  queue : List Cell
  deriving DecidableEq, Repr

/-- One pass of the body of the direction loop of `floodFillArea`. -/
def Game.fillVisit (g : Game) (cell : Cell) (st : FillState) (d : Dir) : FillState :=
  let newX := cell.x + d.dx
  let newY := cell.y + d.dy
  if g.inBounds newX newY && notVisited st.visited newX newY && g.tileIs newX newY TileType.FLOOR then
    { visited := set2 st.visited newX newY true,
      cells := st.cells ++ [⟨newX, newY⟩],
      queue := st.queue ++ [⟨newX, newY⟩] }
  else st

/-- The loop `while (queue.length > 0)` of `floodFillArea`; the result is the
final `visited` and `cells`. -/
def Game.fillLoop (g : Game) : Nat → FillState → Option (List (List Bool) × List Cell)
  | 0, _ => none
  | fuel + 1, st =>
    match st.queue with
    | [] => some (st.visited, st.cells)
    | cell :: queue =>
      g.fillLoop fuel (fillDirections.foldl (g.fillVisit cell) { st with queue := queue })

/-- The method `floodFillArea`; it answers the area and the updated `visited`
(which the script mutates in place). -/
def Game.floodFillArea (g : Game) (startX startY : Int) (visited : List (List Bool)) :
    Option (Area × List (List Bool)) :=
  (g.fillLoop (g.mapWidth * g.mapHeight + 1)
    { visited := set2 visited startX startY true,
      cells := [⟨startX, startY⟩],
      queue := [⟨startX, startY⟩] }).map (fun r => (⟨r.2⟩, r.1))

/-- The body of the scan of `findIsolatedAreas` at one cell. -/
def Game.areaScan (g : Game) (st : List (List Bool) × List Area) (c : Cell) :
    Option (List (List Bool) × List Area) :=
  if notVisited st.1 c.x c.y && g.tileIs c.x c.y TileType.FLOOR then
    (g.floodFillArea c.x c.y st.1).map (fun r => (r.2, st.2 ++ [r.1]))
  else some st

/-- The scan of `findIsolatedAreas` over a list of cells. -/
def Game.areaScanAll (g : Game) :
    List Cell → List (List Bool) × List Area → Option (List (List Bool) × List Area)
  | [], st => some st
  | c :: cs, st =>
    match g.areaScan st c with
    | some st1 => g.areaScanAll cs st1
    | none => none

/-- The method `findIsolatedAreas`. -/
def Game.findIsolatedAreas (g : Game) : Option (List Area) :=
  (g.areaScanAll (allCells g.mapWidth g.mapHeight)
    (fill2 g.mapWidth g.mapHeight false, [])).map (fun st => st.2)

/-! ## Connectivity repair -/

/-- The writes `this.map[c.y][c.x] = t` for the cells of a list, in order. -/
def Game.setTiles (g : Game) (cs : List Cell) (t : TileType) : Game :=
  { g with map := cs.foldl (fun m c => set2 m c.x c.y t) g.map }

/-- The method `createStraightCorridor`: the row `y1` between the two `x`,
then the column `x2` between the two `y`. -/
def Game.createStraightCorridor (g : Game) (x1 y1 x2 y2 : Int) : Game :=
  let g1 := g.setTiles ((intRange (min x1 x2) (max x1 x2 + 1)).map (fun x => ⟨x, y1⟩)) TileType.FLOOR
  g1.setTiles ((intRange (min y1 y2) (max y1 y2 + 1)).map (fun y => ⟨x2, y⟩)) TileType.FLOOR

/-- The loop `for (i = 1; i < areas.length; i++)` of `ensureConnectivity` over
the areas after the main one; `none` stands for the exception the script raises
on reading a coordinate of `undefined` (an area without cells). -/
def Game.connectAreas (mainArea : Area) : List Area → Game → List Nat → Option (Game × List Nat)
  | [], g, rnd => some (g, rnd)
  | isolatedArea :: rest, g, rnd =>
    match isolatedArea.cells[randomIndex (rnd.headD 0) isolatedArea.cells.length]?,
          mainArea.cells[randomIndex (rnd.tail.headD 0) mainArea.cells.length]? with
    | some areaCell, some mainCell =>
      Game.connectAreas mainArea rest
        (g.createStraightCorridor areaCell.x areaCell.y mainCell.x mainCell.y) rnd.tail.tail
    | _, _ => none

/-- The comparator `b.cells.length - a.cells.length <= 0` of the sort in
`ensureConnectivity` (larger areas first). -/
def areaOrder (a b : Area) : Bool := decide (b.cells.length ≤ a.cells.length)

/-- The method `ensureConnectivity`. -/
def Game.ensureConnectivity (g : Game) (rnd : List Nat) : Option (Game × List Nat) :=
  match g.findIsolatedAreas with
  | none => none
  | some areas =>
    if areas.length ≤ 1 then some (g, rnd)
    else
      match areas.mergeSort areaOrder with
      | [] => some (g, rnd)
      | mainArea :: others => Game.connectAreas mainArea others g rnd

/-! ## Map generation -/

/-- The method `createEmptyMap`: every cell a Wall. -/
def Game.createEmptyMap (g : Game) : Game :=
  { g with map := fill2 g.mapWidth g.mapHeight TileType.WALL }

/-- The margin test of `generateRooms`: `canPlace` stays true when no cell of
the rectangle `[x-1, x+width] x [y-1, y+height]` that lies inside the map is a
Floor. -/
def Game.canPlaceRoom (g : Game) (x y width height : Int) : Bool :=
  (intRange (y - 1) (y + height + 1)).all (fun otherY =>
    (intRange (x - 1) (x + width + 1)).all (fun otherX =>
      !(g.inBounds otherX otherY && g.tileIs otherX otherY TileType.FLOOR)))

/-- The cells `for roomY in [y, y+height): for roomX in [x, x+width)` that
`generateRooms` carves for a room. -/
def roomCells (x y width height : Int) : List Cell :=
  (intRange y (y + height)).flatMap (fun roomY =>
    (intRange x (x + width)).map (fun roomX => Cell.mk roomX roomY))

/-- The loop `while (!roomPlaced && attempts < maxAttempts)` of `generateRooms`,
with the number of attempts that are left; each attempt takes four draws. -/
def Game.placeRoom (g : Game) : Nat → List Room → List Nat → Game × List Room × List Nat
  | 0, rooms, rnd => (g, rooms, rnd)
  | attemptsLeft + 1, rooms, rnd =>
    let width := getRandomInt (rnd.getD 0 0) 3 8
    let height := getRandomInt (rnd.getD 1 0) 3 8
    let x := getRandomInt (rnd.getD 2 0) 1 ((g.mapWidth : Int) - width - 1)
    let y := getRandomInt (rnd.getD 3 0) 1 ((g.mapHeight : Int) - height - 1)
    if x + width ≥ (g.mapWidth : Int) ∨ y + height ≥ (g.mapHeight : Int) then
      g.placeRoom attemptsLeft rooms (rnd.drop 4)
    else if g.canPlaceRoom x y width height then
      (g.setTiles (roomCells x y width height) TileType.FLOOR,
        rooms ++ [⟨x, y, width, height⟩], rnd.drop 4)
    else g.placeRoom attemptsLeft rooms (rnd.drop 4)

/-- The loop `for (i = 0; i < roomCount; i++)` of `generateRooms`, with the
number of rooms still to place; `maxAttempts` is 100. -/
def Game.roomsLoop : Nat → Game → List Room → List Nat → Game × List Room × List Nat
  | 0, g, rooms, rnd => (g, rooms, rnd)
  | k + 1, g, rooms, rnd =>
    let r := g.placeRoom 100 rooms rnd
    Game.roomsLoop k r.1 r.2.1 r.2.2

/-- The method `generateRooms`; it answers the game, the list `rooms` and the
remaining draws. -/
def Game.generateRooms (g : Game) (rnd : List Nat) : Game × List Room × List Nat :=
  let roomCount := getRandomInt (rnd.headD 0) 5 10
  Game.roomsLoop roomCount.toNat g [] rnd.tail

/-- The loop `do { v = getRandomInt(1, max); attempts++ } while (used.includes(v)
&& attempts < 20)` of `generateCorridors`, with the number of further draws
that are allowed (19 at the start). -/
def pickLine (used : List Int) (max : Int) : Nat → List Nat → Int × List Nat
  | 0, rnd => (getRandomInt (rnd.headD 0) 1 max, rnd.tail)
  | k + 1, rnd =>
    let v := getRandomInt (rnd.headD 0) 1 max
    if used.contains v then pickLine used max k rnd.tail else (v, rnd.tail)

/-- The loop over the horizontal corridors of `generateCorridors`. -/
def Game.horizontalLoop : Nat → Game → List Int → List Nat → Game × List Nat
  | 0, g, _, rnd => (g, rnd)
  | k + 1, g, usedY, rnd =>
    let p := pickLine usedY ((g.mapHeight : Int) - 2) 19 rnd
    Game.horizontalLoop k
      (g.setTiles ((intRange 0 g.mapWidth).map (fun x => Cell.mk x p.1)) TileType.FLOOR)
      (usedY ++ [p.1]) p.2

/-- The loop over the vertical corridors of `generateCorridors`. -/
def Game.verticalLoop : Nat → Game → List Int → List Nat → Game × List Nat
  | 0, g, _, rnd => (g, rnd)
  | k + 1, g, usedX, rnd =>
    let p := pickLine usedX ((g.mapWidth : Int) - 2) 19 rnd
    Game.verticalLoop k
      (g.setTiles ((intRange 0 g.mapHeight).map (fun y => Cell.mk p.1 y)) TileType.FLOOR)
      (usedX ++ [p.1]) p.2

/-- The method `generateCorridors`. -/
def Game.generateCorridors (g : Game) (rnd : List Nat) : Game × List Nat :=
  let horizontalCorridors := getRandomInt (rnd.headD 0) 3 5
  let r := Game.horizontalLoop horizontalCorridors.toNat g [] rnd.tail
  let verticalCorridors := getRandomInt (r.2.headD 0) 3 5
  Game.verticalLoop verticalCorridors.toNat r.1 [] r.2.tail

/-- A loop `for (i = 0; i < n; i++) if (emptyTiles.length > 0) { pos =
emptyTiles.pop(); list.push(mk(pos)) }` of `placeEntities`. -/
def placeLoop {β : Type} (mk : Cell → β) : Nat → List Cell → List β → List Cell × List β
  | 0, emptyTiles, acc => (emptyTiles, acc)
  | n + 1, emptyTiles, acc =>
    match emptyTiles.getLast? with
    | some pos => placeLoop mk n emptyTiles.dropLast (acc ++ [mk pos])
    | none => placeLoop mk n emptyTiles acc

/-- The method `placeEntities`: the Floor cells in row-major order are
shuffled, then the player, 10 enemies, 2 swords and 10 potions pop positions
off the end. -/
def Game.placeEntities (g : Game) (rnd : List Nat) : Game × List Nat :=
  let emptyTiles := (allCells g.mapWidth g.mapHeight).filter
    (fun c => g.tileIs c.x c.y TileType.FLOOR)
  let s := shuffleArray emptyTiles rnd
  let player := match s.1.getLast? with
    | some playerPos => { g.player with x := playerPos.x, y := playerPos.y }
    | none => g.player
  let e := placeLoop (fun pos => Enemy.mk pos.x pos.y 30 30) 10 s.1.dropLast g.enemies
  let sw := placeLoop (fun pos => Item.mk pos.x pos.y TileType.SWORD) 2 e.1 g.items
  let po := placeLoop (fun pos => Item.mk pos.x pos.y TileType.HEALTH_POTION) 10 sw.1 sw.2
  ({ g with player := player, enemies := e.2, items := po.2 }, s.2)

/-- The method `generateMap`. -/
def Game.generateMap (g : Game) (rnd : List Nat) : Option (Game × List Nat) :=
  let g1 := g.createEmptyMap
  let r2 := g1.generateRooms rnd
  let r3 := r2.1.generateCorridors r2.2.2
  match r3.1.checkConnectivity with
  | none => none
  | some true => some (r3.1.placeEntities r3.2)
  | some false =>
    match r3.1.ensureConnectivity r3.2 with
    | none => none
    | some r4 => some (r4.1.placeEntities r4.2)

/-! ## Pathfinding -/

/-- The direction table of `findPath`, `buildPath` and `moveEnemyRandomly`:
up, down, left, right. -/
def pathDirections : List Dir := [⟨0, -1⟩, ⟨0, 1⟩, ⟨-1, 0⟩, ⟨1, 0⟩]

/-- One pass of the body of the direction loop of `findPath`.  The current
cell was written into `distMap` when it was queued. -/
def Game.pathVisit (g : Game) (current : Cell)
    (st : List (List Int) × List Cell) (d : Dir) : List (List Int) × List Cell :=
  let newX := current.x + d.dx
  let newY := current.y + d.dy
  if g.inBounds newX newY && decide (get2 st.1 newX newY = some (-1)) &&
      !(g.tileIs newX newY TileType.WALL) && !(g.tileIs newX newY TileType.ENEMY) then
    (set2 st.1 newX newY ((get2 st.1 current.x current.y).getD 0 + 1), st.2 ++ [⟨newX, newY⟩])
  else st

/-- The test `distMap[newY][newX] >= 0 && distMap[newY][newX] ===
distMap[currentY][currentX] - 1` of `buildPath` (false on `undefined`). -/
def distStepsDown (distMap : List (List Int)) (newX newY currentX currentY : Int) : Bool :=
  match get2 distMap newX newY, get2 distMap currentX currentY with
  | some a, some b => decide (0 ≤ a ∧ a = b - 1)
  | _, _ => false

/-- The direction loop of `buildPath`: the first neighbour, in table order,
that is inside the map and one step closer to the start. -/
def Game.buildStep (g : Game) (distMap : List (List Int)) (currentX currentY : Int) :
    Option Cell :=
  (pathDirections.map (fun d => Cell.mk (currentX + d.dx) (currentY + d.dy))).find?
    (fun n => g.inBounds n.x n.y && distStepsDown distMap n.x n.y currentX currentY)

/-- The loop `while (currentX !== startX || currentY !== startY)` of
`buildPath`. -/
def Game.buildLoop (g : Game) (distMap : List (List Int)) (startX startY : Int) :
    Nat → Int → Int → List Cell → Option (Option (List Cell))
  | 0, _, _, _ => none
  | fuel + 1, currentX, currentY, path =>
    if currentX ≠ startX ∨ currentY ≠ startY then
      match g.buildStep distMap currentX currentY with
      | some n => g.buildLoop distMap startX startY fuel n.x n.y (n :: path)
      | none => some none
    else some (some path)

/-- The method `buildPath`. -/
def Game.buildPath (g : Game) (distMap : List (List Int)) (startX startY targetX targetY : Int) :
    Option (Option (List Cell)) :=
  g.buildLoop distMap startX startY (g.mapWidth * g.mapHeight + 1) targetX targetY
    [⟨targetX, targetY⟩]

/-- The loop `while (queue.length > 0)` of `findPath`. -/
def Game.pathLoop (g : Game) (startX startY targetX targetY : Int) :
    Nat → List (List Int) → List Cell → Option (Option (List Cell))
  | 0, _, _ => none
  | _ + 1, _, [] => some none
  | fuel + 1, distMap, current :: queue =>
    if current.x = targetX ∧ current.y = targetY then
      g.buildPath distMap startX startY targetX targetY
    else
      let st := pathDirections.foldl (g.pathVisit current) (distMap, queue)
      g.pathLoop startX startY targetX targetY fuel st.1 st.2

/-- The method `findPath`; the outer `none` is fuel, the inner `none` is
`null`.  (The script reads `map[targetY][targetX]` unguarded; the target is
taken to be inside the map.) -/
def Game.findPath (g : Game) (startX startY targetX targetY : Int) :
    Option (Option (List Cell)) :=
  if g.tileIs targetX targetY TileType.WALL then some none
  else
    g.pathLoop startX startY targetX targetY (g.mapWidth * g.mapHeight + 1)
      (set2 (fill2 g.mapWidth g.mapHeight (-1)) startX startY 0) [⟨startX, startY⟩]

/-! ## Enemy movement -/

/-- The method `canEnemyMoveTo`. -/
def Game.canEnemyMoveTo (g : Game) (x y : Int) : Bool :=
  if x < 0 ∨ x ≥ (g.mapWidth : Int) ∨ y < 0 ∨ y ≥ (g.mapHeight : Int) then false
  else if g.tileIs x y TileType.WALL || g.tileIs x y TileType.ENEMY then false
  else if g.tileIs x y TileType.PLAYER then false
  else true

/-- The method `performEnemyMove` on the enemy at index `i` of `this.enemies`. -/
def Game.performEnemyMove (g : Game) (i : Nat) (newX newY : Int) : Game :=
  match g.enemies[i]? with
  | none => g
  | some enemy =>
    { g with
      map := set2 (set2 g.map enemy.x enemy.y TileType.FLOOR) newX newY TileType.ENEMY,
      enemies := g.enemies.set i { enemy with x := newX, y := newY } }

/-- The method `canEnemyAttackPlayer`. -/
def Game.canEnemyAttackPlayer (g : Game) (enemy : Enemy) : Bool :=
  decide ((enemy.x - g.player.x).natAbs ≤ 1 ∧ (enemy.y - g.player.y).natAbs ≤ 1)

/-- The method `moveEnemyRandomly` on the enemy at index `i`: the first
direction of the shuffled table with a free destination (the three writes are
those of `performEnemyMove`). -/
def Game.moveEnemyRandomly (g : Game) (i : Nat) (rnd : List Nat) : Game × List Nat :=
  match g.enemies[i]? with
  | none => (g, rnd)
  | some enemy =>
    let s := shuffleArray pathDirections rnd
    match s.1.find? (fun d => g.canEnemyMoveTo (enemy.x + d.dx) (enemy.y + d.dy)) with
    | some d => (g.performEnemyMove i (enemy.x + d.dx) (enemy.y + d.dy), s.2)
    | none => (g, s.2)

/-- The method `moveEnemySmartly` on the enemy at index `i`. -/
def Game.moveEnemySmartly (g : Game) (i : Nat) (rnd : List Nat) : Option (Game × List Nat) :=
  match g.enemies[i]? with
  | none => some (g, rnd)
  | some enemy =>
    if g.canEnemyAttackPlayer enemy then some (g, rnd)
    else
      match g.findPath enemy.x enemy.y g.player.x g.player.y with
      | none => none
      | some (some (_ :: nextStep :: _)) =>
        if g.canEnemyMoveTo nextStep.x nextStep.y then
          some (g.performEnemyMove i nextStep.x nextStep.y, rnd)
        else some (g, rnd)
      | some _ => some (g.moveEnemyRandomly i rnd)

/-! ## Player actions -/

/-- The method `canMoveTo`. -/
def Game.canMoveTo (g : Game) (x y : Int) : Bool :=
  if x < 0 ∨ x ≥ (g.mapWidth : Int) ∨ y < 0 ∨ y ≥ (g.mapHeight : Int) then false
  else !(g.tileIs x y TileType.WALL) && !(g.tileIs x y TileType.ENEMY)

/-- The loop of `checkItems` over `this.items`: the first item at `(x, y)`,
and the list after `splice(i, 1)`; `none` when no item lies there. -/
def pickItem (x y : Int) : List Item → Option (Item × List Item)
  | [] => none
  | item :: rest =>
    if item.x = x ∧ item.y = y then some (item, rest)
    else (pickItem x y rest).map (fun r => (r.1, item :: r.2))

/-- The method `checkItems`. -/
def Game.checkItems (g : Game) (x y : Int) : Game :=
  match pickItem x y g.items with
  | none => g
  | some (item, items) =>
    if item.type = TileType.HEALTH_POTION then
      { g with
        player := { g.player with health := min g.player.maxHealth (g.player.health + 20) },
        items := items }
    else if item.type = TileType.SWORD then
      { g with
        player := { g.player with attackPower := g.player.attackPower + 5 },
        items := items }
    else { g with items := items }

/-- The loop of `attack` over `this.enemies` for one target cell: the first
enemy on the cell loses `attackPower` health and is spliced out when its health
is then `<= 0`.  The second component tells whether an enemy was spliced out
(its cell is then reset to Floor). -/
def hitFirst (attackPower targetX targetY : Int) : List Enemy → List Enemy × Bool
  | [] => ([], false)
  | enemy :: rest =>
    if enemy.x = targetX ∧ enemy.y = targetY then
      if enemy.health - attackPower ≤ 0 then (rest, true)
      else ({ enemy with health := enemy.health - attackPower } :: rest, false)
    else
      ((enemy :: (hitFirst attackPower targetX targetY rest).1),
        (hitFirst attackPower targetX targetY rest).2)

/-- The body of the loops over `dy` and `dx` of `attack` for one target cell. -/
def Game.attackCell (g : Game) (targetX targetY : Int) : Game :=
  let r := hitFirst g.player.attackPower targetX targetY g.enemies
  { g with
    enemies := r.1,
    map := if r.2 then set2 g.map targetX targetY TileType.FLOOR else g.map }

/-- The pairs `(dx, dy)` of the loops `for dy in -1..1: for dx in -1..1` of
`attack`, without `(0, 0)`, in the order of the loops. -/
def attackOffsets : List Dir :=
  [⟨-1, -1⟩, ⟨0, -1⟩, ⟨1, -1⟩, ⟨-1, 0⟩, ⟨1, 0⟩, ⟨-1, 1⟩, ⟨0, 1⟩, ⟨1, 1⟩]

/-- The method `attack` (rendering left out). -/
def Game.attack (g : Game) : Game :=
  attackOffsets.foldl
    (fun g1 d => g1.attackCell (g1.player.x + d.dx) (g1.player.y + d.dy)) g

/-! ## Enemy turns -/

/-- The method `enemyAttackPlayer`: 5 damage (the call of `checkGameState`
changes no field). -/
def Game.enemyAttackPlayer (g : Game) : Game :=
  { g with player := { g.player with health := g.player.health - 5 } }

/-- The test `getDistance(enemy.x, enemy.y, player.x, player.y) <= 10` of
`moveEnemies`: the square root of an integer is at most 10 exactly when the
integer is at most 100. -/
def Game.withinPursuit (g : Game) (enemy : Enemy) : Bool :=
  decide ((g.player.x - enemy.x) * (g.player.x - enemy.x) +
    (g.player.y - enemy.y) * (g.player.y - enemy.y) ≤ 100)

/-- The body of the loop of `moveEnemies` for the enemy at index `i`.  The test
`Math.random() < 0.3` takes one draw and succeeds on 3 residues out of 10. -/
def Game.enemyTurn (g : Game) (i : Nat) (rnd : List Nat) : Option (Game × List Nat) :=
  match g.enemies[i]? with
  | none => some (g, rnd)
  | some enemy =>
    if g.canEnemyAttackPlayer enemy then some (g.enemyAttackPlayer, rnd)
    else if g.withinPursuit enemy then g.moveEnemySmartly i rnd
    else if rnd.headD 0 % 10 < 3 then some (g.moveEnemyRandomly i rnd.tail)
    else some (g, rnd.tail)

/-- The loop of `moveEnemies` over a list of indices. -/
def Game.moveEnemiesFrom : List Nat → Game → List Nat → Option (Game × List Nat)
  | [], g, rnd => some (g, rnd)
  | i :: rest, g, rnd =>
    match g.enemyTurn i rnd with
    | none => none
    | some r => Game.moveEnemiesFrom rest r.1 r.2

/-- The method `moveEnemies`. -/
def Game.moveEnemies (g : Game) (rnd : List Nat) : Option (Game × List Nat) :=
  Game.moveEnemiesFrom (List.range g.enemies.length) g rnd

/-! ## Input -/

/-- The destination of the `switch` of `handleInput` on the lower-cased key:
`w`, `s`, `a`, `d` move up, down, left, right; `none` is the `default` branch.
(The attack key is handled before.) -/
def Game.destination (g : Game) (key : String) : Option (Int × Int) :=
  if key = "w" then some (g.player.x, g.player.y - 1)
  else if key = "s" then some (g.player.x, g.player.y + 1)
  else if key = "a" then some (g.player.x - 1, g.player.y)
  else if key = "d" then some (g.player.x + 1, g.player.y)
  else none

/-- The writes of `handleInput` that move the player to `(newX, newY)`. -/
def Game.movePlayer (g : Game) (newX newY : Int) : Game :=
  { g with
    map := set2 (set2 g.map g.player.x g.player.y TileType.FLOOR) newX newY TileType.PLAYER,
    player := { g.player with x := newX, y := newY } }

/-- The call `event.key.toLowerCase()`: every character lower-cased (the ASCII
letters, which is all that matters for the five keys of the game). -/
def toLowerCase (key : String) : String := String.mk (key.data.map Char.toLower)

/-- The method `handleInput` on the key `event.key` (rendering and the calls
of `checkGameState`, which change no field, left out). -/
def Game.handleInput (g : Game) (key : String) (rnd : List Nat) : Option (Game × List Nat) :=
  if g.player.health ≤ 0 ∨ g.enemies.length = 0 then some (g, rnd)
  else if toLowerCase key = " " then some (g.attack, rnd)
  else
    match g.destination (toLowerCase key) with
    | none => some (g, rnd)
    | some (newX, newY) =>
      if g.canMoveTo newX newY then
        ((g.checkItems newX newY).movePlayer newX newY).moveEnemies rnd
      else some (g, rnd)

/-- The calls of `handleInput` for a list of keys, one after the other. -/
def Game.handleInputs : List String → Game → List Nat → Option (Game × List Nat)
  | [], g, rnd => some (g, rnd)
  | key :: keys, g, rnd =>
    match g.handleInput key rnd with
    | none => none
    | some r => Game.handleInputs keys r.1 r.2

/-! ## Specification vocabulary -/

/-- A two-dimensional array with `h` rows of `w` entries each. -/
def Rect {α : Type} (w h : Nat) (m : List (List α)) : Prop :=
  m.length = h ∧ ∀ row ∈ m, row.length = w

instance {α : Type} (w h : Nat) (m : List (List α)) : Decidable (Rect w h m) := by
  unfold Rect; exact inferInstance

/-- The map of a game is a `mapHeight` by `mapWidth` array. -/
def Game.WF (g : Game) : Prop := Rect g.mapWidth g.mapHeight g.map

instance (g : Game) : Decidable g.WF := by
  unfold Game.WF; exact inferInstance

/-- The cell lies inside the map. -/
def Game.InMap (g : Game) (c : Cell) : Prop :=
  0 ≤ c.x ∧ c.x < (g.mapWidth : Int) ∧ 0 ≤ c.y ∧ c.y < (g.mapHeight : Int)

instance (g : Game) (c : Cell) : Decidable (g.InMap c) := by
  unfold Game.InMap; exact inferInstance

/-- Two cells are 4-directionally adjacent: they differ by one step up, down,
left or right (no diagonal). -/
def Adj4 (a b : Cell) : Prop := (a.x - b.x).natAbs + (a.y - b.y).natAbs = 1

instance (a b : Cell) : Decidable (Adj4 a b) := by
  unfold Adj4; exact inferInstance

/-- The cell holds Floor. -/
def Game.IsFloor (g : Game) (c : Cell) : Prop := get2 g.map c.x c.y = some TileType.FLOOR

instance (g : Game) (c : Cell) : Decidable (g.IsFloor c) := by
  unfold Game.IsFloor; exact inferInstance

/-- The cell can be stepped on by the search of `findPath`: inside the map,
neither Wall nor EnemyMarker. -/
def Game.Passable (g : Game) (c : Cell) : Prop :=
  g.InMap c ∧ get2 g.map c.x c.y ≠ some TileType.WALL ∧ get2 g.map c.x c.y ≠ some TileType.ENEMY

instance (g : Game) (c : Cell) : Decidable (g.Passable c) := by
  unfold Game.Passable; exact inferInstance

/-- The list `l` is a walk from `a` to `b`: it starts at `a`, ends at `b`,
consecutive cells are 4-adjacent, and every cell after the first satisfies
`ok`. -/
def IsWalk (ok : Cell → Prop) (a b : Cell) (l : List Cell) : Prop :=
  l.head? = some a ∧ l.getLast? = some b ∧ l.Chain' Adj4 ∧ ∀ c ∈ l.tail, ok c

/-- There is a walk of 4-adjacent Floor cells from `a` to `b` (`a` included). -/
def Game.FloorConnected (g : Game) (a b : Cell) : Prop :=
  g.IsFloor a ∧ ∃ l, IsWalk g.IsFloor a b l

/-- The cell `a` comes no later than `b` in row-major order. -/
def RowMajorLe (a b : Cell) : Prop := a.y < b.y ∨ (a.y = b.y ∧ a.x ≤ b.x)

/-- The entry of a `visited` array is `true`. -/
def Vis (visited : List (List Bool)) (c : Cell) : Prop := get2 visited c.x c.y = some true

/-- One step of a walk: to a 4-adjacent cell that satisfies `ok`. -/
def WalkStep (ok : Cell → Prop) (a b : Cell) : Prop := Adj4 a b ∧ ok b

/-- Two 4-adjacent Floor cells. -/
def Game.FloorAdj (g : Game) (a b : Cell) : Prop := Adj4 a b ∧ g.IsFloor a ∧ g.IsFloor b

/-- The number of cells of the map that `visited` has not marked. -/
def unvisitedCount (w h : Nat) (visited : List (List Bool)) : Nat :=
  (allCells w h).countP (fun c => notVisited visited c.x c.y)

/-- The cell lies on the corridor that `createStraightCorridor` carves from `a`
to `b`: on the row of `a` between the two columns, or on the column of `b`
between the two rows. -/
def OnCorridor (a b c : Cell) : Prop :=
  (c.y = a.y ∧ min a.x b.x ≤ c.x ∧ c.x ≤ max a.x b.x) ∨
  (c.x = b.x ∧ min a.y b.y ≤ c.y ∧ c.y ≤ max a.y b.y)

instance (a b c : Cell) : Decidable (OnCorridor a b c) := by
  unfold OnCorridor; exact inferInstance

/-- The cell lies in the footprint of the room. -/
def Room.Covers (r : Room) (c : Cell) : Prop :=
  r.x ≤ c.x ∧ c.x < r.x + r.width ∧ r.y ≤ c.y ∧ c.y < r.y + r.height

instance (r : Room) (c : Cell) : Decidable (r.Covers c) := by
  unfold Room.Covers; exact inferInstance

/-- The cell lies in the footprint of the room enlarged by a margin of one cell
on every side. -/
def Room.CoversWithMargin (r : Room) (c : Cell) : Prop :=
  r.x - 1 ≤ c.x ∧ c.x < r.x + r.width + 1 ∧ r.y - 1 ≤ c.y ∧ c.y < r.y + r.height + 1

instance (r : Room) (c : Cell) : Decidable (r.CoversWithMargin c) := by
  unfold Room.CoversWithMargin; exact inferInstance

/-- The states `(distMap, queue)` at which the loop `while (queue.length > 0)`
of `findPath` tests its condition, for a start `s` and a target `t`: the state
on entry, and the state after one pass of the body from a state whose first
queued cell is not the target. -/
inductive PathState (g : Game) (s t : Cell) : List (List Int) → List Cell → Prop
  | init : PathState g s t (set2 (fill2 g.mapWidth g.mapHeight (-1)) s.x s.y 0) [s]
  | pass (distMap : List (List Int)) (current : Cell) (queue : List Cell) :
      PathState g s t distMap (current :: queue) →
      ¬ (current.x = t.x ∧ current.y = t.y) →
      PathState g s t (pathDirections.foldl (g.pathVisit current) (distMap, queue)).1
        (pathDirections.foldl (g.pathVisit current) (distMap, queue)).2

/-- The Manhattan distance between two cells. -/
def manhattan (a b : Cell) : Nat := (a.x - b.x).natAbs + (a.y - b.y).natAbs

/-- The Chebyshev distance `max(|dx|, |dy|)` between two cells. -/
def chebyshev (a b : Cell) : Nat := max (a.x - b.x).natAbs (a.y - b.y).natAbs

/-- The game has just been generated: it is the result of `generateMap` on an
object with the player record of the constructor `Game()` (health 100 of 100,
attack power 10) and no enemy and no item yet. -/
def Game.Fresh (g : Game) : Prop :=
  ∃ (c : Game) (rnd rnd1 : List Nat), c.player = Game.new.player ∧ c.enemies = [] ∧
    c.items = [] ∧ c.generateMap rnd = some (g, rnd1)

/-- The state `g1` is reached from `g0` by a sequence of calls of
`handleInput`, each with any key and any outcome of the random draws. -/
inductive Game.Reachable (g0 : Game) : Game → Prop
  | start : Game.Reachable g0 g0
  | input (g g1 : Game) (key : String) (rnd rnd1 : List Nat) :
      Game.Reachable g0 g → g.handleInput key rnd = some (g1, rnd1) → Game.Reachable g0 g1

/-- The enemy record stands on the cell `(x, y)`. -/
def Enemy.isAt (x y : Int) (e : Enemy) : Bool := decide (e.x = x ∧ e.y = y)

/-- The cell of an enemy record. -/
def Enemy.cell (e : Enemy) : Cell := ⟨e.x, e.y⟩

/-- The cell of an item record. -/
def Item.cell (i : Item) : Cell := ⟨i.x, i.y⟩

/-- The cell of the player. -/
def Game.playerCell (g : Game) : Cell := ⟨g.player.x, g.player.y⟩

/-- The cells given out by `placeEntities`: the player's, then the enemies',
then the items'. -/
def Game.entityCells (g : Game) : List Cell :=
  g.playerCell :: (g.enemies.map Enemy.cell ++ g.items.map Item.cell)

/-! ## Loop invariants -/

/-- The invariant of the loop of `floodFillArea`: `V0` is the `visited` array
on entry, `start` the seed and `pre` the cells taken off the queue so far. -/
structure FillInv (g : Game) (V0 : List (List Bool)) (start : Cell) (pre : List Cell)
    (st : FillState) : Prop where
  rect : Rect g.mapWidth g.mapHeight st.visited
  cells_eq : st.cells = pre ++ st.queue
  nodup : st.cells.Nodup
  fresh : ∀ c ∈ st.cells, ¬ Vis V0 c
  floor : ∀ c ∈ st.cells, g.IsFloor c
  reach : ∀ c ∈ st.cells, Relation.ReflTransGen g.FloorAdj start c
  vis : ∀ c, Vis st.visited c ↔ (Vis V0 c ∨ c ∈ st.cells)

/-- Every Floor neighbour of a cell of `l` is marked in `visited`. -/
def ClosedAt (g : Game) (visited : List (List Bool)) (l : List Cell) : Prop :=
  ∀ c ∈ l, ∀ d, Adj4 c d → g.IsFloor d → Vis visited d

/-- The invariant of the scan of `findIsolatedAreas`. -/
structure ScanInv (g : Game) (visited : List (List Bool)) (areas : List Area) : Prop where
  rect : Rect g.mapWidth g.mapHeight visited
  vis : ∀ c, Vis visited c ↔ ∃ A ∈ areas, c ∈ A.cells
  floor : ∀ A ∈ areas, ∀ c ∈ A.cells, g.IsFloor c
  closed : ∀ c, Vis visited c → ∀ d, Adj4 c d → g.IsFloor d → Vis visited d
  nodup : (areas.flatMap Area.cells).Nodup
  conn : ∀ A ∈ areas, ∀ a ∈ A.cells, ∀ b ∈ A.cells, Relation.ReflTransGen g.FloorAdj a b
  nonempty : ∀ A ∈ areas, A.cells ≠ []
  apart : areas.Pairwise (fun A B => ∀ a ∈ A.cells, ∀ b ∈ B.cells, ¬ Adj4 a b)

/-- The list of areas is the partition of the Floor cells into maximal
4-connected components. -/
structure IsComponents (g : Game) (areas : List Area) : Prop where
  cover : ∀ c, g.IsFloor c ↔ ∃ A ∈ areas, c ∈ A.cells
  nodup : (areas.flatMap Area.cells).Nodup
  conn : ∀ A ∈ areas, ∀ a ∈ A.cells, ∀ b ∈ A.cells, Relation.ReflTransGen g.FloorAdj a b
  nonempty : ∀ A ∈ areas, A.cells ≠ []
  apart : areas.Pairwise (fun A B => ∀ a ∈ A.cells, ∀ b ∈ B.cells, ¬ Adj4 a b)

/-- The invariant of `generateRooms`: the map is a rectangle whose Floor cells
are exactly the footprints of the rooms placed so far; every room has sides of
3 to 8 cells and lies strictly inside the map; no footprint meets the margin
of another room. -/
structure RoomsInv (g : Game) (rooms : List Room) : Prop where
  wf : g.WF
  size : ∀ r ∈ rooms, 3 ≤ r.width ∧ r.width ≤ 8 ∧ 3 ≤ r.height ∧ r.height ≤ 8 ∧
    1 ≤ r.x ∧ r.x + r.width < (g.mapWidth : Int) ∧ 1 ≤ r.y ∧ r.y + r.height < (g.mapHeight : Int)
  floor : ∀ c, g.IsFloor c ↔ ∃ r ∈ rooms, r.Covers c
  apart : rooms.Pairwise (fun r1 r2 => ∀ c,
    (r1.Covers c → ¬ r2.CoversWithMargin c) ∧ (r2.Covers c → ¬ r1.CoversWithMargin c))

/-- The number of cells of the map whose entry in `distMap` is still `-1`. -/
def unseenCount (w h : Nat) (distMap : List (List Int)) : Nat :=
  (allCells w h).countP (fun c => decide (get2 distMap c.x c.y = some (-1)))

/-- Entries of `d1` that are not `-1` are the same in `d2`. -/
def StableD (d1 d2 : List (List Int)) : Prop :=
  ∀ (c : Cell) (k : Int), get2 d1 c.x c.y = some k → 0 ≤ k → get2 d2 c.x c.y = some k

/-- Every passable neighbour of a cell of `l` has a distance, at most one more
than the cell. -/
def ClosedD (g : Game) (distMap : List (List Int)) (l : List Cell) : Prop :=
  ∀ p ∈ l, ∀ n, Adj4 p n → g.Passable n →
    ∃ kp kn, get2 distMap p.x p.y = some kp ∧ get2 distMap n.x n.y = some kn ∧
      0 ≤ kn ∧ kn ≤ kp + 1

/-- The invariant of the search loop of `findPath` from `s` to `t`: `pre` are
the cells taken off the queue so far and `lo` is a lower bound of the distances
in the queue. -/
structure PathInv (g : Game) (s t : Cell) (distMap : List (List Int)) (pre queue : List Cell)
    (lo : Int) : Prop where
  rect : Rect g.mapWidth g.mapHeight distMap
  start0 : get2 distMap s.x s.y = some 0
  vals : ∀ (c : Cell) (k : Int), get2 distMap c.x c.y = some k → -1 ≤ k
  zero : ∀ c : Cell, get2 distMap c.x c.y = some 0 → c = s
  step : ∀ (c : Cell) (k : Int), get2 distMap c.x c.y = some k → 1 ≤ k →
    g.Passable c ∧ ∃ p, Adj4 p c ∧ get2 distMap p.x p.y = some (k - 1)
  seen : ∀ (c : Cell) (k : Int), get2 distMap c.x c.y = some k → 0 ≤ k → c ∈ pre ∨ c ∈ queue
  qvis : ∀ c, c ∈ pre ∨ c ∈ queue → ∃ k, get2 distMap c.x c.y = some k ∧ 0 ≤ k
  notarget : t ∉ pre
  pre_le : ∀ p ∈ pre, ∀ k, get2 distMap p.x p.y = some k → k ≤ lo
  q_rng : ∀ c ∈ queue, ∀ k, get2 distMap c.x c.y = some k → lo ≤ k ∧ k ≤ lo + 1
  sorted : queue.Pairwise (fun a b => ∀ ka kb, get2 distMap a.x a.y = some ka →
    get2 distMap b.x b.y = some kb → ka ≤ kb)
  depth : ∀ c ∈ queue, ∀ k, get2 distMap c.x c.y = some k → k ≤ (pre.length : Int)
  bound : pre.length + queue.length + unseenCount g.mapWidth g.mapHeight distMap
    ≤ g.mapWidth * g.mapHeight

/-- What `findPath` from `s` to `t` must answer: a shortest walk over passable
cells, or `null` when there is no such walk. -/
def PathSpec (g : Game) (s t : Cell) : Option (List Cell) → Prop
  | some path => IsWalk g.Passable s t path ∧
      ∀ l, IsWalk g.Passable s t l → path.length ≤ l.length
  | none => ¬ ∃ l, IsWalk g.Passable s t l

/-- The two states have the same player, enemy list and item list (they may
differ in the map). -/
def Game.SameEntities (g1 g : Game) : Prop :=
  g1.player = g.player ∧ g1.enemies = g.enemies ∧ g1.items = g.items

/-- The two states have maps of the same declared size. -/
def Game.SameSize (g1 g : Game) : Prop :=
  g1.mapWidth = g.mapWidth ∧ g1.mapHeight = g.mapHeight

/-! ## Sample states -/

/-- A 4 by 3 map with three separate Floor areas. -/
def sampleGrid : Game :=
  { map := [[TileType.FLOOR, TileType.WALL, TileType.FLOOR, TileType.FLOOR],
            [TileType.WALL, TileType.WALL, TileType.WALL, TileType.FLOOR],
            [TileType.FLOOR, TileType.FLOOR, TileType.WALL, TileType.WALL]],
    player := ⟨0, 0, 100, 100, 10⟩, enemies := [], items := [], mapWidth := 4, mapHeight := 3 }

/-- A 5 by 5 room without obstacles, an enemy at (0,0) and the player at (4,4);
no marker has been written yet (`placeEntities` writes none). -/
def openRoom : Game :=
  { map := fill2 5 5 TileType.FLOOR, player := ⟨4, 4, 100, 100, 10⟩,
    enemies := [⟨0, 0, 30, 30⟩], items := [], mapWidth := 5, mapHeight := 5 }

/-- The room `openRoom` with the EnemyMarker and the PlayerMarker on the cells
of the enemy and of the player. -/
def markedRoom : Game :=
  { openRoom with
    map := set2 (set2 (fill2 5 5 TileType.FLOOR) 0 0 TileType.ENEMY) 4 4 TileType.PLAYER }

/-- An empty game on a 24 by 5 map, wide enough for five rooms in a row. -/
def wideGame : Game :=
  { map := [], player := ⟨0, 0, 100, 100, 10⟩, enemies := [], items := [],
    mapWidth := 24, mapHeight := 5 }

/-- Draws that make `generateRooms` place five 3 by 3 rooms on `wideGame`, at
the columns 1, 5, 9, 13 and 17. -/
def wideDraws : List Nat := [0, 0, 0, 0, 0, 0, 0, 4, 0, 0, 0, 8, 0, 0, 0, 12, 0, 0, 0, 16, 0]

/-- The state of the search loop of `findPath` on `openRoom`, from (0,0), after
the pass for the start cell (0,0). -/
def searchAfterOne : List (List Int) × List Cell :=
  pathDirections.foldl (openRoom.pathVisit ⟨0, 0⟩) (set2 (fill2 5 5 (-1)) 0 0 0, [])

/-- The state of the same search after the second pass, for the cell (0,1). -/
def searchAfterTwo : List (List Int) × List Cell :=
  pathDirections.foldl (openRoom.pathVisit ⟨0, 1⟩) (searchAfterOne.1, [⟨1, 0⟩])

/-- The object of the constructor `Game()` with a 3 by 3 map instead of the
40 by 24 one. -/
def smallGame : Game := { Game.new with mapWidth := 3, mapHeight := 3 }

/-- A player with health 90 of 100 next to a health potion at (1,0), which
comes second in the item list after a sword elsewhere. -/
def potionRoom : Game :=
  { map := fill2 5 5 TileType.FLOOR, player := ⟨0, 0, 90, 100, 10⟩,
    enemies := [⟨4, 4, 30, 30⟩],
    items := [⟨3, 3, TileType.SWORD⟩, ⟨1, 0, TileType.HEALTH_POTION⟩,
      ⟨1, 0, TileType.HEALTH_POTION⟩],
    mapWidth := 5, mapHeight := 5 }

/-- A player with attack power 10 at (1,1), next to an enemy with health 8 at
(2,1) and an enemy with health 30 at (1,2), both with their markers. -/
def duelRoom : Game :=
  { map := set2 (set2 (set2 (fill2 5 5 TileType.FLOOR) 1 1 TileType.PLAYER) 2 1 TileType.ENEMY)
      1 2 TileType.ENEMY,
    player := ⟨1, 1, 100, 100, 10⟩,
    enemies := [⟨1, 2, 30, 30⟩, ⟨2, 1, 8, 30⟩], items := [],
    mapWidth := 5, mapHeight := 5 }

/-- A player with health 5 of 100 at (1,1) between two enemies, at (0,1) and
at (2,2). -/
def cornered : Game :=
  { map := set2 (set2 (set2 (fill2 5 5 TileType.FLOOR) 1 1 TileType.PLAYER) 0 1 TileType.ENEMY)
      2 2 TileType.ENEMY,
    player := ⟨1, 1, 5, 100, 10⟩,
    enemies := [⟨0, 1, 30, 30⟩, ⟨2, 2, 30, 30⟩], items := [],
    mapWidth := 5, mapHeight := 5 }

/-- The room `openRoom` before any enemy is placed: 25 Floor cells. -/
def emptyRoom : Game := { openRoom with enemies := [] }

/-- The state `cornered` after one enemy has hit the player: health 0, both
enemies alive. -/
def fallen : Game := cornered.enemyAttackPlayer

/-- The game that `generateMap` builds from `smallGame` when every draw is 0. -/
def smallStart : Game := ((smallGame.generateMap []).map Prod.fst).getD smallGame

/-! ### A run of the constructor's game -/

/-- The shuffle draws of `arenaDraws`: the indices `j` of the first eleven
swaps of `shuffleArray` (the later draws are 0). -/
def arenaShuffle : List Nat := [3, 65, 64, 2, 4, 41, 42, 43, 45, 44, 46]

/-- A sequence of draws for `generateMap` on the constructor's game: 1689 draws
0 (one room at (1,1), every corridor on the row 1 or the column 1), then the
draws of the shuffle of `placeEntities`. -/
def arenaDraws : List Nat := List.replicate 1689 0 ++ arenaShuffle

/-- A row of the map `arenaMap` outside the room: Floor in the column 1 only. -/
def arenaRow : List TileType := TileType.WALL :: TileType.FLOOR :: List.replicate 38 TileType.WALL

/-- A row of the map `arenaMap` through the room: Floor in the columns 1 to 3. -/
def arenaRoomRow : List TileType :=
  TileType.WALL :: TileType.FLOOR :: TileType.FLOOR :: TileType.FLOOR :: List.replicate 36 TileType.WALL

/-- The 40 by 24 map with the room (1,1,3,3), the row 1 and the column 1. -/
def arenaMap : List (List TileType) :=
  [arenaRow, List.replicate 40 TileType.FLOOR, arenaRoomRow, arenaRoomRow] ++
    List.replicate 20 arenaRow

/-- The constructor's game after its first room has been carved. -/
def arenaRoomed : Game := Game.new.createEmptyMap.setTiles (roomCells 1 1 3 3) TileType.FLOOR

/-- The constructor's game with the map `arenaMap`, before `placeEntities`. -/
def arenaBare : Game := { Game.new with map := arenaMap }

/-- The Floor cells of `arenaMap` in row-major order. -/
def arenaFloor : List Cell :=
  Cell.mk 1 0 :: ((List.range 40).map (fun (x : Nat) => Cell.mk (Int.ofNat x) 1) ++
    [⟨1, 2⟩, ⟨2, 2⟩, ⟨3, 2⟩, ⟨1, 3⟩, ⟨2, 3⟩, ⟨3, 3⟩] ++
    (List.range 20).map (fun (y : Nat) => Cell.mk 1 (Int.ofNat y + 4)))

/-- The game that `generateMap` builds from the constructor's game with the
draws `arenaDraws`: the player at (2,1), two enemies far down the column 1 and
eight enemies in the room around (2,2); no marker is on the map. -/
def arena : Game :=
  { map := arenaMap, player := ⟨2, 1, 100, 100, 10⟩,
    enemies := [⟨1, 22, 30, 30⟩, ⟨1, 21, 30, 30⟩, ⟨1, 1, 30, 30⟩, ⟨3, 1, 30, 30⟩, ⟨1, 2, 30, 30⟩,
      ⟨2, 2, 30, 30⟩, ⟨3, 2, 30, 30⟩, ⟨2, 3, 30, 30⟩, ⟨1, 3, 30, 30⟩, ⟨3, 3, 30, 30⟩],
    items := [⟨1, 0, TileType.SWORD⟩, ⟨1, 12, TileType.SWORD⟩, ⟨1, 11, TileType.HEALTH_POTION⟩,
      ⟨1, 10, TileType.HEALTH_POTION⟩, ⟨1, 9, TileType.HEALTH_POTION⟩,
      ⟨1, 8, TileType.HEALTH_POTION⟩, ⟨1, 7, TileType.HEALTH_POTION⟩,
      ⟨1, 6, TileType.HEALTH_POTION⟩, ⟨1, 5, TileType.HEALTH_POTION⟩,
      ⟨1, 4, TileType.HEALTH_POTION⟩, ⟨1, 13, TileType.HEALTH_POTION⟩,
      ⟨1, 15, TileType.HEALTH_POTION⟩],
    mapWidth := 40, mapHeight := 24 }

/-- Two keys after which two enemy records of `arena` stand on one marked
cell. -/
def crowdKeys : List String := ["s", "s"]

/-- Three keys after which the player of `arena` has health -10. -/
def fatalKeys : List String := ["s", "s", "w"]

/-- The map `sampleGrid` with the player at (2,0) and an enemy walled in
at (0,0): no walk leads from the enemy to the player. -/
def walledGame : Game :=
  { sampleGrid with player := ⟨2, 0, 100, 100, 10⟩, enemies := [⟨0, 0, 30, 30⟩] }
/-! ## Two-dimensional arrays: reads after writes -/

theorem get2_inb {α : Type} {w h : Nat} {m : List (List α)} (hm : Rect w h m)
    {x y : Int} {v : α} (hv : get2 m x y = some v) :
    0 ≤ x ∧ x < (w : Int) ∧ 0 ≤ y ∧ y < (h : Int) := by
  unfold get2 at hv
  split at hv
  · rename_i hxy
    obtain ⟨row, hrow, hx⟩ := Option.bind_eq_some.mp hv
    obtain ⟨hy1, -⟩ := List.getElem?_eq_some.mp hrow
    obtain ⟨hx1, -⟩ := List.getElem?_eq_some.mp hx
    have hmem : row ∈ m := List.getElem?_mem hrow
    have := hm.2 row hmem
    have := hm.1
    omega
  · cases hv

theorem get2_of_inb {α : Type} {w h : Nat} {m : List (List α)} (hm : Rect w h m)
    {x y : Int} (hb : 0 ≤ x ∧ x < (w : Int) ∧ 0 ≤ y ∧ y < (h : Int)) :
    ∃ v, get2 m x y = some v := by
  have hy1 : y.toNat < m.length := by have := hm.1; omega
  have hrow : (m[y.toNat]) ∈ m := List.getElem_mem hy1
  have hx1 : x.toNat < (m[y.toNat]).length := by have := hm.2 _ hrow; omega
  refine ⟨(m[y.toNat])[x.toNat], ?_⟩
  unfold get2
  rw [if_pos ⟨hb.1, hb.2.2.1⟩, List.getElem?_eq_getElem hy1]
  simp [List.getElem?_eq_getElem hx1]

theorem get2_set2_other {α : Type} (m : List (List α)) (x y x1 y1 : Int) (v : α)
    (hne : ¬ (x1 = x ∧ y1 = y)) : get2 (set2 m x y v) x1 y1 = get2 m x1 y1 := by
  unfold set2
  split
  · rename_i hxy
    split
    · rename_i row hrow
      unfold get2
      split
      · rename_i h1
        by_cases hy : y1 = y
        · subst hy
          have hx : x.toNat ≠ x1.toNat := by
            intro h; apply hne; constructor
            · omega
            · rfl
          obtain ⟨hlt, -⟩ := List.getElem?_eq_some.mp hrow
          rw [List.getElem?_set_self hlt, hrow]
          simp [List.getElem?_set_ne hx]
        · have hy2 : y.toNat ≠ y1.toNat := by omega
          rw [List.getElem?_set_ne hy2]
      · rfl
    · rfl
  · rfl

theorem get2_set2_same {α : Type} {w h : Nat} {m : List (List α)} (hm : Rect w h m)
    {x y : Int} (hb : 0 ≤ x ∧ x < (w : Int) ∧ 0 ≤ y ∧ y < (h : Int)) (v : α) :
    get2 (set2 m x y v) x y = some v := by
  have hy1 : y.toNat < m.length := by have := hm.1; omega
  have hrow : (m[y.toNat]) ∈ m := List.getElem_mem hy1
  have hx1 : x.toNat < (m[y.toNat]).length := by have := hm.2 _ hrow; omega
  unfold set2 get2
  rw [if_pos ⟨hb.1, hb.2.2.1⟩, if_pos ⟨hb.1, hb.2.2.1⟩, List.getElem?_eq_getElem hy1]
  simp only
  rw [List.getElem?_set_self hy1]
  simp [List.getElem?_set_self hx1]

theorem Rect_set2 {α : Type} {w h : Nat} {m : List (List α)} (hm : Rect w h m)
    (x y : Int) (v : α) : Rect w h (set2 m x y v) := by
  unfold set2
  split
  · split
    · rename_i row hrow
      refine ⟨by rw [List.length_set]; exact hm.1, ?_⟩
      intro r hr
      rcases List.mem_or_eq_of_mem_set hr with h1 | h1
      · exact hm.2 r h1
      · rw [h1, List.length_set]; exact hm.2 row (List.getElem?_mem hrow)
    · exact hm
  · exact hm

theorem Rect_fill2 {α : Type} (w h : Nat) (v : α) : Rect w h (fill2 w h v) := by
  refine ⟨by simp [fill2], ?_⟩
  intro row hrow
  have := List.eq_of_mem_replicate hrow
  simp [this]

theorem get2_fill2 {α : Type} (w h : Nat) (v : α) (x y : Int) (u : α)
    (hu : get2 (fill2 w h v) x y = some u) : u = v := by
  unfold get2 at hu
  split at hu
  · obtain ⟨row, hrow, hx⟩ := Option.bind_eq_some.mp hu
    have h1 : row = List.replicate w v := List.eq_of_mem_replicate (List.getElem?_mem hrow)
    subst h1
    exact List.eq_of_mem_replicate (List.getElem?_mem hx)
  · cases hu

theorem mem_allCells (w h : Nat) (c : Cell) :
    c ∈ allCells w h ↔ 0 ≤ c.x ∧ c.x < (w : Int) ∧ 0 ≤ c.y ∧ c.y < (h : Int) := by
  unfold allCells
  simp only [List.mem_flatMap, List.mem_map, List.mem_range]
  constructor
  · rintro ⟨y, hy, x, hx, rfl⟩
    simp only [Int.ofNat_eq_coe]
    omega
  · intro hc
    refine ⟨c.y.toNat, by omega, c.x.toNat, by omega, ?_⟩
    cases c with
    | mk cx cy =>
      simp only [Int.ofNat_eq_coe] at hc ⊢
      congr 1 <;> omega

theorem nodup_allCells (w h : Nat) : (allCells w h).Nodup := by
  unfold allCells
  rw [List.nodup_flatMap]
  constructor
  · intro y _
    refine (List.nodup_range w).map ?_
    intro a b hab
    simpa using congrArg Cell.x hab
  · refine List.Pairwise.imp_of_mem ?_ (List.nodup_range h)
    intro a b _ _ hab
    simp only [Function.onFun, List.disjoint_left, List.mem_map, List.mem_range]
    rintro c ⟨x, _, rfl⟩ ⟨x1, _, h1⟩
    apply hab
    simpa using (congrArg Cell.y h1).symm


/-! ## Walks -/

theorem Adj4.symm {a b : Cell} (h : Adj4 a b) : Adj4 b a := by
  unfold Adj4 at *; omega

theorem adj4_iff_dir (a b : Cell) :
    Adj4 a b ↔ b = ⟨a.x, a.y - 1⟩ ∨ b = ⟨a.x + 1, a.y⟩ ∨ b = ⟨a.x, a.y + 1⟩ ∨ b = ⟨a.x - 1, a.y⟩ := by
  cases a with
  | mk ax ay =>
    cases b with
    | mk bx b_y =>
      simp only [Adj4, Cell.mk.injEq]
      omega

theorem walk_iff_reach (ok : Cell → Prop) (a b : Cell) :
    (∃ l, IsWalk ok a b l) ↔ Relation.ReflTransGen (WalkStep ok) a b := by
  constructor
  · rintro ⟨l, hl⟩
    induction l generalizing a with
    | nil => simp [IsWalk] at hl
    | cons c t ih =>
      obtain ⟨h1, h2, h3, h4⟩ := hl
      simp only [List.head?_cons, Option.some.injEq] at h1
      subst h1
      cases t with
      | nil =>
        simp only [List.getLast?_singleton, Option.some.injEq] at h2
        subst h2; exact Relation.ReflTransGen.refl
      | cons d t2 =>
        have hadj : Adj4 c d := (List.chain'_cons.mp h3).1
        have hok : ok d := h4 d (by simp)
        refine Relation.ReflTransGen.head ⟨hadj, hok⟩ (ih d ⟨rfl, ?_, (List.chain'_cons.mp h3).2, ?_⟩)
        · simpa [List.getLast?_cons_cons] using h2
        · intro e he; exact h4 e (by simp at he ⊢; exact Or.inr he)
  · intro h
    induction h using Relation.ReflTransGen.head_induction_on with
    | refl => exact ⟨[b], rfl, rfl, List.chain'_singleton b, by simp⟩
    | @head a1 c hstep _ ih =>
      obtain ⟨l, h1, h2, h3, h4⟩ := ih
      cases l with
      | nil => simp at h1
      | cons d t =>
        simp only [List.head?_cons, Option.some.injEq] at h1
        subst h1
        refine ⟨a1 :: d :: t, rfl, ?_, List.chain'_cons.mpr ⟨hstep.1, h3⟩, ?_⟩
        · simpa [List.getLast?_cons_cons] using h2
        · intro e he
          simp only [List.tail_cons, List.mem_cons] at he
          rcases he with rfl | he
          · exact hstep.2
          · exact h4 e (by simpa using he)

theorem floorAdj_symm (g : Game) : Symmetric g.FloorAdj := by
  intro a b h; exact ⟨h.1.symm, h.2.2, h.2.1⟩

theorem floorReach_symm (g : Game) {a b : Cell}
    (h : Relation.ReflTransGen g.FloorAdj a b) : Relation.ReflTransGen g.FloorAdj b a :=
  Relation.ReflTransGen.symmetric (floorAdj_symm g) h

theorem floorReach_of_steps (g : Game) {a b : Cell} (ha : g.IsFloor a)
    (h : Relation.ReflTransGen (WalkStep g.IsFloor) a b) :
    Relation.ReflTransGen g.FloorAdj a b ∧ g.IsFloor b := by
  induction h with
  | refl => exact ⟨Relation.ReflTransGen.refl, ha⟩
  | tail _ hs ih => exact ⟨ih.1.tail ⟨hs.1, ih.2, hs.2⟩, hs.2⟩

theorem steps_of_floorReach (g : Game) {a b : Cell}
    (h : Relation.ReflTransGen g.FloorAdj a b) :
    Relation.ReflTransGen (WalkStep g.IsFloor) a b :=
  Relation.ReflTransGen.mono (fun _ _ hs => ⟨hs.1, hs.2.2⟩) h

theorem floorConnected_iff (g : Game) (a b : Cell) :
    g.FloorConnected a b ↔ g.IsFloor a ∧ Relation.ReflTransGen g.FloorAdj a b := by
  unfold Game.FloorConnected
  rw [walk_iff_reach]
  constructor
  · rintro ⟨ha, h⟩; exact ⟨ha, (floorReach_of_steps g ha h).1⟩
  · rintro ⟨ha, h⟩; exact ⟨ha, steps_of_floorReach g h⟩

theorem floorConnected_isFloor_right (g : Game) {a b : Cell} (h : g.FloorConnected a b) :
    g.IsFloor b := by
  unfold Game.FloorConnected at h
  rw [walk_iff_reach] at h
  exact (floorReach_of_steps g h.1 h.2).2

theorem floorConnected_symm (g : Game) {a b : Cell} (h : g.FloorConnected a b) :
    g.FloorConnected b a := by
  have hb := floorConnected_isFloor_right g h
  rw [floorConnected_iff] at h ⊢
  exact ⟨hb, floorReach_symm g h.2⟩

theorem floorConnected_trans (g : Game) {a b c : Cell} (h1 : g.FloorConnected a b)
    (h2 : g.FloorConnected b c) : g.FloorConnected a c := by
  rw [floorConnected_iff] at *
  exact ⟨h1.1, h1.2.trans h2.2⟩

theorem isFloor_inMap {g : Game} (hg : g.WF) {c : Cell} (h : g.IsFloor c) : g.InMap c :=
  get2_inb hg h

/-! ## The flood fill of `floodFillArea` -/

theorem countP_lt_of_flip {α : Type} (p q : α → Bool) (l : List α) (c : α)
    (hpq : ∀ a ∈ l, q a = true → p a = true) (hc : c ∈ l) (hp : p c = true) (hq : q c = false) :
    l.countP q < l.countP p := by
  induction l with
  | nil => cases hc
  | cons a t ih =>
    have hmono : t.countP q ≤ t.countP p :=
      List.countP_mono_left (fun x hx hqx => hpq x (List.mem_cons_of_mem a hx) hqx)
    by_cases hac : a = c
    · subst hac
      rw [List.countP_cons_of_pos _ _ hp, List.countP_cons_of_neg _ _ (by simp [hq])]
      omega
    · have hct : c ∈ t := by
        rcases List.mem_cons.mp hc with h | h
        · exact absurd h.symm hac
        · exact h
      have := ih (fun x hx => hpq x (List.mem_cons_of_mem a hx)) hct
      by_cases hqa : q a = true
      · rw [List.countP_cons_of_pos _ _ hqa, List.countP_cons_of_pos _ _ (hpq a (List.mem_cons_self a t) hqa)]
        omega
      · rw [List.countP_cons_of_neg _ _ hqa]
        have : t.countP p ≤ (a :: t).countP p := by
          rw [List.countP_cons]; omega
        omega

theorem vis_set2 {w h : Nat} {v : List (List Bool)} (hv : Rect w h v) {n : Cell}
    (hn : 0 ≤ n.x ∧ n.x < (w : Int) ∧ 0 ≤ n.y ∧ n.y < (h : Int)) (c : Cell) :
    Vis (set2 v n.x n.y true) c ↔ (c = n ∨ Vis v c) := by
  unfold Vis
  by_cases hc : c = n
  · subst hc
    simp [get2_set2_same hv hn]
  · have hne : ¬ (c.x = n.x ∧ c.y = n.y) := by
      intro h; apply hc
      cases c; cases n; simp_all
    rw [get2_set2_other _ _ _ _ _ _ hne]
    simp [hc]

theorem unvisitedCount_set2 {w h : Nat} {v : List (List Bool)} (hv : Rect w h v) {n : Cell}
    (hn : 0 ≤ n.x ∧ n.x < (w : Int) ∧ 0 ≤ n.y ∧ n.y < (h : Int))
    (hnv : notVisited v n.x n.y = true) :
    unvisitedCount w h (set2 v n.x n.y true) + 1 ≤ unvisitedCount w h v := by
  unfold unvisitedCount
  apply countP_lt_of_flip _ _ _ n
  · intro a _ ha
    simp only [notVisited, decide_eq_true_eq] at ha ⊢
    intro h1
    exact ha ((vis_set2 hv hn a).mpr (Or.inr h1))
  · exact (mem_allCells w h n).mpr hn
  · exact hnv
  · simp only [notVisited, decide_eq_false_iff_not, not_not]
    exact (vis_set2 hv hn n).mpr (Or.inl rfl)

theorem unvisitedCount_le (w h : Nat) (v : List (List Bool)) : unvisitedCount w h v ≤ w * h := by
  unfold unvisitedCount
  refine le_trans (List.countP_le_length _) ?_
  simp [allCells, List.length_flatMap, Function.comp_def, Nat.mul_comm]

theorem fillVisit_spec {g : Game} (hg : g.WF) {V0 : List (List Bool)} {start cur : Cell}
    {pre : List Cell} {st : FillState} (inv : FillInv g V0 start pre st) (hcur : cur ∈ pre)
    (d : Dir) (hadj : Adj4 cur ⟨cur.x + d.dx, cur.y + d.dy⟩) :
    FillInv g V0 start pre (g.fillVisit cur st d) ∧
    (∀ c, Vis st.visited c → Vis (g.fillVisit cur st d).visited c) ∧
    (g.IsFloor ⟨cur.x + d.dx, cur.y + d.dy⟩ →
      Vis (g.fillVisit cur st d).visited ⟨cur.x + d.dx, cur.y + d.dy⟩) ∧
    (g.fillVisit cur st d).queue.length + unvisitedCount g.mapWidth g.mapHeight
        (g.fillVisit cur st d).visited
      ≤ st.queue.length + unvisitedCount g.mapWidth g.mapHeight st.visited := by
  have hcurc : cur ∈ st.cells := by rw [inv.cells_eq]; exact List.mem_append_left _ hcur
  unfold Game.fillVisit
  simp only
  split
  · rename_i hcond
    simp only [Bool.and_eq_true, Game.inBounds, Game.tileIs, notVisited, decide_eq_true_eq] at hcond
    obtain ⟨⟨hin, hnv⟩, hfl⟩ := hcond
    have hnc : (⟨cur.x + d.dx, cur.y + d.dy⟩ : Cell) ∉ st.cells := by
      intro hmem; exact hnv ((inv.vis _).mpr (Or.inr hmem))
    have hvis := vis_set2 inv.rect (n := ⟨cur.x + d.dx, cur.y + d.dy⟩) hin
    refine ⟨⟨Rect_set2 inv.rect _ _ _, ?_, ?_, ?_, ?_, ?_, ?_⟩, ?_, ?_, ?_⟩
    · simp [inv.cells_eq]
    · exact List.Nodup.append inv.nodup (List.nodup_singleton _) (by simpa using hnc)
    · intro c hc
      rcases List.mem_append.mp hc with h | h
      · exact inv.fresh c h
      · simp only [List.mem_singleton] at h; subst h
        intro h0; exact hnv ((inv.vis _).mpr (Or.inl h0))
    · intro c hc
      rcases List.mem_append.mp hc with h | h
      · exact inv.floor c h
      · simp only [List.mem_singleton] at h; subst h; exact hfl
    · intro c hc
      rcases List.mem_append.mp hc with h | h
      · exact inv.reach c h
      · simp only [List.mem_singleton] at h; subst h
        exact (inv.reach cur hcurc).tail ⟨hadj, inv.floor cur hcurc, hfl⟩
    · intro c
      rw [hvis c, inv.vis c]
      simp only [List.mem_append, List.mem_singleton]
      tauto
    · intro c hc; exact (hvis c).mpr (Or.inr hc)
    · intro _; exact (hvis _).mpr (Or.inl rfl)
    · have := unvisitedCount_set2 inv.rect (n := ⟨cur.x + d.dx, cur.y + d.dy⟩) hin
        (by simpa [notVisited] using hnv)
      simp only [List.length_append, List.length_singleton] at this ⊢
      omega
  · rename_i hcond
    refine ⟨inv, fun c hc => hc, ?_, le_refl _⟩
    intro hfl
    by_contra hnv
    apply hcond
    have hin := isFloor_inMap hg hfl
    simp only [Bool.and_eq_true, Game.inBounds, Game.tileIs, notVisited, decide_eq_true_eq]
    exact ⟨⟨hin, hnv⟩, hfl⟩

theorem fillFold_spec {g : Game} (hg : g.WF) {V0 : List (List Bool)} {start : Cell} (cur : Cell)
    {pre : List Cell} (hcur : cur ∈ pre) (ds : List Dir)
    (hds : ∀ d ∈ ds, Adj4 cur ⟨cur.x + d.dx, cur.y + d.dy⟩) (st : FillState)
    (inv : FillInv g V0 start pre st) :
    FillInv g V0 start pre (ds.foldl (g.fillVisit cur) st) ∧
    (∀ c, Vis st.visited c → Vis (ds.foldl (g.fillVisit cur) st).visited c) ∧
    (∀ d ∈ ds, g.IsFloor ⟨cur.x + d.dx, cur.y + d.dy⟩ →
      Vis (ds.foldl (g.fillVisit cur) st).visited ⟨cur.x + d.dx, cur.y + d.dy⟩) ∧
    (ds.foldl (g.fillVisit cur) st).queue.length + unvisitedCount g.mapWidth g.mapHeight
        (ds.foldl (g.fillVisit cur) st).visited
      ≤ st.queue.length + unvisitedCount g.mapWidth g.mapHeight st.visited := by
  induction ds generalizing st with
  | nil => exact ⟨inv, fun _ h => h, by simp, le_refl _⟩
  | cons d ds ih =>
    obtain ⟨i1, m1, f1, u1⟩ := fillVisit_spec hg inv hcur d (hds d (List.mem_cons_self _ _))
    obtain ⟨i2, m2, f2, u2⟩ := ih (fun e he => hds e (List.mem_cons_of_mem _ he)) _ i1
    simp only [List.foldl_cons]
    refine ⟨i2, fun c hc => m2 c (m1 c hc), ?_, le_trans u2 u1⟩
    intro e he hfl
    rcases List.mem_cons.mp he with rfl | he
    · exact m2 _ (f1 hfl)
    · exact f2 e he hfl

theorem fillDirections_adj (cur : Cell) :
    ∀ d ∈ fillDirections, Adj4 cur ⟨cur.x + d.dx, cur.y + d.dy⟩ := by
  intro d hd
  simp only [fillDirections, List.mem_cons, List.mem_singleton, List.not_mem_nil, or_false] at hd
  rcases hd with rfl | rfl | rfl | rfl <;> simp [Adj4]

theorem adj4_fillDirections {cur n : Cell} (h : Adj4 cur n) :
    ∃ d ∈ fillDirections, n = ⟨cur.x + d.dx, cur.y + d.dy⟩ := by
  rcases (adj4_iff_dir cur n).mp h with h | h | h | h
  · exact ⟨⟨0, -1⟩, by simp [fillDirections], by simp [h]; rfl⟩
  · exact ⟨⟨1, 0⟩, by simp [fillDirections], by simp [h]⟩
  · exact ⟨⟨0, 1⟩, by simp [fillDirections], by simp [h]⟩
  · exact ⟨⟨-1, 0⟩, by simp [fillDirections], by simp [h]; rfl⟩

theorem fillLoop_spec {g : Game} (hg : g.WF) {V0 : List (List Bool)} {start : Cell} :
    ∀ (fuel : Nat) (st : FillState) (pre : List Cell), FillInv g V0 start pre st →
      ClosedAt g st.visited pre →
      st.queue.length + unvisitedCount g.mapWidth g.mapHeight st.visited < fuel →
      ∃ v cs, g.fillLoop fuel st = some (v, cs) ∧ FillInv g V0 start cs ⟨v, cs, []⟩ ∧
        ClosedAt g v cs ∧ (∀ c, Vis st.visited c → Vis v c) := by
  intro fuel
  induction fuel with
  | zero => intro st pre _ _ h; omega
  | succ fuel ih =>
    intro st pre inv hcl hfuel
    unfold Game.fillLoop
    cases hq : st.queue with
    | nil =>
      have hcells : st.cells = pre := by rw [inv.cells_eq, hq, List.append_nil]
      refine ⟨st.visited, st.cells, rfl, ?_, ?_, fun _ h => h⟩
      · exact ⟨inv.rect, by simp, inv.nodup, inv.fresh, inv.floor, inv.reach, inv.vis⟩
      · rw [hcells]; exact hcl
    | cons cur rest =>
      simp only
      have inv0 : FillInv g V0 start (pre ++ [cur]) { st with queue := rest } :=
        ⟨inv.rect, by simp [inv.cells_eq, hq], inv.nodup, inv.fresh, inv.floor, inv.reach, inv.vis⟩
      obtain ⟨i1, m1, f1, u1⟩ := fillFold_spec hg cur (by simp) fillDirections
        (fillDirections_adj cur) _ inv0
      have hcl1 : ClosedAt g (fillDirections.foldl (g.fillVisit cur) { st with queue := rest }).visited
          (pre ++ [cur]) := by
        intro c hc n hadj hfl
        rcases List.mem_append.mp hc with h | h
        · exact m1 n (hcl c h n hadj hfl)
        · simp only [List.mem_singleton] at h; subst h
          obtain ⟨d, hd, rfl⟩ := adj4_fillDirections hadj
          exact f1 d hd hfl
      have hfuel1 : (fillDirections.foldl (g.fillVisit cur) { st with queue := rest }).queue.length +
          unvisitedCount g.mapWidth g.mapHeight
            (fillDirections.foldl (g.fillVisit cur) { st with queue := rest }).visited < fuel := by
        rw [hq] at hfuel
        simp only [List.length_cons] at hfuel u1
        omega
      obtain ⟨v, cs, hr, i2, c2, m2⟩ := ih _ _ i1 hcl1 hfuel1
      exact ⟨v, cs, hr, i2, c2, fun c hc => m2 c (m1 c hc)⟩

/-! ## `floodFillArea` and `findIsolatedAreas` -/

theorem not_vis_fill2 (w h : Nat) (c : Cell) : ¬ Vis (fill2 w h false) c := by
  intro hc
  have := get2_fill2 w h false c.x c.y true hc
  cases this

theorem floodFillArea_spec {g : Game} (hg : g.WF) {V0 : List (List Bool)}
    (hV : Rect g.mapWidth g.mapHeight V0) (start : Cell) (hfl : g.IsFloor start)
    (hnv : ¬ Vis V0 start) :
    ∃ A v, g.floodFillArea start.x start.y V0 = some (A, v) ∧
      Rect g.mapWidth g.mapHeight v ∧ A.cells.Nodup ∧ start ∈ A.cells ∧
      (∀ c ∈ A.cells, ¬ Vis V0 c) ∧ (∀ c ∈ A.cells, g.IsFloor c) ∧
      (∀ c ∈ A.cells, Relation.ReflTransGen g.FloorAdj start c) ∧
      (∀ c, Vis v c ↔ (Vis V0 c ∨ c ∈ A.cells)) ∧ ClosedAt g v A.cells := by
  have hin := isFloor_inMap hg hfl
  have hvis := vis_set2 hV (n := start) hin
  have inv0 : FillInv g V0 start [] ⟨set2 V0 start.x start.y true, [start], [start]⟩ := by
    refine ⟨Rect_set2 hV _ _ _, rfl, List.nodup_singleton _, ?_, ?_, ?_, ?_⟩
    · intro c hc; simp only [List.mem_singleton] at hc; subst hc; exact hnv
    · intro c hc; simp only [List.mem_singleton] at hc; subst hc; exact hfl
    · intro c hc; simp only [List.mem_singleton] at hc; subst hc; exact Relation.ReflTransGen.refl
    · intro c; rw [hvis c]; simp only [List.mem_singleton]; tauto
  have hfuel : ([start] : List Cell).length + unvisitedCount g.mapWidth g.mapHeight
      (set2 V0 start.x start.y true) < g.mapWidth * g.mapHeight + 1 := by
    have h1 := unvisitedCount_set2 hV (n := start) hin (by simpa [notVisited] using hnv)
    have h2 := unvisitedCount_le g.mapWidth g.mapHeight V0
    simp only [List.length_singleton]
    omega
  obtain ⟨v, cs, hr, inv, hcl, hmono⟩ := fillLoop_spec hg _ _ [] inv0
    (by intro c hc; cases hc) hfuel
  refine ⟨⟨cs⟩, v, ?_, inv.rect, inv.nodup, ?_, inv.fresh, inv.floor, inv.reach, inv.vis, hcl⟩
  · unfold Game.floodFillArea; rw [hr]; rfl
  · have h1 : Vis v start := hmono start ((hvis start).mpr (Or.inl rfl))
    rcases (inv.vis start).mp h1 with h | h
    · exact absurd h hnv
    · exact h

theorem areaScan_spec {g : Game} (hg : g.WF) {visited : List (List Bool)} {areas : List Area}
    (inv : ScanInv g visited areas) (c : Cell) :
    ∃ st, g.areaScan (visited, areas) c = some st ∧ ScanInv g st.1 st.2 ∧
      (∀ x, Vis visited x → Vis st.1 x) ∧ (g.IsFloor c → Vis st.1 c) := by
  unfold Game.areaScan
  simp only
  split
  · rename_i hcond
    simp only [Bool.and_eq_true, Game.tileIs, notVisited, decide_eq_true_eq] at hcond
    obtain ⟨hnv, hfl⟩ := hcond
    obtain ⟨A, v, hr, hrect, hnd, hst, hfresh, hfloor, hreach, hvis, hcl⟩ :=
      floodFillArea_spec hg inv.rect c hfl hnv
    refine ⟨(v, areas ++ [A]), by rw [hr]; rfl, ?_, ?_, ?_⟩
    · refine ⟨hrect, ?_, ?_, ?_, ?_, ?_, ?_, ?_⟩
      · intro x
        rw [hvis x, inv.vis x]
        simp only [List.mem_append, List.mem_singleton]
        constructor
        · rintro (⟨B, hB, hx⟩ | hx)
          · exact ⟨B, Or.inl hB, hx⟩
          · exact ⟨A, Or.inr rfl, hx⟩
        · rintro ⟨B, hB | rfl, hx⟩
          · exact Or.inl ⟨B, hB, hx⟩
          · exact Or.inr hx
      · intro B hB x hx
        rcases List.mem_append.mp hB with h | h
        · exact inv.floor B h x hx
        · simp only [List.mem_singleton] at h; subst h; exact hfloor x hx
      · intro x hx d hadj hd
        rcases (hvis x).mp hx with h | h
        · exact (hvis d).mpr (Or.inl (inv.closed x h d hadj hd))
        · exact hcl x h d hadj hd
      · rw [List.flatMap_append]
        simp only [List.flatMap_cons, List.flatMap_nil, List.append_nil]
        refine List.Nodup.append inv.nodup hnd ?_
        intro x hx1 hx2
        obtain ⟨B, hB, hxB⟩ := List.mem_flatMap.mp hx1
        exact hfresh x hx2 ((inv.vis x).mpr ⟨B, hB, hxB⟩)
      · intro B hB a ha b hb
        rcases List.mem_append.mp hB with h | h
        · exact inv.conn B h a ha b hb
        · simp only [List.mem_singleton] at h; subst h
          exact (floorReach_symm g (hreach a ha)).trans (hreach b hb)
      · intro B hB
        rcases List.mem_append.mp hB with h | h
        · exact inv.nonempty B h
        · simp only [List.mem_singleton] at h; subst h
          exact List.ne_nil_of_mem hst
      · rw [List.pairwise_append]
        refine ⟨inv.apart, List.pairwise_singleton _ _, ?_⟩
        intro B hB A1 hA1 a ha b hb hadj
        simp only [List.mem_singleton] at hA1; subst hA1
        have h1 : Vis visited a := (inv.vis a).mpr ⟨B, hB, ha⟩
        exact hfresh b hb (inv.closed a h1 b hadj (hfloor b hb))
    · intro x hx; exact (hvis x).mpr (Or.inl hx)
    · intro _; exact (hvis c).mpr (Or.inr hst)
  · rename_i hcond
    refine ⟨(visited, areas), rfl, inv, fun _ h => h, ?_⟩
    intro hfl
    by_contra hnv
    apply hcond
    simp only [Bool.and_eq_true, Game.tileIs, notVisited, decide_eq_true_eq]
    exact ⟨hnv, hfl⟩

theorem areaScanAll_spec {g : Game} (hg : g.WF) (cs : List Cell) :
    ∀ (visited : List (List Bool)) (areas : List Area), ScanInv g visited areas →
    ∃ st, g.areaScanAll cs (visited, areas) = some st ∧ ScanInv g st.1 st.2 ∧
      (∀ x, Vis visited x → Vis st.1 x) ∧ (∀ c ∈ cs, g.IsFloor c → Vis st.1 c) := by
  induction cs with
  | nil =>
    intro visited areas inv
    exact ⟨(visited, areas), rfl, inv, fun _ h => h, by simp⟩
  | cons c cs ih =>
    intro visited areas inv
    obtain ⟨st1, hr1, i1, m1, f1⟩ := areaScan_spec hg inv c
    obtain ⟨st2, hr2, i2, m2, f2⟩ := ih st1.1 st1.2 i1
    refine ⟨st2, ?_, i2, fun x hx => m2 x (m1 x hx), ?_⟩
    · unfold Game.areaScanAll; rw [hr1]; exact hr2
    · intro x hx hfl
      rcases List.mem_cons.mp hx with rfl | hx
      · exact m2 _ (f1 hfl)
      · exact f2 x hx hfl

theorem findIsolatedAreas_spec {g : Game} (hg : g.WF) :
    ∃ areas, g.findIsolatedAreas = some areas ∧ IsComponents g areas := by
  have inv0 : ScanInv g (fill2 g.mapWidth g.mapHeight false) [] := by
    refine ⟨Rect_fill2 _ _ _, ?_, by simp, ?_, by simp, by simp, by simp, List.Pairwise.nil⟩
    · intro c; simp [not_vis_fill2]
    · intro c hc; exact absurd hc (not_vis_fill2 _ _ c)
  obtain ⟨st, hr, inv, -, hf⟩ := areaScanAll_spec hg (allCells g.mapWidth g.mapHeight) _ _ inv0
  refine ⟨st.2, by unfold Game.findIsolatedAreas; rw [hr]; rfl, ?_, inv.nodup, inv.conn,
    inv.nonempty, inv.apart⟩
  intro c
  constructor
  · intro hfl
    exact (inv.vis c).mp (hf c ((mem_allCells _ _ c).mpr (isFloor_inMap hg hfl)) hfl)
  · rintro ⟨A, hA, hc⟩; exact inv.floor A hA c hc

/-! ## `checkConnectivity` -/

theorem checkVisit_fillVisit (g : Game) (cur : Cell) (st : FillState) (d : Dir) :
    g.checkVisit cur (st.visited, st.queue) d =
        ((g.fillVisit cur st d).visited, (g.fillVisit cur st d).queue) ∧
    (g.fillVisit cur st d).cells.length + st.queue.length =
        st.cells.length + (g.fillVisit cur st d).queue.length := by
  unfold Game.checkVisit Game.fillVisit
  simp only
  split
  · refine ⟨rfl, ?_⟩
    simp only [List.length_append, List.length_singleton]
    omega
  · exact ⟨rfl, rfl⟩

theorem checkFold_fillFold (g : Game) (cur : Cell) (ds : List Dir) (st : FillState) :
    ds.foldl (g.checkVisit cur) (st.visited, st.queue) =
        ((ds.foldl (g.fillVisit cur) st).visited, (ds.foldl (g.fillVisit cur) st).queue) ∧
    (ds.foldl (g.fillVisit cur) st).cells.length + st.queue.length =
        st.cells.length + (ds.foldl (g.fillVisit cur) st).queue.length := by
  induction ds generalizing st with
  | nil => exact ⟨rfl, rfl⟩
  | cons d ds ih =>
    obtain ⟨h1, h2⟩ := checkVisit_fillVisit g cur st d
    obtain ⟨h3, h4⟩ := ih (g.fillVisit cur st d)
    simp only [List.foldl_cons]
    rw [h1]
    exact ⟨h3, by omega⟩

theorem checkLoop_fillLoop (g : Game) :
    ∀ (fuel : Nat) (st : FillState) (count : Nat) (v : List (List Bool)) (cs : List Cell),
      g.fillLoop fuel st = some (v, cs) →
      ∃ n, g.checkLoop fuel st.visited st.queue count = some n ∧
        n + st.cells.length = count + st.queue.length + cs.length := by
  intro fuel
  induction fuel with
  | zero => intro st count v cs h; simp [Game.fillLoop] at h
  | succ fuel ih =>
    intro st count v cs h
    unfold Game.fillLoop at h
    cases hq : st.queue with
    | nil =>
      rw [hq] at h
      simp only [Option.some.injEq, Prod.mk.injEq] at h
      refine ⟨count, by simp [Game.checkLoop], ?_⟩
      rw [← h.2]; simp
    | cons cur rest =>
      rw [hq] at h
      simp only at h
      obtain ⟨h1, h2⟩ := checkFold_fillFold g cur fillDirections { st with queue := rest }
      obtain ⟨n, hn, hlen⟩ := ih _ (count + 1) v cs h
      refine ⟨n, ?_, ?_⟩
      · simp only [Game.checkLoop]
        rw [h1]; exact hn
      · simp only [List.length_cons] at h2 ⊢
        omega

theorem pairwise_allCells (w h : Nat) :
    (allCells w h).Pairwise (fun a b => RowMajorLe a b) := by
  unfold allCells
  rw [List.pairwise_flatMap]
  constructor
  · intro y _
    rw [List.pairwise_map]
    refine List.Pairwise.imp ?_ (List.pairwise_lt_range w)
    intro a b hab
    right
    simp only [Int.ofNat_eq_coe, true_and]
    omega
  · refine List.Pairwise.imp ?_ (List.pairwise_lt_range h)
    intro a b hab c hc d hd
    simp only [List.mem_map, List.mem_range] at hc hd
    obtain ⟨x, _, rfl⟩ := hc
    obtain ⟨x1, _, rfl⟩ := hd
    left
    simp only [Int.ofNat_eq_coe]
    omega

theorem firstFloor_some {g : Game} (hg : g.WF) {s : Cell} (hs : g.firstFloor = some s) :
    g.IsFloor s ∧ ∀ c, g.IsFloor c → RowMajorLe s c := by
  unfold Game.firstFloor at hs
  obtain ⟨h1, as, bs, heq, has⟩ := List.find?_eq_some.mp hs
  have hfs : g.IsFloor s := by simpa [Game.tileIs] using h1
  refine ⟨hfs, ?_⟩
  intro c hc
  have hmem : c ∈ allCells g.mapWidth g.mapHeight := (mem_allCells _ _ c).mpr (isFloor_inMap hg hc)
  rw [heq] at hmem
  have hpw := pairwise_allCells g.mapWidth g.mapHeight
  rw [heq, List.pairwise_append] at hpw
  rcases List.mem_append.mp hmem with h | h
  · have := has c h
    simp [Game.tileIs] at this
    exact absurd hc this
  · rcases List.mem_cons.mp h with rfl | h
    · right; exact ⟨rfl, le_refl _⟩
    · exact (List.pairwise_cons.mp hpw.2.1).1 c h

theorem firstFloor_none {g : Game} (hg : g.WF) (hs : g.firstFloor = none) (c : Cell) :
    ¬ g.IsFloor c := by
  unfold Game.firstFloor at hs
  intro hc
  have := List.find?_eq_none.mp hs c ((mem_allCells _ _ c).mpr (isFloor_inMap hg hc))
  simp [Game.tileIs] at this
  exact this hc

theorem length_eq_iff_subset {α : Type} {l1 l2 : List α} (h1 : l1.Nodup) (h2 : l2.Nodup)
    (hsub : l1 ⊆ l2) : l1.length = l2.length ↔ l2 ⊆ l1 := by
  constructor
  · intro hlen
    have hp : l1.Perm l2 := (List.subperm_of_subset h1 hsub).perm_of_length_le (le_of_eq hlen.symm)
    exact hp.symm.subset
  · intro hsub2
    exact le_antisymm (List.subperm_of_subset h1 hsub).length_le
      (List.subperm_of_subset h2 hsub2).length_le

/-- The loop of `checkConnectivity`, started at a Floor cell `s`, ends with
`reachableCount` equal to the number of Floor cells exactly when every Floor
cell is connected to `s`. -/
theorem checkLoop_spec {g : Game} (hg : g.WF) {s : Cell} (hs : g.IsFloor s) :
    ∃ n, g.checkLoop (g.mapWidth * g.mapHeight + 1)
        (set2 (fill2 g.mapWidth g.mapHeight false) s.x s.y true) [s] 0 = some n ∧
      (n = g.totalEmptyCount ↔ ∀ c, g.IsFloor c → g.FloorConnected s c) := by
  obtain ⟨A, v, hr, -, hnd, hst, -, hfloor, hreach, hvis, hcl⟩ :=
    floodFillArea_spec hg (Rect_fill2 g.mapWidth g.mapHeight false) s hs (not_vis_fill2 _ _ s)
  unfold Game.floodFillArea at hr
  obtain ⟨r, hr1, hr2⟩ := Option.map_eq_some'.mp hr
  obtain ⟨rv, rcs⟩ := r
  simp only [Prod.mk.injEq] at hr2
  obtain ⟨hA, hv⟩ := hr2
  subst hv
  obtain ⟨n, hn, hlen⟩ := checkLoop_fillLoop g _ _ 0 _ _ hr1
  simp only [List.length_singleton] at hlen
  have hn_eq : n = A.cells.length := by rw [← hA]; simp only; omega
  refine ⟨n, hn, ?_⟩
  have hmem : ∀ c, c ∈ A.cells ↔ Relation.ReflTransGen g.FloorAdj s c := by
    intro c
    constructor
    · exact hreach c
    · intro h
      induction h with
      | refl => exact hst
      | tail _ hstep ih =>
        have := hcl _ ih _ hstep.1 hstep.2.2
        rcases (hvis _).mp this with h0 | h0
        · exact absurd h0 (not_vis_fill2 _ _ _)
        · exact h0
  have hF : ((allCells g.mapWidth g.mapHeight).filter
      (fun c => g.tileIs c.x c.y TileType.FLOOR)).Nodup := (nodup_allCells _ _).filter _
  have hsub : A.cells ⊆ (allCells g.mapWidth g.mapHeight).filter
      (fun c => g.tileIs c.x c.y TileType.FLOOR) := by
    intro c hc
    rw [List.mem_filter]
    exact ⟨(mem_allCells _ _ c).mpr (isFloor_inMap hg (hfloor c hc)),
      by simpa [Game.tileIs] using hfloor c hc⟩
  rw [hn_eq, Game.totalEmptyCount, List.countP_eq_length_filter, length_eq_iff_subset hnd hF hsub]
  constructor
  · intro h c hc
    have : c ∈ A.cells := h (List.mem_filter.mpr
      ⟨(mem_allCells _ _ c).mpr (isFloor_inMap hg hc), by simpa [Game.tileIs] using hc⟩)
    exact (floorConnected_iff g s c).mpr ⟨hs, (hmem c).mp this⟩
  · intro h c hc
    rw [List.mem_filter] at hc
    have hfl : g.IsFloor c := by simpa [Game.tileIs] using hc.2
    exact (hmem c).mpr ((floorConnected_iff g s c).mp (h c hfl)).2

theorem checkConnectivity_total {g : Game} (hg : g.WF) :
    g.checkConnectivity = some true ∨ g.checkConnectivity = some false := by
  unfold Game.checkConnectivity
  cases hff : g.firstFloor with
  | none => right; rfl
  | some s =>
    obtain ⟨n, hn, -⟩ := checkLoop_spec hg (firstFloor_some hg hff).1
    simp only [hn, Option.map_some']
    by_cases h : n = g.totalEmptyCount <;> simp [h]

theorem checkConnectivity_true_iff {g : Game} (hg : g.WF) :
    g.checkConnectivity = some true ↔
      ∃ s, g.firstFloor = some s ∧ ∀ c, g.IsFloor c → g.FloorConnected s c := by
  unfold Game.checkConnectivity
  cases hff : g.firstFloor with
  | none => simp
  | some s =>
    obtain ⟨n, hn, hiff⟩ := checkLoop_spec hg (firstFloor_some hg hff).1
    simp only [hn, Option.map_some', Option.some.injEq, decide_eq_true_eq, exists_eq_left']
    exact hiff

/-- All Floor cells connected to one Floor cell makes `checkConnectivity` true. -/
theorem checkConnectivity_of_hub {g : Game} (hg : g.WF) {m : Cell} (hm : g.IsFloor m)
    (hall : ∀ c, g.IsFloor c → g.FloorConnected m c) : g.checkConnectivity = some true := by
  rw [checkConnectivity_true_iff hg]
  cases hff : g.firstFloor with
  | none => exact absurd hm (firstFloor_none hg hff m)
  | some s =>
    refine ⟨s, rfl, fun c hc => ?_⟩
    have hs := (firstFloor_some hg hff).1
    exact floorConnected_trans g (floorConnected_symm g (hall s hs)) (hall c hc)

/-! ## Writing a list of cells -/

theorem mem_intRange (lo hi v : Int) : v ∈ intRange lo hi ↔ lo ≤ v ∧ v < hi := by
  unfold intRange
  simp only [List.mem_map, List.mem_range, Int.ofNat_eq_coe]
  constructor
  · rintro ⟨i, hi1, rfl⟩; omega
  · intro h; exact ⟨(v - lo).toNat, by omega, by omega⟩

theorem foldl_set2_spec {α : Type} {w h : Nat} (t : α) (cs : List Cell)
    (hcs : ∀ c ∈ cs, 0 ≤ c.x ∧ c.x < (w : Int) ∧ 0 ≤ c.y ∧ c.y < (h : Int)) :
    ∀ (m : List (List α)), Rect w h m →
      Rect w h (cs.foldl (fun m c => set2 m c.x c.y t) m) ∧
      ∀ c : Cell, get2 (cs.foldl (fun m c => set2 m c.x c.y t) m) c.x c.y =
        if c ∈ cs then some t else get2 m c.x c.y := by
  induction cs with
  | nil => intro m hm; exact ⟨hm, fun c => by simp⟩
  | cons a cs ih =>
    intro m hm
    have hm1 : Rect w h (set2 m a.x a.y t) := Rect_set2 hm _ _ _
    obtain ⟨h1, h2⟩ := ih (fun c hc => hcs c (List.mem_cons_of_mem _ hc)) _ hm1
    refine ⟨h1, ?_⟩
    intro c
    simp only [List.foldl_cons]
    rw [h2 c]
    by_cases hc : c ∈ cs
    · simp [hc]
    · simp only [hc, if_false, List.mem_cons, or_false]
      by_cases hca : c = a
      · subst hca
        simp [get2_set2_same hm (hcs c (List.mem_cons_self _ _))]
      · have hne : ¬ (c.x = a.x ∧ c.y = a.y) := by
          intro h; apply hca; cases c; cases a; simp_all
        rw [get2_set2_other _ _ _ _ _ _ hne]
        simp [hca]

theorem setTiles_spec {g : Game} (hg : g.WF) (cs : List Cell) (hcs : ∀ c ∈ cs, g.InMap c)
    (t : TileType) :
    (g.setTiles cs t).WF ∧
    ∀ c : Cell, get2 (g.setTiles cs t).map c.x c.y = if c ∈ cs then some t else get2 g.map c.x c.y :=
  foldl_set2_spec t cs hcs g.map hg

theorem setTiles_floor {g : Game} (hg : g.WF) (cs : List Cell) (hcs : ∀ c ∈ cs, g.InMap c)
    (c : Cell) : (g.setTiles cs TileType.FLOOR).IsFloor c ↔ (c ∈ cs ∨ g.IsFloor c) := by
  unfold Game.IsFloor
  rw [(setTiles_spec hg cs hcs TileType.FLOOR).2 c]
  by_cases hc : c ∈ cs <;> simp [hc]

/-! ## `createStraightCorridor` -/

/-- The cells of the horizontal part of a corridor. -/
theorem mem_corridor_row (x1 x2 y1 : Int) (c : Cell) :
    c ∈ (intRange (min x1 x2) (max x1 x2 + 1)).map (fun x => Cell.mk x y1) ↔
      c.y = y1 ∧ min x1 x2 ≤ c.x ∧ c.x ≤ max x1 x2 := by
  simp only [List.mem_map, mem_intRange]
  constructor
  · rintro ⟨x, hx, rfl⟩; exact ⟨rfl, hx.1, by simp only; omega⟩
  · rintro ⟨h1, h2, h3⟩; exact ⟨c.x, ⟨h2, by omega⟩, by cases c; simp_all⟩

/-- The cells of the vertical part of a corridor. -/
theorem mem_corridor_col (y1 y2 x2 : Int) (c : Cell) :
    c ∈ (intRange (min y1 y2) (max y1 y2 + 1)).map (fun y => Cell.mk x2 y) ↔
      c.x = x2 ∧ min y1 y2 ≤ c.y ∧ c.y ≤ max y1 y2 := by
  simp only [List.mem_map, mem_intRange]
  constructor
  · rintro ⟨y, hy, rfl⟩; exact ⟨rfl, hy.1, by simp only; omega⟩
  · rintro ⟨h1, h2, h3⟩; exact ⟨c.y, ⟨h2, by omega⟩, by cases c; simp_all⟩

/-- The map after `createStraightCorridor`: Floor on the corridor, unchanged
elsewhere. -/
theorem corridor_spec {g : Game} (hg : g.WF) {a b : Cell} (ha : g.InMap a) (hb : g.InMap b) :
    (g.createStraightCorridor a.x a.y b.x b.y).WF ∧
    (g.createStraightCorridor a.x a.y b.x b.y).mapWidth = g.mapWidth ∧
    (g.createStraightCorridor a.x a.y b.x b.y).mapHeight = g.mapHeight ∧
    ∀ c : Cell, get2 (g.createStraightCorridor a.x a.y b.x b.y).map c.x c.y =
      if OnCorridor a b c then some TileType.FLOOR else get2 g.map c.x c.y := by
  unfold Game.createStraightCorridor
  simp only
  have hrow : ∀ c ∈ (intRange (min a.x b.x) (max a.x b.x + 1)).map (fun x => Cell.mk x a.y),
      g.InMap c := by
    intro c hc
    rw [mem_corridor_row] at hc
    unfold Game.InMap at *
    omega
  obtain ⟨hw1, hs1⟩ := setTiles_spec hg _ hrow TileType.FLOOR
  have hcol : ∀ c ∈ (intRange (min a.y b.y) (max a.y b.y + 1)).map (fun y => Cell.mk b.x y),
      (g.setTiles ((intRange (min a.x b.x) (max a.x b.x + 1)).map (fun x => Cell.mk x a.y))
        TileType.FLOOR).InMap c := by
    intro c hc
    rw [mem_corridor_col] at hc
    unfold Game.InMap at *
    simp only [Game.setTiles]
    omega
  obtain ⟨hw2, hs2⟩ := setTiles_spec hw1 _ hcol TileType.FLOOR
  refine ⟨hw2, rfl, rfl, ?_⟩
  intro c
  have e1 := mem_corridor_col a.y b.y b.x c
  have e2 := mem_corridor_row a.x b.x a.y c
  rw [hs2 c, hs1 c]
  by_cases h1 : c.x = b.x ∧ min a.y b.y ≤ c.y ∧ c.y ≤ max a.y b.y
  · rw [if_pos (e1.mpr h1), if_pos (show OnCorridor a b c from Or.inr h1)]
  · rw [if_neg (fun h => h1 (e1.mp h))]
    by_cases h2 : c.y = a.y ∧ min a.x b.x ≤ c.x ∧ c.x ≤ max a.x b.x
    · rw [if_pos (e2.mpr h2), if_pos (show OnCorridor a b c from Or.inl h2)]
    · rw [if_neg (fun h => h2 (e2.mp h)), if_neg (show ¬ OnCorridor a b c by unfold OnCorridor; tauto)]

/-! ## `ensureConnectivity` -/

theorem corridor_floor {g : Game} (hg : g.WF) {a b : Cell} (ha : g.InMap a) (hb : g.InMap b)
    (c : Cell) :
    (g.createStraightCorridor a.x a.y b.x b.y).IsFloor c ↔ (OnCorridor a b c ∨ g.IsFloor c) := by
  unfold Game.IsFloor
  rw [(corridor_spec hg ha hb).2.2.2 c]
  by_cases h : OnCorridor a b c <;> simp [h]

theorem reach_mono {g g1 : Game} (h : ∀ c, g.IsFloor c → g1.IsFloor c) {a b : Cell}
    (hab : Relation.ReflTransGen g.FloorAdj a b) : Relation.ReflTransGen g1.FloorAdj a b :=
  Relation.ReflTransGen.mono (fun _ _ hs => ⟨hs.1, h _ hs.2.1, h _ hs.2.2⟩) hab

theorem reach_row_up (g : Game) (y lo hi : Int)
    (hfl : ∀ x, lo ≤ x → x ≤ hi → g.IsFloor ⟨x, y⟩) :
    ∀ (n : Nat) (x : Int), lo ≤ x → x + (n : Int) ≤ hi →
      Relation.ReflTransGen g.FloorAdj ⟨x, y⟩ ⟨x + (n : Int), y⟩ := by
  intro n
  induction n with
  | zero => intro x _ _; simp only [Nat.cast_zero, add_zero]; exact Relation.ReflTransGen.refl
  | succ n ih =>
    intro x h1 h2
    have h3 : x + (n : Int) ≤ hi := by push_cast at h2; omega
    refine (ih x h1 h3).tail ⟨?_, hfl _ (by omega) h3, hfl _ (by omega) h2⟩
    simp only [Adj4]
    push_cast
    omega

theorem reach_row (g : Game) (y lo hi : Int)
    (hfl : ∀ x, lo ≤ x → x ≤ hi → g.IsFloor ⟨x, y⟩) (x x1 : Int)
    (hx : lo ≤ x ∧ x ≤ hi) (hx1 : lo ≤ x1 ∧ x1 ≤ hi) :
    Relation.ReflTransGen g.FloorAdj ⟨x, y⟩ ⟨x1, y⟩ := by
  rcases le_total x x1 with h | h
  · have := reach_row_up g y lo hi hfl (x1 - x).toNat x hx.1 (by omega)
    have e : x + ((x1 - x).toNat : Int) = x1 := by omega
    rwa [e] at this
  · have := reach_row_up g y lo hi hfl (x - x1).toNat x1 hx1.1 (by omega)
    have e : x1 + ((x - x1).toNat : Int) = x := by omega
    rw [e] at this
    exact floorReach_symm g this

theorem reach_col_up (g : Game) (x lo hi : Int)
    (hfl : ∀ y, lo ≤ y → y ≤ hi → g.IsFloor ⟨x, y⟩) :
    ∀ (n : Nat) (y : Int), lo ≤ y → y + (n : Int) ≤ hi →
      Relation.ReflTransGen g.FloorAdj ⟨x, y⟩ ⟨x, y + (n : Int)⟩ := by
  intro n
  induction n with
  | zero => intro y _ _; simp only [Nat.cast_zero, add_zero]; exact Relation.ReflTransGen.refl
  | succ n ih =>
    intro y h1 h2
    have h3 : y + (n : Int) ≤ hi := by push_cast at h2; omega
    refine (ih y h1 h3).tail ⟨?_, hfl _ (by omega) h3, hfl _ (by omega) h2⟩
    simp only [Adj4]
    push_cast
    omega

theorem reach_col (g : Game) (x lo hi : Int)
    (hfl : ∀ y, lo ≤ y → y ≤ hi → g.IsFloor ⟨x, y⟩) (y y1 : Int)
    (hy : lo ≤ y ∧ y ≤ hi) (hy1 : lo ≤ y1 ∧ y1 ≤ hi) :
    Relation.ReflTransGen g.FloorAdj ⟨x, y⟩ ⟨x, y1⟩ := by
  rcases le_total y y1 with h | h
  · have := reach_col_up g x lo hi hfl (y1 - y).toNat y hy.1 (by omega)
    have e : y + ((y1 - y).toNat : Int) = y1 := by omega
    rwa [e] at this
  · have := reach_col_up g x lo hi hfl (y - y1).toNat y1 hy1.1 (by omega)
    have e : y1 + ((y - y1).toNat : Int) = y := by omega
    rw [e] at this
    exact floorReach_symm g this

/-- Every cell of the corridor from `a` to `b` is joined to `b` by Floor cells
of the corridor. -/
theorem corridor_reach {g : Game} (hg : g.WF) {a b : Cell} (ha : g.InMap a) (hb : g.InMap b)
    (c : Cell) (hc : OnCorridor a b c) :
    Relation.ReflTransGen (g.createStraightCorridor a.x a.y b.x b.y).FloorAdj c b := by
  have hrow : ∀ x, min a.x b.x ≤ x → x ≤ max a.x b.x →
      (g.createStraightCorridor a.x a.y b.x b.y).IsFloor ⟨x, a.y⟩ := by
    intro x h1 h2
    exact (corridor_floor hg ha hb _).mpr (Or.inl (Or.inl ⟨rfl, h1, h2⟩))
  have hcol : ∀ y, min a.y b.y ≤ y → y ≤ max a.y b.y →
      (g.createStraightCorridor a.x a.y b.x b.y).IsFloor ⟨b.x, y⟩ := by
    intro y h1 h2
    exact (corridor_floor hg ha hb _).mpr (Or.inl (Or.inr ⟨rfl, h1, h2⟩))
  have hcorner : Relation.ReflTransGen (g.createStraightCorridor a.x a.y b.x b.y).FloorAdj
      ⟨b.x, a.y⟩ b := by
    have := reach_col _ b.x _ _ hcol a.y b.y ⟨min_le_left _ _, le_max_left _ _⟩
      ⟨min_le_right _ _, le_max_right _ _⟩
    exact this
  rcases hc with ⟨h1, h2, h3⟩ | ⟨h1, h2, h3⟩
  · have := reach_row _ a.y _ _ hrow c.x b.x ⟨h2, h3⟩ ⟨min_le_right _ _, le_max_right _ _⟩
    have e : c = ⟨c.x, a.y⟩ := by cases c; simp_all
    rw [e]
    exact this.trans hcorner
  · have := reach_col _ b.x _ _ hcol c.y b.y ⟨h2, h3⟩ ⟨min_le_right _ _, le_max_right _ _⟩
    have e : c = ⟨b.x, c.y⟩ := by cases c; simp_all
    rw [e]
    exact this

theorem onCorridor_start (a b : Cell) : OnCorridor a b a :=
  Or.inl ⟨rfl, min_le_left _ _, le_max_left _ _⟩

theorem connectAreas_spec {g0 : Game} (hg0 : g0.WF) {mainArea : Area} {m0 : Cell}
    (hm0 : m0 ∈ mainArea.cells) (hmfl : ∀ c ∈ mainArea.cells, g0.IsFloor c)
    (hmconn : ∀ c ∈ mainArea.cells, Relation.ReflTransGen g0.FloorAdj m0 c) :
    ∀ (others : List Area) (g : Game) (rnd : List Nat), g.WF →
      g.mapWidth = g0.mapWidth → g.mapHeight = g0.mapHeight →
      (∀ c, g0.IsFloor c → g.IsFloor c) →
      (∀ c, g.IsFloor c → g0.IsFloor c ∨ Relation.ReflTransGen g.FloorAdj m0 c) →
      (∀ A ∈ others, A.cells ≠ [] ∧ ∀ c ∈ A.cells, g0.IsFloor c) →
      ∃ g1 rnd1, Game.connectAreas mainArea others g rnd = some (g1, rnd1) ∧ g1.WF ∧
        g1.mapWidth = g0.mapWidth ∧ g1.mapHeight = g0.mapHeight ∧
        (∀ c, g.IsFloor c → g1.IsFloor c) ∧
        (∀ c, g1.IsFloor c → g0.IsFloor c ∨ Relation.ReflTransGen g1.FloorAdj m0 c) ∧
        (∀ A ∈ others, ∃ a ∈ A.cells, Relation.ReflTransGen g1.FloorAdj m0 a) := by
  intro others
  induction others with
  | nil =>
    intro g rnd hg hw hh hmono hnew _
    exact ⟨g, rnd, rfl, hg, hw, hh, fun _ h => h, hnew, by simp⟩
  | cons A rest ih =>
    intro g rnd hg hw hh hmono hnew hothers
    obtain ⟨hAne, hAfl⟩ := hothers A (List.mem_cons_self _ _)
    have hAlen : 0 < A.cells.length := List.length_pos.mpr hAne
    have hMlen : 0 < mainArea.cells.length := List.length_pos.mpr (List.ne_nil_of_mem hm0)
    have hi1 : randomIndex (rnd.headD 0) A.cells.length < A.cells.length := Nat.mod_lt _ hAlen
    have hi2 : randomIndex (rnd.tail.headD 0) mainArea.cells.length < mainArea.cells.length :=
      Nat.mod_lt _ hMlen
    have inmap : ∀ c, g0.IsFloor c → g.InMap c := by
      intro c hc
      have := isFloor_inMap hg0 hc
      unfold Game.InMap at *
      rw [hw, hh]; exact this
    obtain ⟨a, hga⟩ : ∃ a, A.cells[randomIndex (rnd.headD 0) A.cells.length]? = some a :=
      ⟨_, List.getElem?_eq_getElem hi1⟩
    obtain ⟨m, hgm⟩ : ∃ m, mainArea.cells[randomIndex (rnd.tail.headD 0)
        mainArea.cells.length]? = some m := ⟨_, List.getElem?_eq_getElem hi2⟩
    have haC : a ∈ A.cells := List.getElem?_mem hga
    have hmC : m ∈ mainArea.cells := List.getElem?_mem hgm
    have ha : g.InMap a := inmap a (hAfl a haC)
    have hm : g.InMap m := inmap m (hmfl m hmC)
    obtain ⟨cw, cwid, chei, -⟩ := corridor_spec hg ha hm
    have cfl := corridor_floor hg ha hm
    have cmono : ∀ c, g.IsFloor c → (g.createStraightCorridor a.x a.y m.x m.y).IsFloor c :=
      fun c hc => (cfl c).mpr (Or.inr hc)
    have hm_m0 : Relation.ReflTransGen (g.createStraightCorridor a.x a.y m.x m.y).FloorAdj m0 m :=
      reach_mono (fun c hc => cmono c (hmono c hc)) (hmconn m hmC)
    have hnew1 : ∀ c, (g.createStraightCorridor a.x a.y m.x m.y).IsFloor c → g0.IsFloor c ∨
        Relation.ReflTransGen (g.createStraightCorridor a.x a.y m.x m.y).FloorAdj m0 c := by
      intro c hc
      rcases (cfl c).mp hc with h | h
      · exact Or.inr (hm_m0.trans (floorReach_symm _ (corridor_reach hg ha hm c h)))
      · rcases hnew c h with h1 | h1
        · exact Or.inl h1
        · exact Or.inr (reach_mono cmono h1)
    obtain ⟨g1, rnd1, hr, hg1, hw1, hh1, hmono1, hnew2, hrest⟩ :=
      ih (g.createStraightCorridor a.x a.y m.x m.y) rnd.tail.tail cw (cwid.trans hw)
        (chei.trans hh) (fun c hc => cmono c (hmono c hc)) hnew1
        (fun B hB => hothers B (List.mem_cons_of_mem _ hB))
    refine ⟨g1, rnd1, ?_, hg1, hw1, hh1, fun c hc => hmono1 c (cmono c hc), hnew2, ?_⟩
    · unfold Game.connectAreas
      rw [hga, hgm]
      exact hr
    · intro B hB
      rcases List.mem_cons.mp hB with rfl | hB
      · refine ⟨a, haC, reach_mono hmono1 ?_⟩
        exact hm_m0.trans (floorReach_symm _ (corridor_reach hg ha hm a (onCorridor_start a m)))
      · exact hrest B hB

/-- The repair: `ensureConnectivity` returns, keeps the map a rectangle, keeps
every Floor cell, and leaves all Floor cells joined to one Floor cell. -/
theorem ensureConnectivity_spec {g : Game} (hg : g.WF) (rnd : List Nat)
    (hex : ∃ c, g.IsFloor c) :
    ∃ g1 rnd1, g.ensureConnectivity rnd = some (g1, rnd1) ∧ g1.WF ∧
      g1.mapWidth = g.mapWidth ∧ g1.mapHeight = g.mapHeight ∧
      (∀ c, g.IsFloor c → g1.IsFloor c) ∧
      ∃ m0, g1.IsFloor m0 ∧ ∀ c, g1.IsFloor c → Relation.ReflTransGen g1.FloorAdj m0 c := by
  obtain ⟨areas, hr, comp⟩ := findIsolatedAreas_spec hg
  obtain ⟨f, hf⟩ := hex
  obtain ⟨A, hA, hfA⟩ := (comp.cover f).mp hf
  unfold Game.ensureConnectivity
  rw [hr]
  simp only
  by_cases hlen : areas.length ≤ 1
  · rw [if_pos hlen]
    refine ⟨g, rnd, rfl, hg, rfl, rfl, fun _ h => h, f, hf, ?_⟩
    intro c hc
    obtain ⟨B, hB, hcB⟩ := (comp.cover c).mp hc
    have hAB : A = B := by
      match areas, hlen, hA, hB with
      | [X], _, hA, hB =>
        simp only [List.mem_singleton] at hA hB
        rw [hA, hB]
    subst hAB
    exact comp.conn A hA f hfA c hcB
  · rw [if_neg hlen]
    have hperm := List.mergeSort_perm areas areaOrder
    cases hs : areas.mergeSort areaOrder with
    | nil =>
      rw [hs] at hperm
      have := hperm.length_eq
      simp at this
      omega
    | cons mainArea others =>
      rw [hs] at hperm
      simp only
      have hmain : mainArea ∈ areas := hperm.mem_iff.mp (List.mem_cons_self _ _)
      obtain ⟨m0, hm0⟩ := List.exists_mem_of_ne_nil _ (comp.nonempty mainArea hmain)
      have hmfl : ∀ c ∈ mainArea.cells, g.IsFloor c :=
        fun c hc => (comp.cover c).mpr ⟨mainArea, hmain, hc⟩
      obtain ⟨g1, rnd1, hr1, hg1, hw1, hh1, hmono, hnew, hrest⟩ :=
        connectAreas_spec hg hm0 hmfl (fun c hc => comp.conn mainArea hmain m0 hm0 c hc)
          others g rnd hg rfl rfl (fun _ h => h) (fun _ h => Or.inl h)
          (fun B hB => by
            have hBa : B ∈ areas := hperm.mem_iff.mp (List.mem_cons_of_mem _ hB)
            exact ⟨comp.nonempty B hBa, fun c hc => (comp.cover c).mpr ⟨B, hBa, hc⟩⟩)
      refine ⟨g1, rnd1, hr1, hg1, hw1, hh1, hmono, m0, hmono m0 (hmfl m0 hm0), ?_⟩
      intro c hc
      rcases hnew c hc with h | h
      · obtain ⟨B, hB, hcB⟩ := (comp.cover c).mp h
        rcases List.mem_cons.mp (hperm.mem_iff.mpr hB) with rfl | hBo
        · exact reach_mono hmono (comp.conn B hB m0 hm0 c hcB)
        · obtain ⟨a, haB, hra⟩ := hrest B hBo
          exact hra.trans (reach_mono hmono (comp.conn B hB a haB c hcB))
      · exact h

theorem all_connected_of_hub {g : Game} {m0 : Cell}
    (hall : ∀ c, g.IsFloor c → Relation.ReflTransGen g.FloorAdj m0 c) (a b : Cell)
    (ha : g.IsFloor a) (hb : g.IsFloor b) : g.FloorConnected a b :=
  (floorConnected_iff g a b).mpr ⟨ha, (floorReach_symm g (hall a ha)).trans (hall b hb)⟩

/-! ## `generateRooms` -/

theorem getRandomInt_mem (r : Nat) {lo hi : Int} (h : lo ≤ hi) :
    lo ≤ getRandomInt r lo hi ∧ getRandomInt r lo hi ≤ hi := by
  unfold getRandomInt
  simp only
  have hn : 0 < hi - lo + 1 := by omega
  rw [if_pos hn]
  have h1 := Int.emod_nonneg (r : Int) (ne_of_gt hn)
  have h2 := Int.emod_lt_of_pos (r : Int) hn
  omega

/-- When the upper bound is below the lower bound the draw lands above the
upper bound, so a draw that respects the upper bound respects the lower one. -/
theorem getRandomInt_ge (r : Nat) (lo hi : Int) (h : getRandomInt r lo hi ≤ hi) :
    lo ≤ getRandomInt r lo hi := by
  unfold getRandomInt at *
  simp only at *
  by_cases hn : 0 < hi - lo + 1
  · rw [if_pos hn] at h ⊢
    have h1 := Int.emod_nonneg (r : Int) (ne_of_gt hn)
    omega
  · rw [if_neg hn] at h ⊢
    have hp : 0 < 1 - (hi - lo + 1) := by omega
    have h2 := Int.emod_lt_of_pos (r : Int) hp
    omega

theorem mem_roomCells (x y width height : Int) (c : Cell) :
    c ∈ roomCells x y width height ↔
      x ≤ c.x ∧ c.x < x + width ∧ y ≤ c.y ∧ c.y < y + height := by
  unfold roomCells
  simp only [List.mem_flatMap, List.mem_map, mem_intRange]
  constructor
  · rintro ⟨ry, hy, rx, hx, rfl⟩
    simp only
    omega
  · intro h
    exact ⟨c.y, ⟨h.2.2.1, h.2.2.2⟩, c.x, ⟨h.1, h.2.1⟩, by cases c; rfl⟩

theorem canPlaceRoom_iff (g : Game) (x y width height : Int) :
    g.canPlaceRoom x y width height = true ↔
      ∀ c : Cell, (Room.mk x y width height).CoversWithMargin c → g.InMap c → ¬ g.IsFloor c := by
  unfold Game.canPlaceRoom
  simp only [List.all_eq_true, mem_intRange, Bool.not_eq_true', Bool.and_eq_false_imp,
    Game.inBounds, Game.tileIs, decide_eq_true_eq, decide_eq_false_iff_not]
  constructor
  · intro h c hc hin
    exact h c.y ⟨hc.2.2.1, by have := hc.2.2.2; simp only at this; omega⟩ c.x
      ⟨hc.1, by have := hc.2.1; simp only at this; omega⟩ hin
  · intro h oy hy ox hx hin
    exact h ⟨ox, oy⟩ ⟨hx.1, by simp only; omega, hy.1, by simp only; omega⟩ hin

theorem margin_symm (r1 r2 : Room) (h1 : 1 ≤ r1.width ∧ 1 ≤ r1.height) {c : Cell}
    (hc : r2.Covers c) (hm : r1.CoversWithMargin c) :
    ∃ c1, r1.Covers c1 ∧ r2.CoversWithMargin c1 := by
  refine ⟨⟨max r1.x (min c.x (r1.x + r1.width - 1)), max r1.y (min c.y (r1.y + r1.height - 1))⟩,
    ?_, ?_⟩
  · unfold Room.Covers Room.CoversWithMargin at *
    simp only
    omega
  · unfold Room.Covers Room.CoversWithMargin at *
    simp only
    omega

theorem place_step {g : Game} {rooms : List Room} (inv : RoomsInv g rooms) (R : Room)
    (hsize : 3 ≤ R.width ∧ R.width ≤ 8 ∧ 3 ≤ R.height ∧ R.height ≤ 8 ∧
      1 ≤ R.x ∧ R.x + R.width < (g.mapWidth : Int) ∧ 1 ≤ R.y ∧ R.y + R.height < (g.mapHeight : Int))
    (hcan : g.canPlaceRoom R.x R.y R.width R.height = true) :
    RoomsInv (g.setTiles (roomCells R.x R.y R.width R.height) TileType.FLOOR) (rooms ++ [R]) := by
  have hin : ∀ c ∈ roomCells R.x R.y R.width R.height, g.InMap c := by
    intro c hc
    rw [mem_roomCells] at hc
    unfold Game.InMap
    omega
  have hfl := setTiles_floor inv.wf _ hin
  rw [canPlaceRoom_iff] at hcan
  have hfree : ∀ r ∈ rooms, ∀ c, r.Covers c → ¬ R.CoversWithMargin c := by
    intro r hr c hc hm
    have hcf : g.IsFloor c := (inv.floor c).mpr ⟨r, hr, hc⟩
    exact hcan c hm (isFloor_inMap inv.wf hcf) hcf
  refine ⟨(setTiles_spec inv.wf _ hin _).1, ?_, ?_, ?_⟩
  · intro r hr
    rcases List.mem_append.mp hr with h | h
    · exact inv.size r h
    · simp only [List.mem_singleton] at h; subst h; exact hsize
  · intro c
    rw [hfl c, mem_roomCells, inv.floor c]
    simp only [List.mem_append, List.mem_singleton]
    constructor
    · rintro (h | ⟨r, hr, hc⟩)
      · exact ⟨R, Or.inr rfl, h⟩
      · exact ⟨r, Or.inl hr, hc⟩
    · rintro ⟨r, hr | rfl, hc⟩
      · exact Or.inr ⟨r, hr, hc⟩
      · exact Or.inl hc
  · rw [List.pairwise_append]
    refine ⟨inv.apart, List.pairwise_singleton _ _, ?_⟩
    intro r hr R1 hR1 c
    simp only [List.mem_singleton] at hR1; subst hR1
    refine ⟨hfree r hr c, ?_⟩
    intro hc hm
    have hs := inv.size r hr
    obtain ⟨c1, h1, h2⟩ := margin_symm r R1 ⟨by omega, by omega⟩ hc hm
    exact hfree r hr c1 h1 h2

theorem placeRoom_spec (attempts : Nat) :
    ∀ (g : Game) (rooms : List Room) (rnd : List Nat), RoomsInv g rooms →
      RoomsInv (g.placeRoom attempts rooms rnd).1 (g.placeRoom attempts rooms rnd).2.1 ∧
      (g.placeRoom attempts rooms rnd).1.mapWidth = g.mapWidth ∧
      (g.placeRoom attempts rooms rnd).1.mapHeight = g.mapHeight := by
  induction attempts with
  | zero => intro g rooms rnd inv; exact ⟨inv, rfl, rfl⟩
  | succ n ih =>
    intro g rooms rnd inv
    unfold Game.placeRoom
    simp only
    have hw := getRandomInt_mem (rnd.getD 0 0) (show (3 : Int) ≤ 8 by decide)
    have hh := getRandomInt_mem (rnd.getD 1 0) (show (3 : Int) ≤ 8 by decide)
    have hx := getRandomInt_ge (rnd.getD 2 0) 1
      ((g.mapWidth : Int) - getRandomInt (rnd.getD 0 0) 3 8 - 1)
    have hy := getRandomInt_ge (rnd.getD 3 0) 1
      ((g.mapHeight : Int) - getRandomInt (rnd.getD 1 0) 3 8 - 1)
    generalize getRandomInt (rnd.getD 0 0) 3 8 = wd at hw hx ⊢
    generalize getRandomInt (rnd.getD 1 0) 3 8 = ht at hh hy ⊢
    generalize getRandomInt (rnd.getD 2 0) 1 ((g.mapWidth : Int) - wd - 1) = x at hx ⊢
    generalize getRandomInt (rnd.getD 3 0) 1 ((g.mapHeight : Int) - ht - 1) = y at hy ⊢
    split
    · exact ih g rooms _ inv
    · rename_i hguard
      split
      · rename_i hcan
        refine ⟨place_step inv ⟨x, y, wd, ht⟩ ?_ hcan, rfl, rfl⟩
        have hx1 := hx (by omega)
        have hy1 := hy (by omega)
        simp only
        omega
      · exact ih g rooms _ inv

theorem roomsLoop_spec (k : Nat) :
    ∀ (g : Game) (rooms : List Room) (rnd : List Nat), RoomsInv g rooms →
      RoomsInv (Game.roomsLoop k g rooms rnd).1 (Game.roomsLoop k g rooms rnd).2.1 ∧
      (Game.roomsLoop k g rooms rnd).1.mapWidth = g.mapWidth ∧
      (Game.roomsLoop k g rooms rnd).1.mapHeight = g.mapHeight := by
  induction k with
  | zero => intro g rooms rnd inv; exact ⟨inv, rfl, rfl⟩
  | succ k ih =>
    intro g rooms rnd inv
    obtain ⟨h1, h2, h3⟩ := placeRoom_spec 100 g rooms rnd inv
    obtain ⟨h4, h5, h6⟩ := ih _ _ (g.placeRoom 100 rooms rnd).2.2 h1
    unfold Game.roomsLoop
    exact ⟨h4, h5.trans h2, h6.trans h3⟩

theorem generateRooms_spec {g : Game} (hg : g.WF) (hnf : ∀ c, ¬ g.IsFloor c) (rnd : List Nat) :
    RoomsInv (g.generateRooms rnd).1 (g.generateRooms rnd).2.1 ∧
    (g.generateRooms rnd).1.mapWidth = g.mapWidth ∧
    (g.generateRooms rnd).1.mapHeight = g.mapHeight := by
  unfold Game.generateRooms
  exact roomsLoop_spec _ g [] _ ⟨hg, by simp, by simpa using hnf, List.Pairwise.nil⟩

theorem createEmptyMap_spec (g : Game) :
    g.createEmptyMap.WF ∧ (∀ c, ¬ g.createEmptyMap.IsFloor c) ∧
    g.createEmptyMap.mapWidth = g.mapWidth ∧ g.createEmptyMap.mapHeight = g.mapHeight := by
  refine ⟨Rect_fill2 _ _ _, ?_, rfl, rfl⟩
  intro c hc
  have := get2_fill2 _ _ _ _ _ _ hc
  cases this

/-! ## `generateCorridors` and `generateMap` -/

theorem pickLine_mem (used : List Int) (mx : Int) (hmx : 1 ≤ mx) (k : Nat) :
    ∀ rnd : List Nat, 1 ≤ (pickLine used mx k rnd).1 ∧ (pickLine used mx k rnd).1 ≤ mx := by
  induction k with
  | zero => intro rnd; exact getRandomInt_mem _ hmx
  | succ k ih =>
    intro rnd
    unfold pickLine
    simp only
    split
    · exact ih _
    · exact getRandomInt_mem _ hmx

theorem horizontalLoop_spec (k : Nat) :
    ∀ (g : Game) (used : List Int) (rnd : List Nat), g.WF → 3 ≤ g.mapHeight →
      (Game.horizontalLoop k g used rnd).1.WF ∧
      (Game.horizontalLoop k g used rnd).1.mapWidth = g.mapWidth ∧
      (Game.horizontalLoop k g used rnd).1.mapHeight = g.mapHeight := by
  induction k with
  | zero => intro g used rnd hg _; exact ⟨hg, rfl, rfl⟩
  | succ k ih =>
    intro g used rnd hg hh
    unfold Game.horizontalLoop
    simp only
    have hp := pickLine_mem used ((g.mapHeight : Int) - 2) (by omega) 19 rnd
    have hin : ∀ c ∈ (intRange 0 g.mapWidth).map
        (fun x => Cell.mk x (pickLine used ((g.mapHeight : Int) - 2) 19 rnd).1), g.InMap c := by
      intro c hc
      simp only [List.mem_map, mem_intRange] at hc
      obtain ⟨x, hx, rfl⟩ := hc
      unfold Game.InMap
      simp only
      omega
    obtain ⟨h1, -⟩ := setTiles_spec hg _ hin TileType.FLOOR
    exact ih _ _ _ h1 hh

theorem verticalLoop_spec (k : Nat) :
    ∀ (g : Game) (used : List Int) (rnd : List Nat), g.WF → 3 ≤ g.mapWidth →
      (Game.verticalLoop k g used rnd).1.WF ∧
      (Game.verticalLoop k g used rnd).1.mapWidth = g.mapWidth ∧
      (Game.verticalLoop k g used rnd).1.mapHeight = g.mapHeight ∧
      (∀ c, g.IsFloor c → (Game.verticalLoop k g used rnd).1.IsFloor c) ∧
      (0 < k → 0 < g.mapHeight → ∃ c, (Game.verticalLoop k g used rnd).1.IsFloor c) := by
  induction k with
  | zero => intro g used rnd hg _; exact ⟨hg, rfl, rfl, fun _ h => h, fun h => absurd h (by decide)⟩
  | succ k ih =>
    intro g used rnd hg hw
    unfold Game.verticalLoop
    simp only
    have hp := pickLine_mem used ((g.mapWidth : Int) - 2) (by omega) 19 rnd
    have hin : ∀ c ∈ (intRange 0 g.mapHeight).map
        (fun y => Cell.mk (pickLine used ((g.mapWidth : Int) - 2) 19 rnd).1 y), g.InMap c := by
      intro c hc
      simp only [List.mem_map, mem_intRange] at hc
      obtain ⟨y, hy, rfl⟩ := hc
      unfold Game.InMap
      simp only
      omega
    obtain ⟨h1, -⟩ := setTiles_spec hg _ hin TileType.FLOOR
    have hfl := setTiles_floor hg _ hin
    obtain ⟨i1, i2, i3, i4, -⟩ := ih _ (used ++ [(pickLine used ((g.mapWidth : Int) - 2) 19 rnd).1])
      (pickLine used ((g.mapWidth : Int) - 2) 19 rnd).2 h1 hw
    refine ⟨i1, i2, i3, fun c hc => i4 c ((hfl c).mpr (Or.inr hc)), ?_⟩
    intro _ hh
    refine ⟨⟨(pickLine used ((g.mapWidth : Int) - 2) 19 rnd).1, 0⟩, i4 _ ((hfl _).mpr (Or.inl ?_))⟩
    simp only [List.mem_map, mem_intRange]
    exact ⟨0, ⟨le_refl _, by omega⟩, rfl⟩

theorem generateCorridors_spec {g : Game} (hg : g.WF) (hw : 3 ≤ g.mapWidth)
    (hh : 3 ≤ g.mapHeight) (rnd : List Nat) :
    (g.generateCorridors rnd).1.WF ∧ (g.generateCorridors rnd).1.mapWidth = g.mapWidth ∧
    (g.generateCorridors rnd).1.mapHeight = g.mapHeight ∧
    ∃ c, (g.generateCorridors rnd).1.IsFloor c := by
  unfold Game.generateCorridors
  simp only
  obtain ⟨h1, h2, h3⟩ := horizontalLoop_spec (getRandomInt (rnd.headD 0) 3 5).toNat g [] rnd.tail hg hh
  generalize Game.horizontalLoop (getRandomInt (rnd.headD 0) 3 5).toNat g [] rnd.tail = r at h1 h2 h3 ⊢
  obtain ⟨v1, v2, v3, -, v5⟩ := verticalLoop_spec (getRandomInt (r.2.headD 0) 3 5).toNat r.1 []
    r.2.tail h1 (by omega)
  have hk := getRandomInt_mem (r.2.headD 0) (show (3 : Int) ≤ 5 by decide)
  exact ⟨v1, v2.trans h2, v3.trans h3, v5 (by omega) (by omega)⟩

theorem reach_congr {g g1 : Game} (hmap : g1.map = g.map) {a b : Cell}
    (h : Relation.ReflTransGen g.FloorAdj a b) : Relation.ReflTransGen g1.FloorAdj a b :=
  reach_mono (fun c hc => by unfold Game.IsFloor at *; rw [hmap]; exact hc) h

/-- The answer `true` of `checkConnectivity` only depends on the map and its
dimensions. -/
theorem checkConnectivity_congr {g g1 : Game} (hg : g.WF) (hmap : g1.map = g.map)
    (hw : g1.mapWidth = g.mapWidth) (hh : g1.mapHeight = g.mapHeight)
    (h : g.checkConnectivity = some true) : g1.checkConnectivity = some true := by
  obtain ⟨s, hs, hall⟩ := (checkConnectivity_true_iff hg).mp h
  have hg1 : g1.WF := by unfold Game.WF at *; rw [hmap, hw, hh]; exact hg
  have hfl : ∀ c, g1.IsFloor c ↔ g.IsFloor c := by
    intro c; unfold Game.IsFloor; rw [hmap]
  refine checkConnectivity_of_hub hg1 (m := s) ((hfl s).mpr (firstFloor_some hg hs).1) ?_
  intro c hc
  have := (floorConnected_iff g s c).mp (hall c ((hfl c).mp hc))
  exact (floorConnected_iff g1 s c).mpr ⟨(hfl s).mpr this.1, reach_congr hmap this.2⟩

theorem generateMap_spec (g : Game) (rnd : List Nat) (hw : 3 ≤ g.mapWidth)
    (hh : 3 ≤ g.mapHeight) :
    ∃ g1 rnd1, g.generateMap rnd = some (g1, rnd1) ∧ g1.WF ∧
      g1.mapWidth = g.mapWidth ∧ g1.mapHeight = g.mapHeight ∧
      g1.checkConnectivity = some true := by
  obtain ⟨e1, e2, e3, e4⟩ := createEmptyMap_spec g
  obtain ⟨r1, r2, r3⟩ := generateRooms_spec e1 e2 rnd
  obtain ⟨c1, c2, c3, c4⟩ := generateCorridors_spec r1.wf (by omega) (by omega)
    (g.createEmptyMap.generateRooms rnd).2.2
  unfold Game.generateMap
  simp only
  generalize ((g.createEmptyMap.generateRooms rnd).1.generateCorridors
    (g.createEmptyMap.generateRooms rnd).2.2) = r at c1 c2 c3 c4 ⊢
  have hwid : r.1.mapWidth = g.mapWidth := by omega
  have hhei : r.1.mapHeight = g.mapHeight := by omega
  rcases checkConnectivity_total c1 with h | h
  · rw [h]
    simp only
    refine ⟨_, _, rfl, ?_, hwid, hhei, checkConnectivity_congr c1 rfl rfl rfl h⟩
    exact c1
  · rw [h]
    simp only
    obtain ⟨g1, rnd1, q1, q2, q3, q4, -, m0, q6, q7⟩ := ensureConnectivity_spec c1 r.2 c4
    rw [q1]
    simp only
    have hcheck : g1.checkConnectivity = some true :=
      checkConnectivity_of_hub q2 q6
        (fun c hc => (floorConnected_iff g1 m0 c).mpr ⟨q6, q7 c hc⟩)
    exact ⟨_, _, rfl, q2, q3.trans hwid, q4.trans hhei,
      checkConnectivity_congr q2 rfl rfl rfl hcheck⟩

/-! ## The search loop of `findPath` -/

theorem dist_set2 {w h : Nat} {dm : List (List Int)} (hd : Rect w h dm) {n : Cell}
    (hn : 0 ≤ n.x ∧ n.x < (w : Int) ∧ 0 ≤ n.y ∧ n.y < (h : Int)) (v : Int) (c : Cell) :
    get2 (set2 dm n.x n.y v) c.x c.y = if c = n then some v else get2 dm c.x c.y := by
  by_cases hc : c = n
  · subst hc
    simp [get2_set2_same hd hn]
  · have hne : ¬ (c.x = n.x ∧ c.y = n.y) := by
      intro h; apply hc; cases c; cases n; simp_all
    rw [get2_set2_other _ _ _ _ _ _ hne, if_neg hc]

theorem unseenCount_set2 {w h : Nat} {dm : List (List Int)} (hd : Rect w h dm) {n : Cell}
    (hn : 0 ≤ n.x ∧ n.x < (w : Int) ∧ 0 ≤ n.y ∧ n.y < (h : Int))
    (hnv : get2 dm n.x n.y = some (-1)) {v : Int} (hv : v ≠ -1) :
    unseenCount w h (set2 dm n.x n.y v) + 1 ≤ unseenCount w h dm := by
  unfold unseenCount
  apply countP_lt_of_flip _ _ _ n
  · intro a _ ha
    simp only [decide_eq_true_eq] at ha ⊢
    rw [dist_set2 hd hn] at ha
    by_cases han : a = n
    · rw [if_pos han] at ha
      simp only [Option.some.injEq] at ha
      exact absurd ha hv
    · rw [if_neg han] at ha; exact ha
  · exact (mem_allCells w h n).mpr hn
  · simpa using hnv
  · simp only [decide_eq_false_iff_not]
    rw [dist_set2 hd hn, if_pos rfl]
    simp only [Option.some.injEq]
    exact hv

theorem unseenCount_le (w h : Nat) (dm : List (List Int)) : unseenCount w h dm ≤ w * h := by
  unfold unseenCount
  refine le_trans (List.countP_le_length _) ?_
  simp [allCells, List.length_flatMap, Function.comp_def, Nat.mul_comm]

theorem passable_iff (g : Game) (c : Cell) :
    g.Passable c ↔ (g.inBounds c.x c.y = true ∧ g.tileIs c.x c.y TileType.WALL = false ∧
      g.tileIs c.x c.y TileType.ENEMY = false) := by
  unfold Game.Passable Game.InMap Game.inBounds Game.tileIs
  simp only [decide_eq_true_eq, decide_eq_false_iff_not]

theorem pathVisit_spec {g : Game} {s t cur : Cell} {dm : List (List Int)}
    {pre q : List Cell} {kc : Int} (inv : PathInv g s t dm pre q kc)
    (hkc : get2 dm cur.x cur.y = some kc) (hkc0 : 0 ≤ kc) (hdepth : kc + 1 ≤ (pre.length : Int))
    (d : Dir) (hadj : Adj4 cur ⟨cur.x + d.dx, cur.y + d.dy⟩) :
    PathInv g s t (g.pathVisit cur (dm, q) d).1 pre (g.pathVisit cur (dm, q) d).2 kc ∧
    StableD dm (g.pathVisit cur (dm, q) d).1 ∧
    (g.Passable ⟨cur.x + d.dx, cur.y + d.dy⟩ →
      ∃ kn, get2 (g.pathVisit cur (dm, q) d).1 (cur.x + d.dx) (cur.y + d.dy) = some kn ∧
        0 ≤ kn ∧ kn ≤ kc + 1) ∧
    (g.pathVisit cur (dm, q) d).2.length +
        unseenCount g.mapWidth g.mapHeight (g.pathVisit cur (dm, q) d).1
      ≤ q.length + unseenCount g.mapWidth g.mapHeight dm := by
  unfold Game.pathVisit
  simp only
  split
  · rename_i hcond
    simp only [Bool.and_eq_true, Bool.not_eq_true', decide_eq_true_eq] at hcond
    obtain ⟨⟨⟨hin, hnew⟩, hwall⟩, henemy⟩ := hcond
    have hpass : g.Passable ⟨cur.x + d.dx, cur.y + d.dy⟩ :=
      (passable_iff g _).mpr ⟨hin, hwall, henemy⟩
    have hinm : g.InMap ⟨cur.x + d.dx, cur.y + d.dy⟩ := hpass.1
    rw [hkc]
    simp only [Option.getD_some]
    have hset := dist_set2 inv.rect (n := ⟨cur.x + d.dx, cur.y + d.dy⟩) hinm (kc + 1)
    simp only at hset
    have hstab : StableD dm (set2 dm (cur.x + d.dx) (cur.y + d.dy) (kc + 1)) := by
      intro c k hk hk0
      rw [hset c]
      by_cases hc : c = ⟨cur.x + d.dx, cur.y + d.dy⟩
      · subst hc
        simp only at hk
        rw [hnew] at hk
        simp only [Option.some.injEq] at hk
        omega
      · rw [if_neg hc]; exact hk
    have hold : ∀ (c : Cell) (k : Int),
        get2 (set2 dm (cur.x + d.dx) (cur.y + d.dy) (kc + 1)) c.x c.y = some k →
        (c = ⟨cur.x + d.dx, cur.y + d.dy⟩ ∧ k = kc + 1) ∨
        (c ≠ ⟨cur.x + d.dx, cur.y + d.dy⟩ ∧ get2 dm c.x c.y = some k) := by
      intro c k hk
      rw [hset c] at hk
      by_cases hc : c = ⟨cur.x + d.dx, cur.y + d.dy⟩
      · rw [if_pos hc] at hk
        simp only [Option.some.injEq] at hk
        exact Or.inl ⟨hc, hk.symm⟩
      · rw [if_neg hc] at hk
        exact Or.inr ⟨hc, hk⟩
    refine ⟨⟨Rect_set2 inv.rect _ _ _, hstab s 0 inv.start0 (le_refl _), ?_, ?_, ?_, ?_, ?_,
      inv.notarget, ?_, ?_, ?_, ?_, ?_⟩, hstab, ?_, ?_⟩
    · intro c k hk
      rcases hold c k hk with ⟨-, h⟩ | ⟨-, h⟩
      · omega
      · exact inv.vals c k h
    · intro c hk
      rcases hold c 0 hk with ⟨-, h⟩ | ⟨-, h⟩
      · omega
      · exact inv.zero c h
    · intro c k hk hk1
      rcases hold c k hk with ⟨h1, h2⟩ | ⟨-, h⟩
      · subst h1
        refine ⟨hpass, cur, hadj, ?_⟩
        subst h2
        have := hstab cur kc hkc hkc0
        simpa using this
      · obtain ⟨h3, p, hp1, hp2⟩ := inv.step c k h hk1
        exact ⟨h3, p, hp1, hstab p (k - 1) hp2 (by omega)⟩
    · intro c k hk hk0
      rcases hold c k hk with ⟨h1, -⟩ | ⟨-, h⟩
      · exact Or.inr (List.mem_append_right _ (by simp [h1]))
      · rcases inv.seen c k h hk0 with h1 | h1
        · exact Or.inl h1
        · exact Or.inr (List.mem_append_left _ h1)
    · intro c hc
      rcases hc with hc | hc
      · obtain ⟨k, h1, h2⟩ := inv.qvis c (Or.inl hc)
        exact ⟨k, hstab c k h1 h2, h2⟩
      · rcases List.mem_append.mp hc with hc | hc
        · obtain ⟨k, h1, h2⟩ := inv.qvis c (Or.inr hc)
          exact ⟨k, hstab c k h1 h2, h2⟩
        · simp only [List.mem_singleton] at hc
          subst hc
          exact ⟨kc + 1, by rw [hset]; simp, by omega⟩
    · intro p hp k hk
      rcases hold p k hk with ⟨h1, -⟩ | ⟨-, h⟩
      · obtain ⟨k1, h2, h3⟩ := inv.qvis p (Or.inl hp)
        subst h1
        simp only at h2
        rw [hnew] at h2
        simp only [Option.some.injEq] at h2
        omega
      · exact inv.pre_le p hp k h
    · intro c hc k hk
      rcases hold c k hk with ⟨-, h⟩ | ⟨hne, h⟩
      · omega
      · rcases List.mem_append.mp hc with hc | hc
        · exact inv.q_rng c hc k h
        · simp only [List.mem_singleton] at hc
          exact absurd hc hne
    · rw [List.pairwise_append]
      refine ⟨?_, List.pairwise_singleton _ _, ?_⟩
      · refine List.Pairwise.imp_of_mem ?_ inv.sorted
        intro a b ha hb hab ka kb hka hkb
        rcases hold a ka hka with ⟨h1, -⟩ | ⟨-, h1⟩
        · obtain ⟨k1, h2, h3⟩ := inv.qvis a (Or.inr ha)
          subst h1
          simp only at h2
          rw [hnew] at h2
          simp only [Option.some.injEq] at h2
          omega
        · rcases hold b kb hkb with ⟨h2, -⟩ | ⟨-, h2⟩
          · obtain ⟨k1, h3, h4⟩ := inv.qvis b (Or.inr hb)
            subst h2
            simp only at h3
            rw [hnew] at h3
            simp only [Option.some.injEq] at h3
            omega
          · exact hab ka kb h1 h2
      · intro a ha b hb ka kb hka hkb
        simp only [List.mem_singleton] at hb
        subst hb
        rw [hset, if_pos rfl] at hkb
        simp only [Option.some.injEq] at hkb
        rcases hold a ka hka with ⟨-, h1⟩ | ⟨-, h1⟩
        · omega
        · have := inv.q_rng a ha ka h1
          omega
    · intro c hc k hk
      rcases hold c k hk with ⟨-, h⟩ | ⟨hne, h⟩
      · omega
      · rcases List.mem_append.mp hc with hc | hc
        · exact inv.depth c hc k h
        · simp only [List.mem_singleton] at hc
          exact absurd hc hne
    · have := unseenCount_set2 inv.rect (n := ⟨cur.x + d.dx, cur.y + d.dy⟩) hinm hnew
        (v := kc + 1) (by omega)
      have hb := inv.bound
      simp only [List.length_append, List.length_singleton] at this ⊢
      omega
    · intro _
      exact ⟨kc + 1, by have := hset ⟨cur.x + d.dx, cur.y + d.dy⟩; simpa using this, by omega,
        le_refl _⟩
    · have := unseenCount_set2 inv.rect (n := ⟨cur.x + d.dx, cur.y + d.dy⟩) hinm hnew
        (v := kc + 1) (by omega)
      simp only [List.length_append, List.length_singleton] at this ⊢
      omega
  · rename_i hcond
    refine ⟨inv, fun _ _ h _ => h, ?_, le_refl _⟩
    intro hpass
    obtain ⟨kn, hkn⟩ := get2_of_inb inv.rect (x := cur.x + d.dx) (y := cur.y + d.dy) hpass.1
    have hge := inv.vals ⟨cur.x + d.dx, cur.y + d.dy⟩ kn hkn
    have hne : kn ≠ -1 := by
      intro h
      apply hcond
      obtain ⟨h1, h2, h3⟩ := (passable_iff g _).mp hpass
      simp only at h1 h2 h3
      simp only [Bool.and_eq_true, Bool.not_eq_true', decide_eq_true_eq]
      exact ⟨⟨⟨h1, by rw [hkn, h]⟩, h2⟩, h3⟩
    have hk0 : 0 ≤ kn := by omega
    refine ⟨kn, hkn, hk0, ?_⟩
    rcases inv.seen ⟨cur.x + d.dx, cur.y + d.dy⟩ kn hkn hk0 with h | h
    · have := inv.pre_le _ h kn hkn
      omega
    · exact (inv.q_rng _ h kn hkn).2

theorem pathFold_spec {g : Game} {s t cur : Cell} {pre : List Cell} {kc : Int} (hkc0 : 0 ≤ kc)
    (hdepth : kc + 1 ≤ (pre.length : Int)) (ds : List Dir)
    (hds : ∀ d ∈ ds, Adj4 cur ⟨cur.x + d.dx, cur.y + d.dy⟩) :
    ∀ (dm : List (List Int)) (q : List Cell), PathInv g s t dm pre q kc →
      get2 dm cur.x cur.y = some kc →
      PathInv g s t (ds.foldl (g.pathVisit cur) (dm, q)).1 pre
        (ds.foldl (g.pathVisit cur) (dm, q)).2 kc ∧
      StableD dm (ds.foldl (g.pathVisit cur) (dm, q)).1 ∧
      (∀ d ∈ ds, g.Passable ⟨cur.x + d.dx, cur.y + d.dy⟩ →
        ∃ kn, get2 (ds.foldl (g.pathVisit cur) (dm, q)).1 (cur.x + d.dx) (cur.y + d.dy) = some kn ∧
          0 ≤ kn ∧ kn ≤ kc + 1) ∧
      (ds.foldl (g.pathVisit cur) (dm, q)).2.length +
          unseenCount g.mapWidth g.mapHeight (ds.foldl (g.pathVisit cur) (dm, q)).1
        ≤ q.length + unseenCount g.mapWidth g.mapHeight dm := by
  induction ds with
  | nil => intro dm q inv _; exact ⟨inv, fun _ _ h _ => h, by simp, le_refl _⟩
  | cons d ds ih =>
    intro dm q inv hkc
    obtain ⟨i1, s1, n1, u1⟩ := pathVisit_spec inv hkc hkc0 hdepth d (hds d (List.mem_cons_self _ _))
    obtain ⟨i2, s2, n2, u2⟩ := ih (fun e he => hds e (List.mem_cons_of_mem _ he))
      (g.pathVisit cur (dm, q) d).1 (g.pathVisit cur (dm, q) d).2 i1 (s1 cur kc hkc hkc0)
    simp only [List.foldl_cons]
    refine ⟨i2, fun c k hk hk0 => s2 c k (s1 c k hk hk0) hk0, ?_, le_trans u2 u1⟩
    intro e he hpass
    rcases List.mem_cons.mp he with rfl | he
    · obtain ⟨kn, h1, h2, h3⟩ := n1 hpass
      exact ⟨kn, s2 ⟨cur.x + e.dx, cur.y + e.dy⟩ kn h1 h2, h2, h3⟩
    · exact n2 e he hpass

theorem pathDirections_adj (cur : Cell) :
    ∀ d ∈ pathDirections, Adj4 cur ⟨cur.x + d.dx, cur.y + d.dy⟩ := by
  intro d hd
  simp only [pathDirections, List.mem_cons, List.mem_singleton, List.not_mem_nil, or_false] at hd
  rcases hd with rfl | rfl | rfl | rfl <;> simp [Adj4]

theorem adj4_pathDirections {cur n : Cell} (h : Adj4 cur n) :
    ∃ d ∈ pathDirections, n = ⟨cur.x + d.dx, cur.y + d.dy⟩ := by
  rcases (adj4_iff_dir cur n).mp h with h | h | h | h
  · exact ⟨⟨0, -1⟩, by simp [pathDirections], by simp [h]; rfl⟩
  · exact ⟨⟨1, 0⟩, by simp [pathDirections], by simp [h]⟩
  · exact ⟨⟨0, 1⟩, by simp [pathDirections], by simp [h]⟩
  · exact ⟨⟨-1, 0⟩, by simp [pathDirections], by simp [h]; rfl⟩

/-- One pass of the body of the search loop keeps the invariant. -/
theorem path_pass {g : Game} {s t cur : Cell} {dm : List (List Int)} {pre rest : List Cell}
    {lo : Int} (inv : PathInv g s t dm pre (cur :: rest) lo) (hcl : ClosedD g dm pre)
    (hne : cur ≠ t) :
    ∃ kc, PathInv g s t (pathDirections.foldl (g.pathVisit cur) (dm, rest)).1 (pre ++ [cur])
        (pathDirections.foldl (g.pathVisit cur) (dm, rest)).2 kc ∧
      ClosedD g (pathDirections.foldl (g.pathVisit cur) (dm, rest)).1 (pre ++ [cur]) ∧
      (pathDirections.foldl (g.pathVisit cur) (dm, rest)).2.length +
          unseenCount g.mapWidth g.mapHeight (pathDirections.foldl (g.pathVisit cur) (dm, rest)).1
        ≤ rest.length + unseenCount g.mapWidth g.mapHeight dm := by
  obtain ⟨kc, hkc, hkc0⟩ := inv.qvis cur (Or.inr (List.mem_cons_self _ _))
  have hrng := inv.q_rng cur (List.mem_cons_self _ _) kc hkc
  have hdep := inv.depth cur (List.mem_cons_self _ _) kc hkc
  have hsorted := List.pairwise_cons.mp inv.sorted
  have inv0 : PathInv g s t dm (pre ++ [cur]) rest kc := by
    refine ⟨inv.rect, inv.start0, inv.vals, inv.zero, inv.step, ?_, ?_, ?_, ?_, ?_, hsorted.2,
      ?_, ?_⟩
    · intro c k hk hk0
      rcases inv.seen c k hk hk0 with h | h
      · exact Or.inl (List.mem_append_left _ h)
      · rcases List.mem_cons.mp h with rfl | h
        · exact Or.inl (List.mem_append_right _ (List.mem_singleton_self _))
        · exact Or.inr h
    · intro c hc
      apply inv.qvis
      rcases hc with hc | hc
      · rcases List.mem_append.mp hc with h | h
        · exact Or.inl h
        · simp only [List.mem_singleton] at h; subst h; exact Or.inr (List.mem_cons_self _ _)
      · exact Or.inr (List.mem_cons_of_mem _ hc)
    · intro h
      rcases List.mem_append.mp h with h | h
      · exact inv.notarget h
      · simp only [List.mem_singleton] at h; exact hne h.symm
    · intro p hp k hk
      rcases List.mem_append.mp hp with h | h
      · have := inv.pre_le p h k hk; omega
      · simp only [List.mem_singleton] at h; subst h
        rw [hkc] at hk; simp only [Option.some.injEq] at hk; omega
    · intro c hc k hk
      have h1 := inv.q_rng c (List.mem_cons_of_mem _ hc) k hk
      have h2 := hsorted.1 c hc kc k hkc hk
      omega
    · intro c hc k hk
      have := inv.depth c (List.mem_cons_of_mem _ hc) k hk
      simp only [List.length_append, List.length_singleton]
      push_cast
      omega
    · have := inv.bound
      simp only [List.length_append, List.length_cons, List.length_nil] at this ⊢
      omega
  have hdepth : kc + 1 ≤ ((pre ++ [cur]).length : Int) := by
    simp only [List.length_append, List.length_singleton]
    push_cast
    omega
  obtain ⟨i1, s1, n1, u1⟩ := pathFold_spec hkc0 hdepth pathDirections (pathDirections_adj cur)
    dm rest inv0 hkc
  refine ⟨kc, i1, ?_, u1⟩
  intro p hp n hadj hpass
  rcases List.mem_append.mp hp with h | h
  · obtain ⟨kp, kn, h1, h2, h3, h4⟩ := hcl p h n hadj hpass
    obtain ⟨k, h5, h6⟩ := inv.qvis p (Or.inl h)
    rw [h1] at h5
    simp only [Option.some.injEq] at h5
    exact ⟨kp, kn, s1 p kp h1 (by omega), s1 n kn h2 h3, h3, h4⟩
  · simp only [List.mem_singleton] at h; subst h
    obtain ⟨d, hd, rfl⟩ := adj4_pathDirections hadj
    obtain ⟨kn, h1, h2, h3⟩ := n1 d hd hpass
    exact ⟨kc, kn, s1 p kc hkc hkc0, h1, h2, h3⟩

/-- The invariant holds when the search loop is entered. -/
theorem path_init {g : Game} (s t : Cell) (hs : g.InMap s) :
    PathInv g s t (set2 (fill2 g.mapWidth g.mapHeight (-1)) s.x s.y 0) [] [s] 0 ∧
    ClosedD g (set2 (fill2 g.mapWidth g.mapHeight (-1)) s.x s.y 0) [] := by
  have hrect := Rect_fill2 g.mapWidth g.mapHeight (-1 : Int)
  have hset := dist_set2 hrect (n := s) hs 0
  have hval : ∀ (c : Cell) (k : Int),
      get2 (set2 (fill2 g.mapWidth g.mapHeight (-1)) s.x s.y 0) c.x c.y = some k →
      (c = s ∧ k = 0) ∨ (c ≠ s ∧ k = -1) := by
    intro c k hk
    rw [hset c] at hk
    by_cases hc : c = s
    · rw [if_pos hc] at hk; simp only [Option.some.injEq] at hk; exact Or.inl ⟨hc, hk.symm⟩
    · rw [if_neg hc] at hk; exact Or.inr ⟨hc, get2_fill2 _ _ _ _ _ _ hk⟩
  have hs0 : get2 (set2 (fill2 g.mapWidth g.mapHeight (-1)) s.x s.y 0) s.x s.y = some 0 := by
    rw [hset s, if_pos rfl]
  refine ⟨⟨Rect_set2 hrect _ _ _, hs0, ?_, ?_, ?_, ?_, ?_, by simp, by simp, ?_,
    List.pairwise_singleton _ _, ?_, ?_⟩, by intro p hp; cases hp⟩
  · intro c k hk; rcases hval c k hk with ⟨-, h⟩ | ⟨-, h⟩ <;> omega
  · intro c hk; rcases hval c 0 hk with ⟨h, -⟩ | ⟨-, h⟩
    · exact h
    · omega
  · intro c k hk hk1; rcases hval c k hk with ⟨-, h⟩ | ⟨-, h⟩ <;> omega
  · intro c k hk hk0; rcases hval c k hk with ⟨h, -⟩ | ⟨-, h⟩
    · exact Or.inr (by simp [h])
    · omega
  · intro c hc
    rcases hc with hc | hc
    · cases hc
    · simp only [List.mem_singleton] at hc; subst hc; exact ⟨0, hs0, le_refl _⟩
  · intro c hc k hk
    rcases hval c k hk with ⟨-, h⟩ | ⟨hne, -⟩
    · omega
    · simp only [List.mem_singleton] at hc; exact absurd hc hne
  · intro c hc k hk
    rcases hval c k hk with ⟨-, h⟩ | ⟨hne, -⟩
    · simp [h]
    · simp only [List.mem_singleton] at hc; exact absurd hc hne
  · have h1 := unseenCount_set2 hrect (n := s) hs (v := 0)
      (by obtain ⟨v, hv⟩ := get2_of_inb hrect hs; rw [hv, get2_fill2 _ _ _ _ _ _ hv])
      (by decide)
    have h2 := unseenCount_le g.mapWidth g.mapHeight (fill2 g.mapWidth g.mapHeight (-1))
    simp only [List.length_nil, List.length_singleton]
    omega

/-- Every state of the search loop satisfies the invariant. -/
theorem pathState_inv {g : Game} {s t : Cell} (hs : g.InMap s) {dm : List (List Int)}
    {q : List Cell} (h : PathState g s t dm q) :
    ∃ pre lo, PathInv g s t dm pre q lo ∧ ClosedD g dm pre := by
  induction h with
  | init => exact ⟨[], 0, path_init s t hs⟩
  | pass dm cur rest _ hne ih =>
    obtain ⟨pre, lo, inv, hcl⟩ := ih
    have hct : cur ≠ t := by
      intro h; apply hne; subst h; exact ⟨rfl, rfl⟩
    obtain ⟨kc, i1, c1, -⟩ := path_pass inv hcl hct
    exact ⟨pre ++ [cur], kc, i1, c1⟩

/-! ## `buildPath` and the answer of `findPath` -/

theorem buildStep_some {g : Game} {s t : Cell} {dm : List (List Int)} {pre q : List Cell}
    {lo : Int} (inv : PathInv g s t dm pre q lo) {cur : Cell} {k : Int}
    (hk : get2 dm cur.x cur.y = some k) (hk1 : 1 ≤ k) :
    ∃ n, g.buildStep dm cur.x cur.y = some n ∧ Adj4 n cur ∧ get2 dm n.x n.y = some (k - 1) := by
  obtain ⟨-, p, hp1, hp2⟩ := inv.step cur k hk hk1
  obtain ⟨d, hd, hpd⟩ := adj4_pathDirections hp1.symm
  have hpin := get2_inb inv.rect hp2
  have hex : ∃ n, g.buildStep dm cur.x cur.y = some n := by
    unfold Game.buildStep
    cases hf : (pathDirections.map (fun d => Cell.mk (cur.x + d.dx) (cur.y + d.dy))).find?
        (fun n => g.inBounds n.x n.y && distStepsDown dm n.x n.y cur.x cur.y) with
    | some n => exact ⟨n, rfl⟩
    | none =>
      exfalso
      have := List.find?_eq_none.mp hf p (List.mem_map.mpr ⟨d, hd, hpd.symm⟩)
      apply this
      simp only [Bool.and_eq_true, Game.inBounds, decide_eq_true_eq, distStepsDown, hp2, hk]
      exact ⟨hpin, by omega, trivial⟩
  obtain ⟨n, hn⟩ := hex
  refine ⟨n, hn, ?_⟩
  unfold Game.buildStep at hn
  have hmem := List.mem_of_find?_eq_some hn
  have hprop := List.find?_some hn
  obtain ⟨e, he, rfl⟩ := List.mem_map.mp hmem
  refine ⟨(pathDirections_adj cur e he).symm, ?_⟩
  simp only [Bool.and_eq_true, distStepsDown, hk] at hprop
  obtain ⟨-, h2⟩ := hprop
  cases hv : get2 dm (cur.x + e.dx) (cur.y + e.dy) with
  | none => rw [hv] at h2; simp at h2
  | some a =>
    rw [hv] at h2
    simp only [decide_eq_true_eq] at h2
    rw [h2.2]

theorem getLast?_cons_of_ne_nil {α : Type} (a : α) {l : List α} (h : l ≠ []) :
    (a :: l).getLast? = l.getLast? := by
  cases l with
  | nil => exact absurd rfl h
  | cons b t => simp [List.getLast?_cons_cons]

theorem buildLoop_spec {g : Game} {s t : Cell} {dm : List (List Int)} {pre q : List Cell}
    {lo : Int} (inv : PathInv g s t dm pre q lo) :
    ∀ (fuel : Nat) (cur : Cell) (path : List Cell) (k : Int),
      get2 dm cur.x cur.y = some k → 0 ≤ k → k < (fuel : Int) →
      path.head? = some cur → path.getLast? = some t → path.Chain' Adj4 →
      (∀ c ∈ path.tail, g.Passable c) →
      ∃ p, g.buildLoop dm s.x s.y fuel cur.x cur.y path = some (some p) ∧
        IsWalk g.Passable s t p ∧ (p.length : Int) = path.length + k := by
  intro fuel
  induction fuel with
  | zero => intro cur path k _ h0 hlt; simp at hlt; omega
  | succ fuel ih =>
    intro cur path k hk hk0 hlt hhead hlast hchain htail
    unfold Game.buildLoop
    by_cases hcs : cur.x ≠ s.x ∨ cur.y ≠ s.y
    · rw [if_pos hcs]
      have hne : cur ≠ s := by
        intro h; subst h; rcases hcs with h | h <;> exact h rfl
      have hk1 : 1 ≤ k := by
        by_contra h
        have : k = 0 := by omega
        subst this
        exact hne (inv.zero cur hk)
      obtain ⟨hpc, -⟩ := inv.step cur k hk hk1
      obtain ⟨n, hn, hadj, hnk⟩ := buildStep_some inv hk hk1
      rw [hn]
      simp only
      have hpne : path ≠ [] := by
        intro h; rw [h] at hhead; simp at hhead
      obtain ⟨p, hp1, hp2, hp3⟩ := ih n (n :: path) (k - 1) hnk (by omega)
        (by push_cast at hlt; omega) rfl
        (by rw [getLast?_cons_of_ne_nil n hpne]; exact hlast)
        (by
          cases path with
          | nil => exact absurd rfl hpne
          | cons c rest =>
            simp only [List.head?_cons, Option.some.injEq] at hhead
            subst hhead
            exact List.chain'_cons.mpr ⟨hadj, hchain⟩)
        (by
          intro c hc
          simp only [List.tail_cons] at hc
          cases path with
          | nil => exact absurd rfl hpne
          | cons c1 rest =>
            simp only [List.head?_cons, Option.some.injEq] at hhead
            subst hhead
            rcases List.mem_cons.mp hc with rfl | h
            · exact hpc
            · exact htail c (by simpa using h))
      refine ⟨p, hp1, hp2, ?_⟩
      rw [hp3]
      simp only [List.length_cons]
      push_cast
      omega
    · rw [if_neg hcs]
      have hcs1 : cur = s := by
        cases cur; cases s
        simp only [Cell.mk.injEq]
        simp only [ne_eq, not_or, not_not] at hcs
        exact hcs
      subst hcs1
      have hk00 : k = 0 := by
        have := inv.start0
        rw [hk] at this
        simpa using this
      refine ⟨path, rfl, ⟨hhead, hlast, hchain, htail⟩, by omega⟩

/-- A walk from the start cannot be shorter than the distance of the cell at
the front of the queue, unless it ends in a cell with a distance no longer than
the walk. -/
theorem walk_dist_le {g : Game} {s t : Cell} {dm : List (List Int)} {pre rest : List Cell}
    {lo : Int} {h0 : Cell} (inv : PathInv g s t dm pre (h0 :: rest) lo) (hcl : ClosedD g dm pre)
    {kt : Int} (hkt : get2 dm h0.x h0.y = some kt) :
    ∀ (l : List Cell) (c : Cell), l.head? = some s → l.getLast? = some c → l.Chain' Adj4 →
      (∀ x ∈ l.tail, g.Passable x) →
      (∃ k, get2 dm c.x c.y = some k ∧ 0 ≤ k ∧ k + 1 ≤ (l.length : Int)) ∨
        kt + 1 ≤ (l.length : Int) := by
  intro l
  induction l using List.reverseRecOn with
  | nil => intro c h; simp at h
  | append_singleton init c1 ih =>
    intro c hhead hlast hchain htail
    have hlast1 : c1 = c := by
      rw [List.getLast?_append] at hlast
      simpa [Option.or] using hlast
    subst hlast1
    cases hinit : init with
    | nil =>
      subst hinit
      simp only [List.nil_append, List.head?_cons, Option.some.injEq] at hhead
      subst hhead
      exact Or.inl ⟨0, inv.start0, le_refl _, by simp⟩
    | cons a init1 =>
      have hne : init ≠ [] := by rw [hinit]; simp
      obtain ⟨c0, hc0⟩ : ∃ c0, init.getLast? = some c0 := by
        rw [hinit]; exact ⟨_, List.getLast?_eq_getLast _ (by simp)⟩
      have hchain2 := List.chain'_append.mp hchain
      have hhead1 : init.head? = some s := by
        rw [hinit] at hhead ⊢
        simpa using hhead
      have htail1 : ∀ x ∈ init.tail, g.Passable x := by
        intro x hx
        apply htail
        rw [hinit] at hx ⊢
        simp only [List.cons_append, List.tail_cons, List.mem_append] at hx ⊢
        exact Or.inl hx
      have hadj : Adj4 c0 c1 := hchain2.2.2 c0 (by simp [hc0]) c1 (by simp)
      have hpass : g.Passable c1 := by
        apply htail
        rw [hinit]
        simp
      rw [← hinit]
      have hlen : ((init ++ [c1]).length : Int) = init.length + 1 := by simp
      rcases ih c0 hhead1 hc0 hchain2.1 htail1 with ⟨k0, hk0, hk00, hk0l⟩ | h
      · by_cases hlt : k0 < kt
        · have hpre : c0 ∈ pre := by
            rcases inv.seen c0 k0 hk0 hk00 with h | h
            · exact h
            · exfalso
              rcases List.mem_cons.mp h with rfl | h
              · rw [hkt] at hk0; simp only [Option.some.injEq] at hk0; omega
              · have := (List.pairwise_cons.mp inv.sorted).1 c0 h kt k0 hkt hk0
                omega
          obtain ⟨kp, kn, h1, h2, h3, h4⟩ := hcl c0 hpre c1 hadj hpass
          rw [hk0] at h1
          simp only [Option.some.injEq] at h1
          exact Or.inl ⟨kn, h2, h3, by omega⟩
        · exact Or.inr (by omega)
      · exact Or.inr (by omega)

/-- With an empty queue, every cell of a walk from the start has been taken off
the queue. -/
theorem walk_seen {g : Game} {s t : Cell} {dm : List (List Int)} {pre : List Cell}
    {lo : Int} (inv : PathInv g s t dm pre [] lo) (hcl : ClosedD g dm pre) {c : Cell}
    (h : Relation.ReflTransGen (WalkStep g.Passable) s c) : c ∈ pre := by
  induction h with
  | refl =>
    rcases inv.seen s 0 inv.start0 (le_refl _) with h | h
    · exact h
    · cases h
  | tail _ hstep ih =>
    obtain ⟨kp, kn, -, h2, h3, -⟩ := hcl _ ih _ hstep.1 hstep.2
    rcases inv.seen _ kn h2 h3 with h | h
    · exact h
    · cases h

theorem buildPath_spec {g : Game} {s t : Cell} {dm : List (List Int)} {pre rest : List Cell}
    {lo : Int} (inv : PathInv g s t dm pre (t :: rest) lo) (hcl : ClosedD g dm pre) :
    ∃ p, g.buildPath dm s.x s.y t.x t.y = some (some p) ∧ PathSpec g s t (some p) := by
  obtain ⟨kt, hkt, hkt0⟩ := inv.qvis t (Or.inr (List.mem_cons_self _ _))
  have hdep := inv.depth t (List.mem_cons_self _ _) kt hkt
  have hb := inv.bound
  have hfuel : kt < ((g.mapWidth * g.mapHeight + 1 : Nat) : Int) := by
    simp only [List.length_cons] at hb
    have : (pre.length : Int) + 1 ≤ ((g.mapWidth * g.mapHeight : Nat) : Int) := by
      exact_mod_cast (by omega : pre.length + 1 ≤ g.mapWidth * g.mapHeight)
    push_cast at this ⊢
    omega
  obtain ⟨p, hp1, hp2, hp3⟩ := buildLoop_spec inv (g.mapWidth * g.mapHeight + 1) t [t] kt hkt
    hkt0 hfuel rfl rfl (List.chain'_singleton t) (by simp)
  refine ⟨p, hp1, hp2, ?_⟩
  intro l hl
  rcases walk_dist_le inv hcl hkt l t hl.1 hl.2.1 hl.2.2.1 hl.2.2.2 with ⟨k, h1, -, h3⟩ | h
  · rw [hkt] at h1
    simp only [Option.some.injEq] at h1
    simp only [List.length_singleton] at hp3
    have : (p.length : Int) ≤ l.length := by push_cast at hp3; omega
    exact_mod_cast this
  · simp only [List.length_singleton] at hp3
    have : (p.length : Int) ≤ l.length := by push_cast at hp3; omega
    exact_mod_cast this

theorem pathLoop_spec {g : Game} {s t : Cell} :
    ∀ (fuel : Nat) (dm : List (List Int)) (pre q : List Cell) (lo : Int),
      PathInv g s t dm pre q lo → ClosedD g dm pre →
      q.length + unseenCount g.mapWidth g.mapHeight dm < fuel →
      ∃ r, g.pathLoop s.x s.y t.x t.y fuel dm q = some r ∧ PathSpec g s t r := by
  intro fuel
  induction fuel with
  | zero => intro dm pre q lo _ _ h; omega
  | succ fuel ih =>
    intro dm pre q lo inv hcl hfuel
    cases q with
    | nil =>
      refine ⟨none, by simp [Game.pathLoop], ?_⟩
      intro hw
      exact inv.notarget (walk_seen inv hcl ((walk_iff_reach _ s t).mp hw))
    | cons cur rest =>
      unfold Game.pathLoop
      by_cases hct : cur.x = t.x ∧ cur.y = t.y
      · rw [if_pos hct]
        have : cur = t := by cases cur; cases t; simp_all
        subst this
        obtain ⟨p, hp1, hp2⟩ := buildPath_spec inv hcl
        exact ⟨some p, hp1, hp2⟩
      · rw [if_neg hct]
        have hne : cur ≠ t := by intro h; subst h; exact hct ⟨rfl, rfl⟩
        obtain ⟨kc, i1, c1, u1⟩ := path_pass inv hcl hne
        simp only [List.length_cons] at hfuel
        exact ih _ _ _ kc i1 c1 (by omega)

/-- The answer of `findPath` between two cells of the map. -/
theorem findPath_spec {g : Game} (s t : Cell) (hs : g.InMap s) :
    (g.tileIs t.x t.y TileType.WALL = true → g.findPath s.x s.y t.x t.y = some none) ∧
    (g.tileIs t.x t.y TileType.WALL = false →
      ∃ r, g.findPath s.x s.y t.x t.y = some r ∧ PathSpec g s t r) := by
  constructor
  · intro h; unfold Game.findPath; rw [if_pos h]
  · intro h
    unfold Game.findPath
    rw [if_neg (by simp [h])]
    obtain ⟨inv, hcl⟩ := path_init (g := g) s t hs
    refine pathLoop_spec _ _ [] [s] 0 inv hcl ?_
    have := inv.bound
    simp only [List.length_nil, List.length_singleton] at this ⊢
    omega

/-! ## Walks on a map without obstacles -/

theorem walk_length_ge : ∀ (l : List Cell) (a b : Cell), l.head? = some a →
    l.getLast? = some b → l.Chain' Adj4 → manhattan a b + 1 ≤ l.length := by
  intro l
  induction l with
  | nil => intro a b h; simp at h
  | cons c rest ih =>
    intro a b hhead hlast hchain
    simp only [List.head?_cons, Option.some.injEq] at hhead
    subst hhead
    cases rest with
    | nil =>
      simp only [List.getLast?_singleton, Option.some.injEq] at hlast
      subst hlast
      simp [manhattan]
    | cons d rest2 =>
      have hadj : Adj4 c d := (List.chain'_cons.mp hchain).1
      have h1 := ih d b rfl (by simpa [List.getLast?_cons_cons] using hlast)
        (List.chain'_cons.mp hchain).2
      simp only [List.length_cons] at h1 ⊢
      unfold manhattan at *
      unfold Adj4 at hadj
      omega

theorem isWalk_mono {ok1 ok2 : Cell → Prop} (h : ∀ c, ok1 c → ok2 c) {a b : Cell}
    {l : List Cell} (hl : IsWalk ok1 a b l) : IsWalk ok2 a b l :=
  ⟨hl.1, hl.2.1, hl.2.2.1, fun c hc => h c (hl.2.2.2 c hc)⟩

theorem isWalk_cons {ok : Cell → Prop} {a c b : Cell} {l : List Cell} (hadj : Adj4 a c)
    (hc : ok c) (hl : IsWalk ok c b l) : IsWalk ok a b (a :: l) := by
  obtain ⟨h1, h2, h3, h4⟩ := hl
  cases l with
  | nil => simp at h1
  | cons d rest =>
    simp only [List.head?_cons, Option.some.injEq] at h1
    subst h1
    refine ⟨rfl, by simpa [List.getLast?_cons_cons] using h2, List.chain'_cons.mpr ⟨hadj, h3⟩, ?_⟩
    intro e he
    simp only [List.tail_cons, List.mem_cons] at he
    rcases he with rfl | he
    · exact hc
    · exact h4 e (by simpa using he)

/-- Between two cells of the map there is a walk inside the map with Manhattan
distance plus one cells. -/
theorem straight_walk (g : Game) (t : Cell) (ht : g.InMap t) :
    ∀ (n : Nat) (s : Cell), g.InMap s → manhattan s t = n →
      ∃ l, IsWalk g.InMap s t l ∧ l.length = n + 1 := by
  intro n
  induction n with
  | zero =>
    intro s _ hn
    have hst : s = t := by
      cases s; cases t
      simp only [manhattan] at hn
      simp only [Cell.mk.injEq]
      omega
    subst hst
    exact ⟨[s], ⟨rfl, rfl, List.chain'_singleton s, by simp⟩, rfl⟩
  | succ n ih =>
    intro s hs hn
    have key : ∃ c, Adj4 s c ∧ g.InMap c ∧ manhattan c t = n := by
      unfold manhattan at hn
      unfold Game.InMap at hs ht
      by_cases h1 : s.x < t.x
      · exact ⟨⟨s.x + 1, s.y⟩, by simp [Adj4], by unfold Game.InMap; simp only; omega,
          by unfold manhattan; simp only; omega⟩
      · by_cases h2 : t.x < s.x
        · exact ⟨⟨s.x - 1, s.y⟩, by simp [Adj4], by unfold Game.InMap; simp only; omega,
            by unfold manhattan; simp only; omega⟩
        · by_cases h3 : s.y < t.y
          · exact ⟨⟨s.x, s.y + 1⟩, by simp [Adj4], by unfold Game.InMap; simp only; omega,
              by unfold manhattan; simp only; omega⟩
          · exact ⟨⟨s.x, s.y - 1⟩, by simp [Adj4], by unfold Game.InMap; simp only; omega,
              by unfold manhattan; simp only; omega⟩
    obtain ⟨c, hadj, hc, hm⟩ := key
    obtain ⟨l, hl, hlen⟩ := ih c hc hm
    exact ⟨s :: l, isWalk_cons hadj hc hl, by simp [hlen]⟩

theorem openRoom_passable : ∀ c, openRoom.InMap c → openRoom.Passable c := by
  intro c hc
  have hmem := (mem_allCells 5 5 c).mpr hc
  have hall : ∀ c ∈ allCells 5 5, openRoom.Passable c := by decide
  exact hall c hmem

theorem tileIs_false_of_ne {g : Game} {c : Cell} {t : TileType}
    (h : get2 g.map c.x c.y ≠ some t) : g.tileIs c.x c.y t = false := by
  unfold Game.tileIs
  simpa using h

/-- The answer of `findPath` when the target is not a Wall. -/
theorem findPath_cases {g : Game} (s t : Cell) (hs : g.InMap s)
    (hw : get2 g.map t.x t.y ≠ some TileType.WALL) :
    ∃ r, g.findPath s.x s.y t.x t.y = some r ∧ PathSpec g s t r :=
  (findPath_spec s t hs).2 (tileIs_false_of_ne hw)

theorem no_walk_of_walled_in {ok : Cell → Prop} {s t : Cell} (hne : s ≠ t)
    (hwalled : ∀ c, Adj4 s c → ¬ ok c) : ¬ ∃ l, IsWalk ok s t l := by
  rintro ⟨l, h1, h2, h3, h4⟩
  cases l with
  | nil => simp at h1
  | cons a rest =>
    simp only [List.head?_cons, Option.some.injEq] at h1
    subst h1
    cases rest with
    | nil =>
      simp only [List.getLast?_singleton, Option.some.injEq] at h2
      exact hne h2
    | cons b rest2 =>
      exact hwalled b (List.chain'_cons.mp h3).1 (h4 b (by simp))

theorem sampleGrid_corner_walled_in :
    ∀ c, Adj4 (⟨0, 0⟩ : Cell) c → ¬ sampleGrid.Passable c := by
  intro c hc
  rcases (adj4_iff_dir ⟨0, 0⟩ c).mp hc with h | h | h | h <;> subst h <;> decide

/-! ## `checkItems` -/

theorem pickItem_split (x y : Int) (item : Item) (after : List Item)
    (hat : item.x = x ∧ item.y = y) :
    ∀ before : List Item, (∀ a ∈ before, ¬ (a.x = x ∧ a.y = y)) →
      pickItem x y (before ++ item :: after) = some (item, before ++ after) := by
  intro before
  induction before with
  | nil => intro _; simp [pickItem, hat]
  | cons b rest ih =>
    intro hb
    have h1 : ¬ (b.x = x ∧ b.y = y) := hb b (List.mem_cons_self _ _)
    have h2 := ih (fun a ha => hb a (List.mem_cons_of_mem _ ha))
    show pickItem x y (b :: (rest ++ item :: after)) = some (item, b :: (rest ++ after))
    simp only [pickItem, if_neg h1, h2, Option.map_some']

/-- The fields that `checkItems` never changes, and the bounds on the health. -/
theorem checkItems_frame (g : Game) (x y : Int) :
    (g.checkItems x y).map = g.map ∧ (g.checkItems x y).enemies = g.enemies ∧
    (g.checkItems x y).mapWidth = g.mapWidth ∧ (g.checkItems x y).mapHeight = g.mapHeight ∧
    (g.checkItems x y).player.x = g.player.x ∧ (g.checkItems x y).player.y = g.player.y ∧
    (g.checkItems x y).player.maxHealth = g.player.maxHealth ∧
    (g.player.health ≤ g.player.maxHealth →
      g.player.health ≤ (g.checkItems x y).player.health ∧
      (g.checkItems x y).player.health ≤ g.player.maxHealth) := by
  unfold Game.checkItems
  cases pickItem x y g.items with
  | none => simp
  | some r =>
    obtain ⟨item, items⟩ := r
    simp only
    by_cases h1 : item.type = TileType.HEALTH_POTION
    · rw [if_pos h1]
      refine ⟨rfl, rfl, rfl, rfl, rfl, rfl, rfl, ?_⟩
      intro h
      simp only
      omega
    · rw [if_neg h1]
      by_cases h2 : item.type = TileType.SWORD
      · rw [if_pos h2]; simp
      · rw [if_neg h2]; simp

/-! ## Enemy turns -/

theorem performEnemyMove_frame (g : Game) (i : Nat) (x y : Int) :
    (g.performEnemyMove i x y).player = g.player ∧
    (g.performEnemyMove i x y).enemies.length = g.enemies.length ∧
    (g.performEnemyMove i x y).items = g.items := by
  unfold Game.performEnemyMove
  cases g.enemies[i]? with
  | none => simp
  | some e => simp

theorem moveEnemyRandomly_frame (g : Game) (i : Nat) (rnd : List Nat) :
    (g.moveEnemyRandomly i rnd).1.player = g.player ∧
    (g.moveEnemyRandomly i rnd).1.enemies.length = g.enemies.length ∧
    (g.moveEnemyRandomly i rnd).1.items = g.items := by
  unfold Game.moveEnemyRandomly
  cases g.enemies[i]? with
  | none => simp
  | some e =>
    simp only
    split
    · exact performEnemyMove_frame g i _ _
    · simp

theorem moveEnemySmartly_frame (g : Game) (i : Nat) (rnd : List Nat) (g1 : Game)
    (rnd1 : List Nat) (h : g.moveEnemySmartly i rnd = some (g1, rnd1)) :
    g1.player = g.player ∧ g1.enemies.length = g.enemies.length ∧ g1.items = g.items := by
  unfold Game.moveEnemySmartly at h
  split at h
  · simp only [Option.some.injEq, Prod.mk.injEq] at h
    rw [← h.1]; simp
  · split at h
    · simp only [Option.some.injEq, Prod.mk.injEq] at h
      rw [← h.1]; simp
    · split at h
      · cases h
      · split at h
        · simp only [Option.some.injEq, Prod.mk.injEq] at h
          rw [← h.1]; exact performEnemyMove_frame g i _ _
        · simp only [Option.some.injEq, Prod.mk.injEq] at h
          rw [← h.1]; simp
      · simp only [Option.some.injEq] at h
        have h1 := moveEnemyRandomly_frame g i rnd
        rw [h] at h1
        exact h1

/-- One enemy turn takes 5 health or none, and changes neither the other
fields of the player nor the number of enemies nor the items. -/
theorem enemyTurn_frame (g : Game) (i : Nat) (rnd : List Nat) (g1 : Game) (rnd1 : List Nat)
    (h : g.enemyTurn i rnd = some (g1, rnd1)) :
    g1.player.maxHealth = g.player.maxHealth ∧ g1.player.attackPower = g.player.attackPower ∧
    g1.player.x = g.player.x ∧ g1.player.y = g.player.y ∧
    g1.enemies.length = g.enemies.length ∧ g1.items = g.items ∧
    g.player.health - 5 ≤ g1.player.health ∧ g1.player.health ≤ g.player.health := by
  unfold Game.enemyTurn at h
  split at h
  · simp only [Option.some.injEq, Prod.mk.injEq] at h
    rw [← h.1]; simp
  · split at h
    · simp only [Option.some.injEq, Prod.mk.injEq] at h
      rw [← h.1]
      simp [Game.enemyAttackPlayer]
    · split at h
      · obtain ⟨h1, h2, h3⟩ := moveEnemySmartly_frame g i rnd g1 rnd1 h
        rw [h1]; simp [h2, h3]
      · split at h
        · simp only [Option.some.injEq] at h
          obtain ⟨h1, h2, h3⟩ := moveEnemyRandomly_frame g i rnd.tail
          rw [h] at h1 h2 h3
          simp only at h1 h2 h3
          rw [h1]; simp [h2, h3]
        · simp only [Option.some.injEq, Prod.mk.injEq] at h
          rw [← h.1]; simp

theorem moveEnemiesFrom_frame (is : List Nat) :
    ∀ (g : Game) (rnd : List Nat) (g1 : Game) (rnd1 : List Nat),
      Game.moveEnemiesFrom is g rnd = some (g1, rnd1) →
      g1.player.maxHealth = g.player.maxHealth ∧ g1.player.attackPower = g.player.attackPower ∧
      g1.player.x = g.player.x ∧ g1.player.y = g.player.y ∧
      g1.enemies.length = g.enemies.length ∧ g1.items = g.items ∧
      g.player.health - 5 * (is.length : Int) ≤ g1.player.health ∧
      g1.player.health ≤ g.player.health := by
  induction is with
  | nil =>
    intro g rnd g1 rnd1 h
    simp only [Game.moveEnemiesFrom, Option.some.injEq, Prod.mk.injEq] at h
    rw [← h.1]; simp
  | cons i rest ih =>
    intro g rnd g1 rnd1 h
    unfold Game.moveEnemiesFrom at h
    cases ht : g.enemyTurn i rnd with
    | none => rw [ht] at h; cases h
    | some r =>
      rw [ht] at h
      simp only at h
      obtain ⟨a1, a2, a3, a4, a5, a6, a7, a8⟩ := enemyTurn_frame g i rnd r.1 r.2 ht
      obtain ⟨b1, b2, b3, b4, b5, b6, b7, b8⟩ := ih r.1 r.2 g1 rnd1 h
      refine ⟨b1.trans a1, b2.trans a2, b3.trans a3, b4.trans a4, b5.trans a5, b6.trans a6, ?_, ?_⟩
      · simp only [List.length_cons]; push_cast; omega
      · omega

theorem moveEnemies_frame (g : Game) (rnd : List Nat) (g1 : Game) (rnd1 : List Nat)
    (h : g.moveEnemies rnd = some (g1, rnd1)) :
    g1.player.maxHealth = g.player.maxHealth ∧ g1.player.attackPower = g.player.attackPower ∧
    g1.player.x = g.player.x ∧ g1.player.y = g.player.y ∧
    g1.enemies.length = g.enemies.length ∧ g1.items = g.items ∧
    g.player.health - 5 * (g.enemies.length : Int) ≤ g1.player.health ∧
    g1.player.health ≤ g.player.health := by
  have := moveEnemiesFrom_frame (List.range g.enemies.length) g rnd g1 rnd1 h
  simpa using this

/-! ## `attack` -/

theorem hitFirst_length (a x y : Int) (es : List Enemy) :
    (hitFirst a x y es).1.length ≤ es.length := by
  induction es with
  | nil => simp [hitFirst]
  | cons e rest ih =>
    unfold hitFirst
    split
    · split <;> simp
    · simp only [List.length_cons]; omega

/-- A hit on the cell `(x, y)` leaves the enemies of every other cell alone. -/
theorem hitFirst_filter_other (a x y cx cy : Int) (hne : ¬ (cx = x ∧ cy = y))
    (es : List Enemy) :
    (hitFirst a x y es).1.filter (Enemy.isAt cx cy) = es.filter (Enemy.isAt cx cy) := by
  induction es with
  | nil => simp [hitFirst]
  | cons e rest ih =>
    unfold hitFirst
    by_cases h : e.x = x ∧ e.y = y
    · rw [if_pos h]
      have h1 : Enemy.isAt cx cy e = false := by
        unfold Enemy.isAt
        rw [decide_eq_false_iff_not]
        intro h2
        exact hne ⟨h2.1.symm.trans h.1, h2.2.symm.trans h.2⟩
      split
      · simp [List.filter_cons, h1]
      · have h3 : Enemy.isAt cx cy { e with health := e.health - a } = false := h1
        simp only [List.filter_cons, h1, h3]
        simp
    · rw [if_neg h]
      simp only [List.filter_cons, ih]

/-- A fatal hit on the cell `(x, y)` removes the first enemy standing there. -/
theorem hitFirst_filter_same (a x y : Int) (e : Enemy) (rest : List Enemy)
    (hd : e.health - a ≤ 0) :
    ∀ es : List Enemy, es.filter (Enemy.isAt x y) = e :: rest →
      (hitFirst a x y es).1.filter (Enemy.isAt x y) = rest ∧ (hitFirst a x y es).2 = true := by
  intro es
  induction es with
  | nil => intro h; simp at h
  | cons b bs ih =>
    intro h
    unfold hitFirst
    by_cases hb : b.x = x ∧ b.y = y
    · have h1 : Enemy.isAt x y b = true := by
        unfold Enemy.isAt; exact decide_eq_true hb
      rw [List.filter_cons, if_pos h1] at h
      obtain ⟨rfl, h2⟩ := List.cons.inj h
      rw [if_pos hb, if_pos hd]
      exact ⟨h2, rfl⟩
    · have h1 : Enemy.isAt x y b = false := by
        unfold Enemy.isAt; exact decide_eq_false hb
      rw [List.filter_cons, h1] at h
      simp only [Bool.false_eq_true, if_false] at h
      rw [if_neg hb]
      obtain ⟨h2, h3⟩ := ih h
      simp only [List.filter_cons, h1, h2, h3]
      simp

/-- Every write of `attackCell` is a Floor, so a Floor stays a Floor. -/
theorem attackCell_frame (g : Game) (x y : Int) :
    (g.attackCell x y).player = g.player ∧ (g.attackCell x y).items = g.items ∧
    (g.attackCell x y).mapWidth = g.mapWidth ∧ (g.attackCell x y).mapHeight = g.mapHeight ∧
    (g.attackCell x y).enemies.length ≤ g.enemies.length ∧ (g.WF → (g.attackCell x y).WF) := by
  unfold Game.attackCell
  refine ⟨rfl, rfl, rfl, rfl, hitFirst_length _ _ _ _, ?_⟩
  intro hg
  unfold Game.WF
  simp only
  split
  · exact Rect_set2 hg _ _ _
  · exact hg

theorem attackCell_other (g : Game) (x y cx cy : Int) (hne : ¬ (cx = x ∧ cy = y)) :
    (g.attackCell x y).enemies.filter (Enemy.isAt cx cy) = g.enemies.filter (Enemy.isAt cx cy) ∧
    get2 (g.attackCell x y).map cx cy = get2 g.map cx cy := by
  unfold Game.attackCell
  refine ⟨hitFirst_filter_other _ _ _ _ _ hne _, ?_⟩
  simp only
  split
  · exact get2_set2_other _ _ _ _ _ _ hne
  · rfl

theorem attackCell_same (g : Game) (hg : g.WF) (x y : Int) (hb : g.InMap ⟨x, y⟩) (e : Enemy)
    (rest : List Enemy) (hd : e.health ≤ g.player.attackPower)
    (hf : g.enemies.filter (Enemy.isAt x y) = e :: rest) :
    (g.attackCell x y).enemies.filter (Enemy.isAt x y) = rest ∧
    get2 (g.attackCell x y).map x y = some TileType.FLOOR := by
  obtain ⟨h1, h2⟩ := hitFirst_filter_same g.player.attackPower x y e rest (by omega) g.enemies hf
  unfold Game.attackCell
  refine ⟨h1, ?_⟩
  simp only [h2, if_true]
  exact get2_set2_same hg hb _

/-- The loop of `attack` over a list of offsets, none of which leads to the
cell `(cx, cy)`. -/
theorem attackFold_other (cx cy : Int) (ds : List Dir) :
    ∀ g : Game, (∀ d ∈ ds, ¬ (cx = g.player.x + d.dx ∧ cy = g.player.y + d.dy)) →
      (ds.foldl (fun g1 d => g1.attackCell (g1.player.x + d.dx) (g1.player.y + d.dy)) g).enemies.filter
          (Enemy.isAt cx cy) = g.enemies.filter (Enemy.isAt cx cy) ∧
      get2 (ds.foldl (fun g1 d => g1.attackCell (g1.player.x + d.dx) (g1.player.y + d.dy)) g).map
          cx cy = get2 g.map cx cy := by
  induction ds with
  | nil => intro g _; exact ⟨rfl, rfl⟩
  | cons d rest ih =>
    intro g h
    simp only [List.foldl_cons]
    obtain ⟨a1, a2⟩ := attackCell_other g _ _ cx cy (h d (List.mem_cons_self _ _))
    have hp := (attackCell_frame g (g.player.x + d.dx) (g.player.y + d.dy)).1
    obtain ⟨b1, b2⟩ := ih (g.attackCell (g.player.x + d.dx) (g.player.y + d.dy)) (by
      intro d1 hd1
      rw [hp]
      exact h d1 (List.mem_cons_of_mem _ hd1))
    exact ⟨b1.trans a1, b2.trans a2⟩

theorem attackFold_frame (ds : List Dir) :
    ∀ g : Game,
      (ds.foldl (fun g1 d => g1.attackCell (g1.player.x + d.dx) (g1.player.y + d.dy)) g).player
        = g.player ∧
      (ds.foldl (fun g1 d => g1.attackCell (g1.player.x + d.dx) (g1.player.y + d.dy)) g).items
        = g.items ∧
      (ds.foldl (fun g1 d => g1.attackCell (g1.player.x + d.dx) (g1.player.y + d.dy)) g).mapWidth
        = g.mapWidth ∧
      (ds.foldl (fun g1 d => g1.attackCell (g1.player.x + d.dx) (g1.player.y + d.dy)) g).mapHeight
        = g.mapHeight ∧
      (ds.foldl (fun g1 d => g1.attackCell (g1.player.x + d.dx) (g1.player.y + d.dy)) g).enemies.length
        ≤ g.enemies.length ∧
      (g.WF →
        (ds.foldl (fun g1 d => g1.attackCell (g1.player.x + d.dx) (g1.player.y + d.dy)) g).WF) := by
  induction ds with
  | nil => intro g; exact ⟨rfl, rfl, rfl, rfl, le_refl _, id⟩
  | cons d rest ih =>
    intro g
    simp only [List.foldl_cons]
    obtain ⟨a1, a2, a3, a4, a5, a6⟩ := attackCell_frame g (g.player.x + d.dx) (g.player.y + d.dy)
    obtain ⟨b1, b2, b3, b4, b5, b6⟩ := ih (g.attackCell (g.player.x + d.dx) (g.player.y + d.dy))
    exact ⟨b1.trans a1, b2.trans a2, b3.trans a3, b4.trans a4, le_trans b5 a5,
      fun hg => b6 (a6 hg)⟩

theorem attack_frame (g : Game) :
    g.attack.player = g.player ∧ g.attack.items = g.items ∧ g.attack.mapWidth = g.mapWidth ∧
    g.attack.mapHeight = g.mapHeight ∧ g.attack.enemies.length ≤ g.enemies.length ∧
    (g.WF → g.attack.WF) :=
  attackFold_frame attackOffsets g

/-- The effect of `attack` on a neighbouring cell whose first enemy has no
more health than the player's attack power. -/
theorem attack_kills (g : Game) (hg : g.WF) (d : Dir) (hd : d ∈ attackOffsets) (e : Enemy)
    (rest : List Enemy) (hb : g.InMap ⟨g.player.x + d.dx, g.player.y + d.dy⟩)
    (hh : e.health ≤ g.player.attackPower)
    (hf : g.enemies.filter (Enemy.isAt (g.player.x + d.dx) (g.player.y + d.dy)) = e :: rest) :
    g.attack.enemies.filter (Enemy.isAt (g.player.x + d.dx) (g.player.y + d.dy)) = rest ∧
    get2 g.attack.map (g.player.x + d.dx) (g.player.y + d.dy) = some TileType.FLOOR := by
  have hnd : attackOffsets.Nodup := by decide
  obtain ⟨pre, post, hsplit⟩ := List.append_of_mem hd
  rw [hsplit] at hnd
  have hpre : d ∉ pre := fun h =>
    (List.nodup_append.mp hnd).2.2 h (List.mem_cons_self _ _)
  have hpost : d ∉ post := (List.nodup_cons.mp (List.nodup_append.mp hnd).2.1).1
  have hoff : ∀ (p : Player) (l : List Dir), d ∉ l → ∀ d1 ∈ l,
      ¬ (p.x + d.dx = p.x + d1.dx ∧ p.y + d.dy = p.y + d1.dy) := by
    intro p l hl d1 hd1 h
    apply hl
    have : d = d1 := by
      cases d; cases d1
      simp only [Dir.mk.injEq]
      simp only at h
      omega
    rw [this]; exact hd1
  unfold Game.attack
  rw [hsplit, List.foldl_append, List.foldl_cons]
  have f1 := attackFold_frame pre g
  obtain ⟨a1, a2⟩ := attackFold_other (g.player.x + d.dx) (g.player.y + d.dy) pre g
    (hoff g.player pre hpre)
  generalize pre.foldl (fun g1 d => g1.attackCell (g1.player.x + d.dx) (g1.player.y + d.dy)) g
    = g2 at f1 a1 a2 ⊢
  obtain ⟨p1, -, p3, p4, -, p6⟩ := f1
  rw [p1]
  have hb2 : g2.InMap ⟨g.player.x + d.dx, g.player.y + d.dy⟩ := by
    unfold Game.InMap at hb ⊢; rw [p3, p4]; exact hb
  obtain ⟨b1, b2⟩ := attackCell_same g2 (p6 hg) _ _ hb2 e rest (by rw [p1]; exact hh)
    (a1.trans hf)
  have p5 := (attackCell_frame g2 (g.player.x + d.dx) (g.player.y + d.dy)).1
  obtain ⟨c1, c2⟩ := attackFold_other (g.player.x + d.dx) (g.player.y + d.dy) post
    (g2.attackCell (g.player.x + d.dx) (g.player.y + d.dy))
    (by rw [p5, p1]; exact hoff g.player post hpost)
  exact ⟨c1.trans b1, c2.trans b2⟩

/-! ## `shuffleArray` -/

/-- Exchanging two entries of an array permutes it. -/
theorem swap_perm {α : Type} [DecidableEq α] (l : List α) (i j : Nat) (ai aj : α)
    (hi : l[i]? = some ai) (hj : l[j]? = some aj) :
    List.Perm ((l.set i aj).set j ai) l := by
  obtain ⟨hi1, hi2⟩ := List.getElem?_eq_some.mp hi
  obtain ⟨hj1, hj2⟩ := List.getElem?_eq_some.mp hj
  rw [List.perm_iff_count]
  intro b
  have hj3 : j < (l.set i aj).length := by rw [List.length_set]; exact hj1
  rw [List.count_set ai b _ j hj3, List.count_set aj b l i hi1]
  have h1 : (l.set i aj)[j] = aj := by
    rw [List.getElem_set]
    split
    · rfl
    · exact hj2
  rw [h1, hi2]
  have h2 : (ai == b) = true → 1 ≤ l.count b := by
    intro h
    have : ai = b := by simpa using h
    rw [← this, List.one_le_count_iff, ← hi2]
    exact List.getElem_mem hi1
  by_cases ha : (ai == b) = true <;> by_cases hb : (aj == b) = true
  · have := h2 ha; rw [if_pos ha, if_pos hb]; omega
  · have := h2 ha; rw [if_pos ha, if_neg hb]; omega
  · rw [if_neg ha, if_pos hb]; omega
  · rw [if_neg ha, if_neg hb]; omega

theorem shuffleLoop_perm {α : Type} [DecidableEq α] (i : Nat) :
    ∀ (array : List α) (rnd : List Nat), List.Perm (shuffleLoop i array rnd).1 array := by
  induction i with
  | zero => intro array rnd; exact List.Perm.refl _
  | succ i ih =>
    intro array rnd
    unfold shuffleLoop
    simp only
    split
    · rename_i ai aj hi hj
      exact (ih _ _).trans (swap_perm array (i + 1) _ ai aj hi hj)
    · exact ih _ _

/-- The result of `shuffleArray` is a permutation of its argument, whatever
the draws. -/
theorem shuffleArray_perm {α : Type} [DecidableEq α] (array : List α) (rnd : List Nat) :
    List.Perm (shuffleArray array rnd).1 array :=
  shuffleLoop_perm _ array rnd

/-! ## `placeEntities` -/

/-- A placement loop of `n` rounds pops the last `n` positions (or all of
them), in the order from the end; `rs` is the pool read from its end. -/
theorem placeLoop_spec {β : Type} (mk : Cell → β) (n : Nat) :
    ∀ (rs : List Cell) (acc : List β),
      placeLoop mk n rs.reverse acc = ((rs.drop n).reverse, acc ++ (rs.take n).map mk) := by
  induction n with
  | zero => intro rs acc; simp [placeLoop]
  | succ n ih =>
    intro rs acc
    cases rs with
    | nil =>
      have := ih [] acc
      simp only [List.reverse_nil, List.drop_nil, List.take_nil, List.map_nil,
        List.append_nil] at this
      simp only [List.reverse_nil, placeLoop, List.getLast?_nil, List.drop_nil, List.take_nil,
        List.map_nil, List.append_nil, this]
    | cons p rest =>
      have := ih rest (acc ++ [mk p])
      simp only [List.reverse_cons, placeLoop, List.getLast?_concat, List.dropLast_concat, this,
        List.drop_succ_cons, List.take_succ_cons, List.map_cons, List.append_assoc,
        List.singleton_append]

/-- The Floor cells of the map in row-major order, the array `emptyTiles` of
`placeEntities` before the shuffle. -/
theorem placeEntities_eq (g : Game) (rnd : List Nat) (he : g.enemies = []) (hi : g.items = []) :
    ∃ rs : List Cell,
      List.Perm rs ((allCells g.mapWidth g.mapHeight).filter
        (fun c => g.tileIs c.x c.y TileType.FLOOR)) ∧
      (g.placeEntities rnd).1.map = g.map ∧
      (g.placeEntities rnd).1.mapWidth = g.mapWidth ∧
      (g.placeEntities rnd).1.mapHeight = g.mapHeight ∧
      (g.placeEntities rnd).1.player.health = g.player.health ∧
      (g.placeEntities rnd).1.player.maxHealth = g.player.maxHealth ∧
      (g.placeEntities rnd).1.player.attackPower = g.player.attackPower ∧
      (∀ p ∈ rs.head?, (g.placeEntities rnd).1.playerCell = p) ∧
      (g.placeEntities rnd).1.enemies =
        ((rs.drop 1).take 10).map (fun pos => Enemy.mk pos.x pos.y 30 30) ∧
      (g.placeEntities rnd).1.items =
        ((rs.drop 11).take 2).map (fun pos => Item.mk pos.x pos.y TileType.SWORD) ++
        ((rs.drop 13).take 10).map (fun pos => Item.mk pos.x pos.y TileType.HEALTH_POTION) := by
  refine ⟨(shuffleArray ((allCells g.mapWidth g.mapHeight).filter
    (fun c => g.tileIs c.x c.y TileType.FLOOR)) rnd).1.reverse,
    (List.reverse_perm _).trans (shuffleArray_perm _ _), ?_⟩
  unfold Game.placeEntities
  simp only [he, hi]
  generalize (shuffleArray ((allCells g.mapWidth g.mapHeight).filter
    (fun c => g.tileIs c.x c.y TileType.FLOOR)) rnd).1 = s
  have hs : s = s.reverse.reverse := (List.reverse_reverse s).symm
  generalize s.reverse = rs at hs
  subst hs
  have hd : rs.reverse.dropLast = (rs.drop 1).reverse := by
    cases rs with
    | nil => rfl
    | cons p rest => simp
  rw [hd, placeLoop_spec, placeLoop_spec, placeLoop_spec]
  simp only [List.drop_drop, List.nil_append]
  refine ⟨trivial, trivial, trivial, ?_, ?_, ?_, ?_, ?_⟩
  · cases rs with
    | nil => rfl
    | cons p rest => simp
  · cases rs with
    | nil => rfl
    | cons p rest => simp
  · cases rs with
    | nil => rfl
    | cons p rest => simp
  · intro p hp
    cases rs with
    | nil => simp at hp
    | cons q rest =>
      simp only [List.head?_cons, Option.mem_def, Option.some.injEq] at hp
      subst hp
      simp [Game.playerCell]
  · exact ⟨trivial, trivial⟩

theorem totalEmptyCount_eq (g : Game) :
    g.totalEmptyCount = ((allCells g.mapWidth g.mapHeight).filter
      (fun c => g.tileIs c.x c.y TileType.FLOOR)).length := by
  unfold Game.totalEmptyCount
  exact List.countP_eq_length_filter _ _

theorem mem_emptyTiles {g : Game} (hg : g.WF) (c : Cell) :
    c ∈ (allCells g.mapWidth g.mapHeight).filter (fun c => g.tileIs c.x c.y TileType.FLOOR) ↔
      g.IsFloor c := by
  rw [List.mem_filter, mem_allCells]
  unfold Game.tileIs
  rw [decide_eq_true_iff]
  constructor
  · exact fun h => h.2
  · exact fun h => ⟨isFloor_inMap hg h, h⟩

/-- The cells given out by `placeEntities` are the first 23 positions popped
off the shuffled pool. -/
theorem placeEntities_cells (g : Game) (hg : g.WF) (rnd : List Nat) (he : g.enemies = [])
    (hi : g.items = []) (hf : ∃ c, g.IsFloor c) :
    ∃ rs : List Cell, rs.Nodup ∧ (∀ c ∈ rs, g.IsFloor c) ∧
      (g.placeEntities rnd).1.entityCells = rs.take 23 := by
  obtain ⟨rs, hperm, -, -, -, -, -, -, hp, hen, hit⟩ := placeEntities_eq g rnd he hi
  have hnd : rs.Nodup :=
    (List.Perm.nodup_iff hperm).mpr ((nodup_allCells _ _).filter _)
  have hfl : ∀ c ∈ rs, g.IsFloor c := fun c hc =>
    (mem_emptyTiles hg c).mp ((List.Perm.mem_iff hperm).mp hc)
  refine ⟨rs, hnd, hfl, ?_⟩
  obtain ⟨c, hc⟩ := hf
  have hc1 : c ∈ rs := (List.Perm.mem_iff hperm).mpr ((mem_emptyTiles hg c).mpr hc)
  cases rs with
  | nil => simp at hc1
  | cons p rest =>
    have hp1 := hp p (by simp)
    unfold Game.entityCells
    rw [hp1, hen, hit]
    simp only [List.drop_succ_cons, List.drop_zero, List.map_append, List.map_map]
    have e1 : (Enemy.cell ∘ fun (pos : Cell) => Enemy.mk pos.x pos.y 30 30) = id := by
      funext pos; rfl
    have e2 : (Item.cell ∘ fun (pos : Cell) => Item.mk pos.x pos.y TileType.SWORD) = id := by
      funext pos; rfl
    have e3 : (Item.cell ∘ fun (pos : Cell) => Item.mk pos.x pos.y TileType.HEALTH_POTION)
        = id := by
      funext pos; rfl
    rw [e1, e2, e3]
    simp only [List.map_id]
    have t1 : rest.take 22 = rest.take 10 ++ ((rest.drop 10).take 2 ++ (rest.drop 12).take 10) := by
      have a1 := List.take_add rest 12 10
      have a2 := List.take_add rest 10 2
      simp only [Nat.reduceAdd] at a1 a2
      rw [a1, a2, List.append_assoc]
    show _ = p :: rest.take 22
    rw [t1]

/-- The numbers of enemies, swords and potions created by `placeEntities` on
a map with `totalEmptyCount` Floor cells. -/
theorem placeEntities_counts (g : Game) (rnd : List Nat) (he : g.enemies = [])
    (hi : g.items = []) :
    ∃ swords potions : List Item,
      (g.placeEntities rnd).1.items = swords ++ potions ∧
      (g.placeEntities rnd).1.enemies.length = min 10 (g.totalEmptyCount - 1) ∧
      swords.length = min 2 (g.totalEmptyCount - 11) ∧
      potions.length = min 10 (g.totalEmptyCount - 13) ∧
      (∀ e ∈ (g.placeEntities rnd).1.enemies, e.health = 30 ∧ e.maxHealth = 30) ∧
      (∀ i ∈ swords, i.type = TileType.SWORD) ∧
      (∀ i ∈ potions, i.type = TileType.HEALTH_POTION) := by
  obtain ⟨rs, hperm, -, -, -, -, -, -, -, hen, hit⟩ := placeEntities_eq g rnd he hi
  have hn : rs.length = g.totalEmptyCount := by
    rw [totalEmptyCount_eq]; exact hperm.length_eq
  refine ⟨_, _, hit, ?_, ?_, ?_, ?_, ?_, ?_⟩
  · rw [hen, List.length_map, List.length_take, List.length_drop, hn]
  · rw [List.length_map, List.length_take, List.length_drop, hn]
  · rw [List.length_map, List.length_take, List.length_drop, hn]
  · intro e h
    rw [hen] at h
    obtain ⟨pos, -, rfl⟩ := List.mem_map.mp h
    exact ⟨rfl, rfl⟩
  · intro i h
    obtain ⟨pos, -, rfl⟩ := List.mem_map.mp h
    rfl
  · intro i h
    obtain ⟨pos, -, rfl⟩ := List.mem_map.mp h
    rfl

/-! ## Map generation leaves the entities alone until `placeEntities` -/

theorem sameEntities_refl (g : Game) : g.SameEntities g := ⟨rfl, rfl, rfl⟩

theorem sameEntities_trans {g2 g1 g : Game} (h2 : g2.SameEntities g1) (h1 : g1.SameEntities g) :
    g2.SameEntities g :=
  ⟨h2.1.trans h1.1, h2.2.1.trans h1.2.1, h2.2.2.trans h1.2.2⟩

theorem setTiles_entities (g : Game) (cs : List Cell) (t : TileType) :
    (g.setTiles cs t).SameEntities g := ⟨rfl, rfl, rfl⟩

theorem createStraightCorridor_entities (g : Game) (x1 y1 x2 y2 : Int) :
    (g.createStraightCorridor x1 y1 x2 y2).SameEntities g := ⟨rfl, rfl, rfl⟩

theorem connectAreas_entities (mainArea : Area) (areas : List Area) :
    ∀ (g : Game) (rnd : List Nat) (g1 : Game) (rnd1 : List Nat),
      Game.connectAreas mainArea areas g rnd = some (g1, rnd1) → g1.SameEntities g := by
  induction areas with
  | nil =>
    intro g rnd g1 rnd1 h
    simp only [Game.connectAreas, Option.some.injEq, Prod.mk.injEq] at h
    rw [← h.1]; exact sameEntities_refl g
  | cons a rest ih =>
    intro g rnd g1 rnd1 h
    unfold Game.connectAreas at h
    split at h
    · exact sameEntities_trans (ih _ _ _ _ h) (createStraightCorridor_entities g _ _ _ _)
    · cases h

theorem ensureConnectivity_entities (g : Game) (rnd : List Nat) (g1 : Game) (rnd1 : List Nat)
    (h : g.ensureConnectivity rnd = some (g1, rnd1)) : g1.SameEntities g := by
  unfold Game.ensureConnectivity at h
  split at h
  · cases h
  · split at h
    · simp only [Option.some.injEq, Prod.mk.injEq] at h
      rw [← h.1]; exact sameEntities_refl g
    · split at h
      · simp only [Option.some.injEq, Prod.mk.injEq] at h
        rw [← h.1]; exact sameEntities_refl g
      · exact connectAreas_entities _ _ _ _ _ _ h

theorem placeRoom_entities (g : Game) (attempts : Nat) :
    ∀ (rooms : List Room) (rnd : List Nat), (g.placeRoom attempts rooms rnd).1.SameEntities g := by
  induction attempts with
  | zero => intro rooms rnd; exact sameEntities_refl g
  | succ k ih =>
    intro rooms rnd
    unfold Game.placeRoom
    simp only
    split
    · exact ih _ _
    · split
      · exact setTiles_entities g _ _
      · exact ih _ _

theorem roomsLoop_entities (k : Nat) :
    ∀ (g : Game) (rooms : List Room) (rnd : List Nat),
      (Game.roomsLoop k g rooms rnd).1.SameEntities g := by
  induction k with
  | zero => intro g rooms rnd; exact sameEntities_refl g
  | succ k ih =>
    intro g rooms rnd
    unfold Game.roomsLoop
    exact sameEntities_trans (ih _ _ _) (placeRoom_entities g 100 rooms rnd)

theorem horizontalLoop_entities (k : Nat) :
    ∀ (g : Game) (used : List Int) (rnd : List Nat),
      (Game.horizontalLoop k g used rnd).1.SameEntities g := by
  induction k with
  | zero => intro g used rnd; exact sameEntities_refl g
  | succ k ih =>
    intro g used rnd
    unfold Game.horizontalLoop
    exact sameEntities_trans (ih _ _ _) (setTiles_entities g _ _)

theorem verticalLoop_entities (k : Nat) :
    ∀ (g : Game) (used : List Int) (rnd : List Nat),
      (Game.verticalLoop k g used rnd).1.SameEntities g := by
  induction k with
  | zero => intro g used rnd; exact sameEntities_refl g
  | succ k ih =>
    intro g used rnd
    unfold Game.verticalLoop
    exact sameEntities_trans (ih _ _ _) (setTiles_entities g _ _)

/-- The state handed to `placeEntities` by `generateMap` has the player, the
enemies and the items of the state `generateMap` started from. -/
theorem generateMap_entities (g : Game) (rnd : List Nat) (g1 : Game) (rnd1 : List Nat)
    (h : g.generateMap rnd = some (g1, rnd1)) :
    ∃ (g2 : Game) (rnd2 : List Nat), g2.SameEntities g ∧ g1 = (g2.placeEntities rnd2).1 := by
  have h3 : (g.createEmptyMap.generateRooms rnd).1.generateCorridors
      (g.createEmptyMap.generateRooms rnd).2.2 |>.1.SameEntities g := by
    unfold Game.generateCorridors Game.generateRooms
    exact sameEntities_trans (verticalLoop_entities _ _ _ _)
      (sameEntities_trans (horizontalLoop_entities _ _ _ _)
        (sameEntities_trans (roomsLoop_entities _ _ _ _) ⟨rfl, rfl, rfl⟩))
  unfold Game.generateMap at h
  simp only at h
  split at h
  · cases h
  · simp only [Option.some.injEq] at h
    exact ⟨_, _, h3, by rw [h]⟩
  · split at h
    · cases h
    · rename_i r4 hr4
      simp only [Option.some.injEq] at h
      exact ⟨r4.1, r4.2, sameEntities_trans (ensureConnectivity_entities _ _ r4.1 r4.2 hr4) h3,
        by rw [h]⟩

/-- A freshly generated game: full health 100 and at most 10 enemies. -/
theorem fresh_player (g : Game) (h : g.Fresh) :
    g.player.health = 100 ∧ g.player.maxHealth = 100 ∧ g.enemies.length ≤ 10 := by
  obtain ⟨c, rnd, rnd1, hp, he, hi, hgen⟩ := h
  obtain ⟨g2, rnd2, ⟨s1, s2, s3⟩, rfl⟩ := generateMap_entities c rnd g rnd1 hgen
  obtain ⟨rs, -, -, -, -, q1, q2, -, -, q3, -⟩ :=
    placeEntities_eq g2 rnd2 (s2.trans he) (s3.trans hi)
  rw [q1, q2, q3, s1, hp]
  refine ⟨rfl, rfl, ?_⟩
  rw [List.length_map, List.length_take]
  exact Nat.min_le_left _ _

/-! ## The bounds on the player's health -/

/-- The bounds kept by every call of `handleInput`: the health never exceeds
the maximum, and it lies above `-5` times the number of enemies. -/
theorem handleInput_health (g : Game) (key : String) (rnd : List Nat) (g1 : Game)
    (rnd1 : List Nat) (h : g.handleInput key rnd = some (g1, rnd1))
    (hmax : g.player.health ≤ g.player.maxHealth)
    (hlow : -5 * (g.enemies.length : Int) < g.player.health) :
    g1.player.health ≤ g1.player.maxHealth ∧
    -5 * (g1.enemies.length : Int) < g1.player.health ∧
    g1.player.maxHealth = g.player.maxHealth ∧ g1.enemies.length ≤ g.enemies.length := by
  unfold Game.handleInput at h
  split at h
  · simp only [Option.some.injEq, Prod.mk.injEq] at h
    rw [← h.1]; exact ⟨hmax, hlow, rfl, le_refl _⟩
  · rename_i hterm
    split at h
    · simp only [Option.some.injEq, Prod.mk.injEq] at h
      obtain ⟨a1, -, -, -, a5, -⟩ := attack_frame g
      rw [← h.1, a1]
      refine ⟨hmax, ?_, rfl, a5⟩
      have : (g.attack.enemies.length : Int) ≤ (g.enemies.length : Int) := by exact_mod_cast a5
      omega
    · split at h
      · simp only [Option.some.injEq, Prod.mk.injEq] at h
        rw [← h.1]; exact ⟨hmax, hlow, rfl, le_refl _⟩
      · split at h
        · obtain ⟨m1, -, -, -, m5, -, m7, m8⟩ := moveEnemies_frame _ rnd g1 rnd1 h
          obtain ⟨-, c2, -, -, -, -, c7, c8⟩ := checkItems_frame g _ _
          rename_i newX newY _ _
          have e1 : ((g.checkItems newX newY).movePlayer newX newY).player.health
              = (g.checkItems newX newY).player.health := rfl
          have e2 : ((g.checkItems newX newY).movePlayer newX newY).player.maxHealth
              = (g.checkItems newX newY).player.maxHealth := rfl
          have e3 : ((g.checkItems newX newY).movePlayer newX newY).enemies
              = (g.checkItems newX newY).enemies := rfl
          rw [e1] at m7 m8
          rw [e2, c7] at m1
          rw [e3, c2] at m5 m7
          obtain ⟨c9, c10⟩ := c8 hmax
          have hpos : 0 < g.player.health := by
            by_contra hn; exact hterm (Or.inl (by omega))
          rw [m1, m5]
          refine ⟨by omega, by omega, rfl, le_refl _⟩
        · simp only [Option.some.injEq, Prod.mk.injEq] at h
          rw [← h.1]; exact ⟨hmax, hlow, rfl, le_refl _⟩

/-- The bounds on the health in every state reached from a fresh game. -/
theorem reachable_health (g0 : Game) (h0 : g0.Fresh) (g : Game) (h : Game.Reachable g0 g) :
    g.player.health ≤ g.player.maxHealth ∧ -5 * (g.enemies.length : Int) < g.player.health ∧
    g.player.maxHealth = 100 ∧ g.enemies.length ≤ 10 := by
  obtain ⟨f1, f2, f3⟩ := fresh_player g0 h0
  induction h with
  | start => exact ⟨by omega, by omega, f2, f3⟩
  | input g g1 key rnd rnd1 _ hstep ih =>
    obtain ⟨i1, i2, i3, i4⟩ := ih
    obtain ⟨s1, s2, s3, s4⟩ := handleInput_health g key rnd g1 rnd1 hstep i1 i2
    exact ⟨s1, s2, s3.trans i3, le_trans s4 i4⟩

/-! ## Runs of the sample states -/

set_option maxRecDepth 100000 in
theorem wideGame_rooms :
    (wideGame.createEmptyMap.generateRooms wideDraws).2.1 =
      [⟨1, 1, 3, 3⟩, ⟨5, 1, 3, 3⟩, ⟨9, 1, 3, 3⟩, ⟨13, 1, 3, 3⟩, ⟨17, 1, 3, 3⟩] := by
  decide

/-- A sequence of calls of `handleInput` leads to a reachable state. -/
theorem handleInputs_reachable (g0 : Game) (keys : List String) :
    ∀ (g : Game) (rnd : List Nat) (g1 : Game) (rnd1 : List Nat), Game.Reachable g0 g →
      g.handleInputs keys rnd = some (g1, rnd1) → Game.Reachable g0 g1 := by
  induction keys with
  | nil =>
    intro g rnd g1 rnd1 hr h
    simp only [Game.handleInputs, Option.some.injEq, Prod.mk.injEq] at h
    rw [← h.1]; exact hr
  | cons key keys ih =>
    intro g rnd g1 rnd1 hr h
    unfold Game.handleInputs at h
    cases hk : g.handleInput key rnd with
    | none => rw [hk] at h; cases h
    | some r =>
      rw [hk] at h
      exact ih r.1 r.2 g1 rnd1 (Game.Reachable.input g r.1 key rnd r.2 hr hk) h

theorem smallStart_fresh : smallStart.Fresh := by
  obtain ⟨g1, rnd1, h, -⟩ := generateMap_spec smallGame [] (by decide) (by decide)
  have e : smallStart = g1 := by simp [smallStart, h]
  exact ⟨smallGame, [], rnd1, rfl, rfl, rfl, e ▸ h⟩

/-! ## The run `arena` of the constructor's game -/

theorem arenaDraws_eq :
    arenaDraws = 0 :: (List.replicate 4 0 ++ (List.replicate (4 * 100) 0 ++
      (List.replicate (4 * 100) 0 ++ (List.replicate (4 * 100) 0 ++
        (List.replicate (4 * 100) 0 ++ (List.replicate 84 0 ++ arenaShuffle)))))) := by
  decide!

/-- The first attempt for the first room, all four draws 0: a 3 by 3 room
at (1,1). -/
theorem arena_firstRoom (S : List Nat) :
    Game.new.createEmptyMap.placeRoom 100 [] (List.replicate 4 0 ++ S) =
      (arenaRoomed, [⟨1, 1, 3, 3⟩], S) := by
  have hc : Game.new.createEmptyMap.canPlaceRoom 1 1 3 3 = true := by decide!
  have h3 : getRandomInt 0 3 8 = 3 := by decide
  have hx : getRandomInt 0 1 ((40 : Int) - 3 - 1) = 1 := by decide
  have hy : getRandomInt 0 1 ((24 : Int) - 3 - 1) = 1 := by decide
  show Game.placeRoom _ (99 + 1) _ _ = _
  unfold Game.placeRoom
  simp only [List.replicate, List.cons_append, List.nil_append, List.getD_cons_zero,
    List.getD_cons_succ, List.drop_succ_cons, List.drop_zero]
  have hw : ((Game.new.createEmptyMap.mapWidth : Nat) : Int) = 40 := rfl
  have hh : ((Game.new.createEmptyMap.mapHeight : Nat) : Int) = 24 := rfl
  rw [hw, hh, h3, hx, hy, if_neg (by decide), if_pos hc]
  rfl

/-- With the draws 0 every later attempt asks for the same room at (1,1) and is
rejected. -/
theorem arena_blocked (k : Nat) :
    ∀ (rooms : List Room) (S : List Nat),
      arenaRoomed.placeRoom k rooms (List.replicate (4 * k) 0 ++ S) = (arenaRoomed, rooms, S) := by
  have hc : arenaRoomed.canPlaceRoom 1 1 3 3 = false := by decide!
  have h3 : getRandomInt 0 3 8 = 3 := by decide
  have hx : getRandomInt 0 1 ((40 : Int) - 3 - 1) = 1 := by decide
  have hy : getRandomInt 0 1 ((24 : Int) - 3 - 1) = 1 := by decide
  have hw : ((arenaRoomed.mapWidth : Nat) : Int) = 40 := rfl
  have hh : ((arenaRoomed.mapHeight : Nat) : Int) = 24 := rfl
  induction k with
  | zero => intro rooms S; rfl
  | succ k ih =>
    intro rooms S
    have e : List.replicate (4 * (k + 1)) 0 ++ S =
        0 :: 0 :: 0 :: 0 :: (List.replicate (4 * k) 0 ++ S) := by
      have : 4 * (k + 1) = 4 * k + 1 + 1 + 1 + 1 := by ring
      rw [this]
      simp only [List.replicate_succ, List.cons_append]
    rw [e]
    unfold Game.placeRoom
    simp only [List.getD_cons_zero, List.getD_cons_succ, List.drop_succ_cons, List.drop_zero]
    rw [hw, hh, h3, hx, hy, if_neg (by decide), hc]
    simp only [Bool.false_eq_true, if_false]
    exact ih rooms S

theorem arena_rooms :
    Game.new.createEmptyMap.generateRooms arenaDraws =
      (arenaRoomed, [⟨1, 1, 3, 3⟩], List.replicate 84 0 ++ arenaShuffle) := by
  have h5 : (getRandomInt 0 5 10).toNat = 5 := by decide
  unfold Game.generateRooms
  rw [arenaDraws_eq]
  simp only [List.headD_cons, List.tail_cons]
  rw [h5]
  simp only [Game.roomsLoop]
  rw [arena_firstRoom]
  simp only
  rw [arena_blocked 100]
  simp only
  rw [arena_blocked 100]
  simp only
  rw [arena_blocked 100]
  simp only
  rw [arena_blocked 100]

theorem arena_corridors :
    arenaRoomed.generateCorridors (List.replicate 84 0 ++ arenaShuffle) =
      (arenaBare, arenaShuffle) := by
  decide!

theorem arena_chunk1 :
    ((List.range' 0 6).flatMap (fun (y : Nat) => (List.range 40).map
      (fun (x : Nat) => Cell.mk (Int.ofNat x) (Int.ofNat y)))).filter
        (fun c => arenaBare.tileIs c.x c.y TileType.FLOOR) =
      arenaFloor.take 49 := by
  decide!

theorem arena_chunk2 :
    ((List.range' 6 6).flatMap (fun (y : Nat) => (List.range 40).map
      (fun (x : Nat) => Cell.mk (Int.ofNat x) (Int.ofNat y)))).filter
        (fun c => arenaBare.tileIs c.x c.y TileType.FLOOR) =
      (arenaFloor.drop 49).take 6 := by
  decide!

theorem arena_chunk3 :
    ((List.range' 12 6).flatMap (fun (y : Nat) => (List.range 40).map
      (fun (x : Nat) => Cell.mk (Int.ofNat x) (Int.ofNat y)))).filter
        (fun c => arenaBare.tileIs c.x c.y TileType.FLOOR) =
      (arenaFloor.drop 55).take 6 := by
  decide!

theorem arena_chunk4 :
    ((List.range' 18 6).flatMap (fun (y : Nat) => (List.range 40).map
      (fun (x : Nat) => Cell.mk (Int.ofNat x) (Int.ofNat y)))).filter
        (fun c => arenaBare.tileIs c.x c.y TileType.FLOOR) =
      arenaFloor.drop 61 := by
  decide!

/-- The array `emptyTiles` that `placeEntities` collects on `arenaBare`. -/
theorem arena_emptyTiles :
    (allCells arenaBare.mapWidth arenaBare.mapHeight).filter
      (fun c => arenaBare.tileIs c.x c.y TileType.FLOOR) = arenaFloor := by
  have hr : List.range 24 =
      List.range' 0 6 ++ (List.range' 6 6 ++ (List.range' 12 6 ++ List.range' 18 6)) := by
    decide
  show List.filter _ (allCells 40 24) = _
  unfold allCells
  rw [hr]
  simp only [List.flatMap_append, List.filter_append]
  rw [arena_chunk1, arena_chunk2, arena_chunk3, arena_chunk4]
  have e1 : arenaFloor.drop 49 =
      (arenaFloor.drop 49).take 6 ++ ((arenaFloor.drop 55).take 6 ++ arenaFloor.drop 61) := by
    decide
  rw [← e1, List.take_append_drop]

theorem arenaBare_wf : arenaBare.WF := by decide

theorem arena_isFloor (c : Cell) : arenaBare.IsFloor c ↔ c ∈ arenaFloor := by
  rw [← arena_emptyTiles]
  exact (mem_emptyTiles arenaBare_wf c).symm

theorem arena_row (x : Int) (h0 : 0 ≤ x) (h1 : x ≤ 39) : arenaBare.IsFloor ⟨x, 1⟩ := by
  rw [arena_isFloor]
  unfold arenaFloor
  refine List.mem_cons_of_mem _ (List.mem_append_left _ (List.mem_append_left _ ?_))
  refine List.mem_map.mpr ⟨x.toNat, List.mem_range.mpr (by omega), ?_⟩
  simp only [Int.ofNat_eq_coe, Cell.mk.injEq, and_true]
  omega

theorem arena_col (y : Int) (h0 : 0 ≤ y) (h1 : y ≤ 23) : arenaBare.IsFloor ⟨1, y⟩ := by
  by_cases h4 : 4 ≤ y
  · rw [arena_isFloor]
    unfold arenaFloor
    refine List.mem_cons_of_mem _ (List.mem_append_right _ ?_)
    refine List.mem_map.mpr ⟨(y - 4).toNat, List.mem_range.mpr (by omega), ?_⟩
    simp only [Int.ofNat_eq_coe, Cell.mk.injEq, true_and]
    omega
  · have hy : y = 0 ∨ y = 1 ∨ y = 2 ∨ y = 3 := by omega
    rcases hy with h | h | h | h <;> subst h <;> rw [arena_isFloor] <;> decide

theorem arena_room (x y : Int) (hx : 1 ≤ x ∧ x ≤ 3) (hy : 1 ≤ y ∧ y ≤ 3) :
    arenaBare.IsFloor ⟨x, y⟩ := by
  have hx1 : x = 1 ∨ x = 2 ∨ x = 3 := by omega
  have hy1 : y = 1 ∨ y = 2 ∨ y = 3 := by omega
  rcases hx1 with h | h | h <;> rcases hy1 with k | k | k <;> subst h <;> subst k <;>
    rw [arena_isFloor] <;> decide

theorem arena_shape (c : Cell) (h : c ∈ arenaFloor) :
    (c.y = 1 ∧ 0 ≤ c.x ∧ c.x ≤ 39) ∨ (c.x = 1 ∧ 0 ≤ c.y ∧ c.y ≤ 23) ∨
    (1 ≤ c.x ∧ c.x ≤ 3 ∧ 1 ≤ c.y ∧ c.y ≤ 3) := by
  unfold arenaFloor at h
  simp only [List.mem_cons, List.mem_append, List.mem_map, List.mem_range, List.mem_singleton,
    List.not_mem_nil, or_false] at h
  rcases h with rfl | ((⟨x, hx, rfl⟩ | h) | ⟨y, hy, rfl⟩)
  · right; left; simp
  · left
    refine ⟨rfl, ?_, ?_⟩ <;> simp only [Int.ofNat_eq_coe] <;> omega
  · right; right
    rcases h with rfl | rfl | rfl | rfl | rfl | rfl <;> simp
  · right; left
    refine ⟨rfl, ?_, ?_⟩ <;> simp only [Int.ofNat_eq_coe] <;> omega

/-- The map `arenaMap` is connected: every Floor cell is joined to (1,1). -/
theorem arena_connected : arenaBare.checkConnectivity = some true := by
  refine checkConnectivity_of_hub arenaBare_wf (m := ⟨1, 1⟩) (arena_row 1 (by omega) (by omega)) ?_
  intro c hc
  rw [floorConnected_iff]
  refine ⟨arena_row 1 (by omega) (by omega), ?_⟩
  rcases arena_shape c ((arena_isFloor c).mp hc) with ⟨hy, h0, h1⟩ | ⟨hx, h0, h1⟩ | ⟨a, b, e, f⟩
  · have := reach_row arenaBare 1 0 39 (fun x h0 h1 => arena_row x h0 h1) 1 c.x
      ⟨by omega, by omega⟩ ⟨h0, h1⟩
    have e : c = ⟨c.x, 1⟩ := by cases c; simp only [Cell.mk.injEq, true_and]; exact hy
    rw [e]; exact this
  · have := reach_col arenaBare 1 0 23 (fun y h0 h1 => arena_col y h0 h1) 1 c.y
      ⟨by omega, by omega⟩ ⟨h0, h1⟩
    have e : c = ⟨1, c.y⟩ := by cases c; simp only [Cell.mk.injEq, and_true]; exact hx
    rw [e]; exact this
  · have r1 := reach_row arenaBare 1 0 39 (fun x h0 h1 => arena_row x h0 h1) 1 c.x
      ⟨by omega, by omega⟩ ⟨by omega, by omega⟩
    have r2 := reach_col arenaBare c.x 1 3 (fun y h0 h1 => arena_room c.x y ⟨a, b⟩ ⟨h0, h1⟩) 1 c.y
      ⟨by omega, by omega⟩ ⟨e, f⟩
    exact r1.trans r2

/-- The entities that `placeEntities` gives out on `arenaBare` with the shuffle
draws `arenaShuffle`. -/
theorem arena_placed : arenaBare.placeEntities arenaShuffle = (arena, []) := by
  unfold Game.placeEntities
  simp only [arena_emptyTiles]
  decide!

/-- When the map is connected after the corridors, `generateMap` goes
straight on to `placeEntities`. -/
theorem generateMap_of_connected (g : Game) (rnd : List Nat) (g3 : Game) (rnd3 : List Nat)
    (hgen : (g.createEmptyMap.generateRooms rnd).1.generateCorridors
      (g.createEmptyMap.generateRooms rnd).2.2 = (g3, rnd3))
    (hconn : g3.checkConnectivity = some true) :
    g.generateMap rnd = some (g3.placeEntities rnd3) := by
  unfold Game.generateMap
  simp only [hgen, hconn]

/-- The game `arena` is what `generateMap` builds from the constructor's game
with the draws `arenaDraws`. -/
theorem arena_generated : Game.new.generateMap arenaDraws = some (arena, []) := by
  have hgen : (Game.new.createEmptyMap.generateRooms arenaDraws).1.generateCorridors
      (Game.new.createEmptyMap.generateRooms arenaDraws).2.2 = (arenaBare, arenaShuffle) := by
    rw [arena_rooms]
    exact arena_corridors
  rw [generateMap_of_connected Game.new arenaDraws arenaBare arenaShuffle hgen arena_connected,
    arena_placed]

theorem arena_fresh : arena.Fresh :=
  ⟨Game.new, arenaDraws, [], rfl, rfl, rfl, arena_generated⟩

/-- After the keys `crowdKeys` the cell (3,2) of `arena` holds the EnemyMarker
and two enemy records stand on it. -/
theorem arena_crowd :
    (arena.handleInputs crowdKeys []).map
      (fun r => (get2 r.1.map 3 2, (r.1.enemies.filter (Enemy.isAt 3 2)).length)) =
      some (some TileType.ENEMY, 2) := by
  decide!

/-- After the keys `fatalKeys` the player of `arena` has health -10. -/
theorem arena_fatal :
    (arena.handleInputs fatalKeys []).map (fun r => r.1.player.health) = some (-10) := by
  decide!

/-! ## The pursuit step of `moveEnemySmartly` -/

/-- The first two cells of a path that `findPath` returns: the start, then a
4-adjacent cell that is inside the map and neither Wall nor EnemyMarker. -/
theorem path_second {g : Game} (s t c0 next : Cell) (rest : List Cell) (hs : g.InMap s)
    (hpath : g.findPath s.x s.y t.x t.y = some (some (c0 :: next :: rest))) :
    c0 = s ∧ Adj4 c0 next ∧ g.Passable next := by
  by_cases hw : g.tileIs t.x t.y TileType.WALL = true
  · rw [(findPath_spec s t hs).1 hw] at hpath
    cases hpath
  · obtain ⟨r, hr, hspec⟩ := (findPath_spec s t hs).2 (by simpa using hw)
    rw [hr] at hpath
    simp only [Option.some.injEq] at hpath
    subst hpath
    obtain ⟨⟨h1, -, h3, h4⟩, -⟩ := hspec
    simp only [List.head?_cons, Option.some.injEq] at h1
    exact ⟨h1, (List.chain'_cons.mp h3).1, h4 next (by simp)⟩

theorem canEnemyMoveTo_of_passable {g : Game} {c : Cell} (hp : g.Passable c)
    (hnp : get2 g.map c.x c.y ≠ some TileType.PLAYER) : g.canEnemyMoveTo c.x c.y = true := by
  obtain ⟨hin, hw, he⟩ := hp
  unfold Game.InMap at hin
  unfold Game.canEnemyMoveTo
  rw [if_neg (by omega)]
  simp [Game.tileIs, hw, he, hnp]

/-- A path returned by `findPath` between two different cells has at least two
cells. -/
theorem path_two_cells {g : Game} (s t : Cell) (hs : g.InMap s) (hne : s ≠ t) (path : List Cell)
    (hpath : g.findPath s.x s.y t.x t.y = some (some path)) :
    ∃ c0 next rest, path = c0 :: next :: rest := by
  by_cases hw : g.tileIs t.x t.y TileType.WALL = true
  · rw [(findPath_spec s t hs).1 hw] at hpath
    cases hpath
  · obtain ⟨r, hr, hspec⟩ := (findPath_spec s t hs).2 (by simpa using hw)
    rw [hr] at hpath
    simp only [Option.some.injEq] at hpath
    subst hpath
    obtain ⟨⟨h1, h2, -, -⟩, -⟩ := hspec
    cases path with
    | nil => simp at h1
    | cons a l =>
      cases l with
      | nil =>
        simp only [List.head?_cons, Option.some.injEq, List.getLast?_singleton] at h1 h2
        exact absurd (h1.symm.trans h2) hne
      | cons b l2 => exact ⟨a, b, l2, rfl⟩

/-- The search of `findPath` from a cell inside the map always comes to an
end. -/
theorem findPath_total {g : Game} (s t : Cell) (hs : g.InMap s) :
    ∃ r, g.findPath s.x s.y t.x t.y = some r := by
  by_cases hw : g.tileIs t.x t.y TileType.WALL = true
  · exact ⟨none, (findPath_spec s t hs).1 hw⟩
  · obtain ⟨r, hr, -⟩ := (findPath_spec s t hs).2 (by simpa using hw)
    exact ⟨r, hr⟩

theorem not_adjacent_ne {g : Game} {enemy : Enemy}
    (hfar : ¬ ((enemy.x - g.player.x).natAbs ≤ 1 ∧ (enemy.y - g.player.y).natAbs ≤ 1)) :
    (⟨enemy.x, enemy.y⟩ : Cell) ≠ ⟨g.player.x, g.player.y⟩ := by
  intro h
  simp only [Cell.mk.injEq] at h
  apply hfar
  rw [h.1, h.2]
  simp

/-- The three branches of `moveEnemySmartly` for an enemy that is not adjacent
to the player. -/
theorem moveEnemySmartly_branches (g : Game) (i : Nat) (enemy : Enemy) (rnd : List Nat)
    (hi : g.enemies[i]? = some enemy)
    (hfar : ¬ ((enemy.x - g.player.x).natAbs ≤ 1 ∧ (enemy.y - g.player.y).natAbs ≤ 1)) :
    (∀ c0 next rest,
      g.findPath enemy.x enemy.y g.player.x g.player.y = some (some (c0 :: next :: rest)) →
      (g.canEnemyMoveTo next.x next.y = true →
        g.moveEnemySmartly i rnd = some (g.performEnemyMove i next.x next.y, rnd)) ∧
      (g.canEnemyMoveTo next.x next.y = false → g.moveEnemySmartly i rnd = some (g, rnd))) ∧
    (g.findPath enemy.x enemy.y g.player.x g.player.y = some none →
      g.moveEnemySmartly i rnd = some (g.moveEnemyRandomly i rnd)) := by
  have hatt : g.canEnemyAttackPlayer enemy = false := by
    unfold Game.canEnemyAttackPlayer
    exact decide_eq_false hfar
  refine ⟨?_, ?_⟩
  · intro c0 next rest hpath
    constructor
    · intro hcan
      unfold Game.moveEnemySmartly
      rw [hi]
      simp only [hatt, Bool.false_eq_true, if_false, hpath, hcan, if_true]
    · intro hcan
      unfold Game.moveEnemySmartly
      rw [hi]
      simp only [hatt, Bool.false_eq_true, if_false, hpath, hcan]
  · intro hpath
    unfold Game.moveEnemySmartly
    rw [hi]
    simp only [hatt, Bool.false_eq_true, if_false, hpath]

/-! ## Map generation keeps the size of the map -/

theorem sameSize_refl (g : Game) : g.SameSize g := ⟨rfl, rfl⟩

theorem sameSize_trans {g2 g1 g : Game} (h2 : g2.SameSize g1) (h1 : g1.SameSize g) :
    g2.SameSize g :=
  ⟨h2.1.trans h1.1, h2.2.trans h1.2⟩

theorem connectAreas_size (mainArea : Area) (areas : List Area) :
    ∀ (g : Game) (rnd : List Nat) (g1 : Game) (rnd1 : List Nat),
      Game.connectAreas mainArea areas g rnd = some (g1, rnd1) → g1.SameSize g := by
  induction areas with
  | nil =>
    intro g rnd g1 rnd1 h
    simp only [Game.connectAreas, Option.some.injEq, Prod.mk.injEq] at h
    rw [← h.1]; exact sameSize_refl g
  | cons a rest ih =>
    intro g rnd g1 rnd1 h
    unfold Game.connectAreas at h
    split at h
    · exact sameSize_trans (ih _ _ _ _ h) ⟨rfl, rfl⟩
    · cases h

theorem ensureConnectivity_size (g : Game) (rnd : List Nat) (g1 : Game) (rnd1 : List Nat)
    (h : g.ensureConnectivity rnd = some (g1, rnd1)) : g1.SameSize g := by
  unfold Game.ensureConnectivity at h
  split at h
  · cases h
  · split at h
    · simp only [Option.some.injEq, Prod.mk.injEq] at h
      rw [← h.1]; exact sameSize_refl g
    · split at h
      · simp only [Option.some.injEq, Prod.mk.injEq] at h
        rw [← h.1]; exact sameSize_refl g
      · exact connectAreas_size _ _ _ _ _ _ h

theorem placeRoom_size (g : Game) (attempts : Nat) :
    ∀ (rooms : List Room) (rnd : List Nat), (g.placeRoom attempts rooms rnd).1.SameSize g := by
  induction attempts with
  | zero => intro rooms rnd; exact sameSize_refl g
  | succ k ih =>
    intro rooms rnd
    unfold Game.placeRoom
    simp only
    split
    · exact ih _ _
    · split
      · exact ⟨rfl, rfl⟩
      · exact ih _ _

theorem roomsLoop_size (k : Nat) :
    ∀ (g : Game) (rooms : List Room) (rnd : List Nat),
      (Game.roomsLoop k g rooms rnd).1.SameSize g := by
  induction k with
  | zero => intro g rooms rnd; exact sameSize_refl g
  | succ k ih =>
    intro g rooms rnd
    unfold Game.roomsLoop
    exact sameSize_trans (ih _ _ _) (placeRoom_size g 100 rooms rnd)

theorem horizontalLoop_size (k : Nat) :
    ∀ (g : Game) (used : List Int) (rnd : List Nat),
      (Game.horizontalLoop k g used rnd).1.SameSize g := by
  induction k with
  | zero => intro g used rnd; exact sameSize_refl g
  | succ k ih =>
    intro g used rnd
    unfold Game.horizontalLoop
    exact sameSize_trans (ih _ _ _) ⟨rfl, rfl⟩

theorem verticalLoop_size (k : Nat) :
    ∀ (g : Game) (used : List Int) (rnd : List Nat),
      (Game.verticalLoop k g used rnd).1.SameSize g := by
  induction k with
  | zero => intro g used rnd; exact sameSize_refl g
  | succ k ih =>
    intro g used rnd
    unfold Game.verticalLoop
    exact sameSize_trans (ih _ _ _) ⟨rfl, rfl⟩

theorem generateRooms_size (g : Game) (rnd : List Nat) : (g.generateRooms rnd).1.SameSize g := by
  unfold Game.generateRooms
  exact roomsLoop_size _ g [] _

theorem generateCorridors_size (g : Game) (rnd : List Nat) :
    (g.generateCorridors rnd).1.SameSize g := by
  unfold Game.generateCorridors
  exact sameSize_trans (verticalLoop_size _ _ _ _) (horizontalLoop_size _ g [] _)

theorem placeEntities_size (g : Game) (rnd : List Nat) : (g.placeEntities rnd).1.SameSize g :=
  ⟨rfl, rfl⟩

/-- The game built by `generateMap` has the size of the game it started from. -/
theorem generateMap_size (g : Game) (rnd : List Nat) (g1 : Game) (rnd1 : List Nat)
    (h : g.generateMap rnd = some (g1, rnd1)) : g1.SameSize g := by
  have h3 : (g.createEmptyMap.generateRooms rnd).1.generateCorridors
      (g.createEmptyMap.generateRooms rnd).2.2 |>.1.SameSize g :=
    sameSize_trans (generateCorridors_size _ _)
      (sameSize_trans (generateRooms_size g.createEmptyMap rnd) ⟨rfl, rfl⟩)
  unfold Game.generateMap at h
  simp only at h
  split at h
  · cases h
  · simp only [Option.some.injEq] at h
    have e : g1 = (((g.createEmptyMap.generateRooms rnd).1.generateCorridors
        (g.createEmptyMap.generateRooms rnd).2.2).1.placeEntities
          ((g.createEmptyMap.generateRooms rnd).1.generateCorridors
            (g.createEmptyMap.generateRooms rnd).2.2).2).1 := by rw [h]
    rw [e]
    exact sameSize_trans (placeEntities_size _ _) h3
  · split at h
    · cases h
    · rename_i r4 hr4
      simp only [Option.some.injEq] at h
      have e : g1 = (r4.1.placeEntities r4.2).1 := by rw [h]
      rw [e]
      exact sameSize_trans (placeEntities_size _ _)
        (sameSize_trans (ensureConnectivity_size _ _ r4.1 r4.2 hr4) h3)

/-- A freshly generated game on a map of at least 3 by 3 cells has a
rectangular map and its player on a Floor cell. -/
theorem fresh_on_floor (g0 : Game) (h0 : g0.Fresh) (hw : 3 ≤ g0.mapWidth)
    (hh : 3 ≤ g0.mapHeight) : g0.WF ∧ g0.IsFloor g0.playerCell := by
  obtain ⟨c, rnd, rnd1, -, he, hi, hgen⟩ := h0
  obtain ⟨sw, sh⟩ := generateMap_size c rnd g0 rnd1 hgen
  obtain ⟨g1, rnd2, hg1, hwf, -, -, hconn⟩ :=
    generateMap_spec c rnd (by omega) (by omega)
  rw [hgen] at hg1
  simp only [Option.some.injEq, Prod.mk.injEq] at hg1
  obtain ⟨rfl, -⟩ := hg1
  refine ⟨hwf, ?_⟩
  obtain ⟨s, hs, -⟩ := (checkConnectivity_true_iff hwf).mp hconn
  have hsfl := (firstFloor_some hwf hs).1
  obtain ⟨g2, rnd3, ⟨-, s2, s3⟩, rfl⟩ := generateMap_entities c rnd _ rnd1 hgen
  have hwf2 : g2.WF := hwf
  have hfl2 : g2.IsFloor s := hsfl
  obtain ⟨rs, -, hfl, hcells⟩ :=
    placeEntities_cells g2 hwf2 rnd3 (s2.trans he) (s3.trans hi) ⟨s, hfl2⟩
  have hmem : (g2.placeEntities rnd3).1.playerCell ∈ (g2.placeEntities rnd3).1.entityCells :=
    List.mem_cons_self _ _
  rw [hcells] at hmem
  exact hfl _ (List.mem_of_mem_take hmem)

/-! ## The cell under the player -/

/-- A move of an enemy that neither starts nor ends on the cell `(px, py)`
leaves that cell of the map alone. -/
theorem performEnemyMove_other (g : Game) (hg : g.WF) (i : Nat) (enemy : Enemy) (x y px py : Int)
    (hi : g.enemies[i]? = some enemy) (hold : ¬ (px = enemy.x ∧ py = enemy.y))
    (hnew : ¬ (px = x ∧ py = y)) :
    (g.performEnemyMove i x y).WF ∧ (g.performEnemyMove i x y).player = g.player ∧
    get2 (g.performEnemyMove i x y).map px py = get2 g.map px py := by
  unfold Game.performEnemyMove
  rw [hi]
  refine ⟨Rect_set2 (Rect_set2 hg _ _ _) _ _ _, rfl, ?_⟩
  simp only
  rw [get2_set2_other _ _ _ _ _ _ hnew, get2_set2_other _ _ _ _ _ _ hold]

theorem canEnemyMoveTo_not_player {g : Game} {x y : Int} (h : g.canEnemyMoveTo x y = true) :
    get2 g.map x y ≠ some TileType.PLAYER := by
  unfold Game.canEnemyMoveTo at h
  split at h
  · cases h
  · split at h
    · cases h
    · split at h
      · cases h
      · rename_i hp
        simpa [Game.tileIs] using hp

/-- While the player's cell holds the PlayerMarker, the random move of an
enemy that does not stand on that cell keeps it so. -/
theorem moveEnemyRandomly_marker (g : Game) (hg : g.WF) (i : Nat) (enemy : Enemy)
    (rnd : List Nat) (hi : g.enemies[i]? = some enemy)
    (hne : ¬ (g.player.x = enemy.x ∧ g.player.y = enemy.y))
    (hm : get2 g.map g.player.x g.player.y = some TileType.PLAYER) :
    (g.moveEnemyRandomly i rnd).1.WF ∧ (g.moveEnemyRandomly i rnd).1.player = g.player ∧
    get2 (g.moveEnemyRandomly i rnd).1.map g.player.x g.player.y = some TileType.PLAYER := by
  unfold Game.moveEnemyRandomly
  rw [hi]
  simp only
  split
  · rename_i d hd
    have hcan := List.find?_some hd
    have hnp := canEnemyMoveTo_not_player hcan
    obtain ⟨a, b, c⟩ := performEnemyMove_other g hg i enemy (enemy.x + d.dx) (enemy.y + d.dy)
      g.player.x g.player.y hi hne (by
        rintro ⟨h1, h2⟩
        rw [← h1, ← h2] at hnp
        exact hnp hm)
    exact ⟨a, b, c.trans hm⟩
  · exact ⟨hg, rfl, hm⟩

theorem moveEnemySmartly_marker (g : Game) (hg : g.WF) (i : Nat) (enemy : Enemy)
    (rnd : List Nat) (g1 : Game) (rnd1 : List Nat) (hi : g.enemies[i]? = some enemy)
    (hne : ¬ (g.player.x = enemy.x ∧ g.player.y = enemy.y))
    (hm : get2 g.map g.player.x g.player.y = some TileType.PLAYER)
    (h : g.moveEnemySmartly i rnd = some (g1, rnd1)) :
    g1.WF ∧ g1.player = g.player ∧
    get2 g1.map g.player.x g.player.y = some TileType.PLAYER := by
  unfold Game.moveEnemySmartly at h
  rw [hi] at h
  simp only at h
  split at h
  · simp only [Option.some.injEq, Prod.mk.injEq] at h
    rw [← h.1]; exact ⟨hg, rfl, hm⟩
  · split at h
    · cases h
    · rename_i c0 nextStep rest hpath
      split at h
      · rename_i hcan
        simp only [Option.some.injEq, Prod.mk.injEq] at h
        have hnp := canEnemyMoveTo_not_player hcan
        obtain ⟨a, b, c⟩ := performEnemyMove_other g hg i enemy nextStep.x nextStep.y
          g.player.x g.player.y hi hne (by
            rintro ⟨h1, h2⟩
            rw [← h1, ← h2] at hnp
            exact hnp hm)
        rw [← h.1]
        exact ⟨a, b, c.trans hm⟩
      · simp only [Option.some.injEq, Prod.mk.injEq] at h
        rw [← h.1]; exact ⟨hg, rfl, hm⟩
    · simp only [Option.some.injEq] at h
      have := moveEnemyRandomly_marker g hg i enemy rnd hi hne hm
      rw [h] at this
      exact this

/-- One enemy turn keeps the PlayerMarker under the player. -/
theorem enemyTurn_marker (g : Game) (hg : g.WF) (i : Nat) (rnd : List Nat) (g1 : Game)
    (rnd1 : List Nat) (hm : get2 g.map g.player.x g.player.y = some TileType.PLAYER)
    (h : g.enemyTurn i rnd = some (g1, rnd1)) :
    g1.WF ∧ g1.player.x = g.player.x ∧ g1.player.y = g.player.y ∧
    get2 g1.map g.player.x g.player.y = some TileType.PLAYER := by
  unfold Game.enemyTurn at h
  split at h
  · simp only [Option.some.injEq, Prod.mk.injEq] at h
    rw [← h.1]; exact ⟨hg, rfl, rfl, hm⟩
  · rename_i enemy hi
    split at h
    · simp only [Option.some.injEq, Prod.mk.injEq] at h
      rw [← h.1]; exact ⟨hg, rfl, rfl, hm⟩
    · rename_i hatt
      have hne : ¬ (g.player.x = enemy.x ∧ g.player.y = enemy.y) := by
        rintro ⟨h1, h2⟩
        apply hatt
        unfold Game.canEnemyAttackPlayer
        rw [h1, h2]
        simp
      split at h
      · obtain ⟨a, b, c⟩ := moveEnemySmartly_marker g hg i enemy rnd g1 rnd1 hi hne hm h
        exact ⟨a, by rw [b], by rw [b], c⟩
      · split at h
        · simp only [Option.some.injEq] at h
          obtain ⟨a, b, c⟩ := moveEnemyRandomly_marker g hg i enemy rnd.tail hi hne hm
          rw [h] at a b c
          exact ⟨a, by rw [b], by rw [b], c⟩
        · simp only [Option.some.injEq, Prod.mk.injEq] at h
          rw [← h.1]; exact ⟨hg, rfl, rfl, hm⟩

theorem moveEnemiesFrom_marker (is : List Nat) :
    ∀ (g : Game) (rnd : List Nat) (g1 : Game) (rnd1 : List Nat), g.WF →
      get2 g.map g.player.x g.player.y = some TileType.PLAYER →
      Game.moveEnemiesFrom is g rnd = some (g1, rnd1) →
      g1.WF ∧ g1.player.x = g.player.x ∧ g1.player.y = g.player.y ∧
      get2 g1.map g.player.x g.player.y = some TileType.PLAYER := by
  induction is with
  | nil =>
    intro g rnd g1 rnd1 hg hm h
    simp only [Game.moveEnemiesFrom, Option.some.injEq, Prod.mk.injEq] at h
    rw [← h.1]; exact ⟨hg, rfl, rfl, hm⟩
  | cons i rest ih =>
    intro g rnd g1 rnd1 hg hm h
    unfold Game.moveEnemiesFrom at h
    cases ht : g.enemyTurn i rnd with
    | none => rw [ht] at h; cases h
    | some r =>
      rw [ht] at h
      simp only at h
      obtain ⟨a1, a2, a3, a4⟩ := enemyTurn_marker g hg i rnd r.1 r.2 hm ht
      obtain ⟨b1, b2, b3, b4⟩ := ih r.1 r.2 g1 rnd1 a1 (by rw [a2, a3]; exact a4) h
      rw [a2, a3] at b4
      exact ⟨b1, b2.trans a2, b3.trans a3, b4⟩

/-- Every call of `handleInput` keeps the map rectangular and the player on a
cell that holds Floor or PlayerMarker. -/
theorem handleInput_on_floor (g : Game) (key : String) (rnd : List Nat) (g1 : Game)
    (rnd1 : List Nat) (h : g.handleInput key rnd = some (g1, rnd1)) (hg : g.WF)
    (hp : get2 g.map g.player.x g.player.y = some TileType.FLOOR ∨
      get2 g.map g.player.x g.player.y = some TileType.PLAYER) :
    g1.WF ∧ (get2 g1.map g1.player.x g1.player.y = some TileType.FLOOR ∨
      get2 g1.map g1.player.x g1.player.y = some TileType.PLAYER) := by
  unfold Game.handleInput at h
  split at h
  · simp only [Option.some.injEq, Prod.mk.injEq] at h
    rw [← h.1]; exact ⟨hg, hp⟩
  · split at h
    · simp only [Option.some.injEq, Prod.mk.injEq] at h
      obtain ⟨a1, -, -, -, -, a6⟩ := attack_frame g
      have hother := (attackFold_other g.player.x g.player.y attackOffsets g (by
        intro d hd
        have : d ≠ ⟨0, 0⟩ := by
          intro h0; rw [h0] at hd; revert hd; decide
        intro hh
        apply this
        cases d
        simp only [Dir.mk.injEq]
        simp only at hh
        omega)).2
      rw [← h.1, a1]
      refine ⟨a6 hg, ?_⟩
      have e : get2 g.attack.map g.player.x g.player.y = get2 g.map g.player.x g.player.y := hother
      rw [e]; exact hp
    · split at h
      · simp only [Option.some.injEq, Prod.mk.injEq] at h
        rw [← h.1]; exact ⟨hg, hp⟩
      · rename_i newX newY _
        split at h
        · rename_i hcan
          have hin : 0 ≤ newX ∧ newX < (g.mapWidth : Int) ∧ 0 ≤ newY ∧ newY < (g.mapHeight : Int) := by
            unfold Game.canMoveTo at hcan
            split at hcan
            · cases hcan
            · omega
          obtain ⟨c1, -, c3, c4, -⟩ := checkItems_frame g newX newY
          have hwf1 : ((g.checkItems newX newY).movePlayer newX newY).WF := by
            unfold Game.movePlayer Game.WF
            simp only
            rw [c1, c3, c4]
            exact Rect_set2 (Rect_set2 hg _ _ _) _ _ _
          have hm1 : get2 ((g.checkItems newX newY).movePlayer newX newY).map
              ((g.checkItems newX newY).movePlayer newX newY).player.x
              ((g.checkItems newX newY).movePlayer newX newY).player.y
                = some TileType.PLAYER := by
            unfold Game.movePlayer
            simp only
            rw [c1]
            exact get2_set2_same (Rect_set2 hg _ _ _) hin _
          obtain ⟨b1, b2, b3, b4⟩ := moveEnemiesFrom_marker _ _ rnd g1 rnd1 hwf1 hm1 h
          refine ⟨b1, Or.inr ?_⟩
          rw [b2, b3]; exact b4
        · simp only [Option.some.injEq, Prod.mk.injEq] at h
          rw [← h.1]; exact ⟨hg, hp⟩

/-- In every state reached from a fresh game on a map of at least 3 by 3 cells
the map is rectangular and the player stands on Floor or PlayerMarker. -/
theorem reachable_on_floor (g0 : Game) (h0 : g0.Fresh) (hw : 3 ≤ g0.mapWidth)
    (hh : 3 ≤ g0.mapHeight) (g : Game) (h : Game.Reachable g0 g) :
    g.WF ∧ (get2 g.map g.player.x g.player.y = some TileType.FLOOR ∨
      get2 g.map g.player.x g.player.y = some TileType.PLAYER) := by
  induction h with
  | start =>
    obtain ⟨a, b⟩ := fresh_on_floor g0 h0 hw hh
    exact ⟨a, Or.inl b⟩
  | input g g1 key rnd rnd1 _ hstep ih =>
    exact handleInput_on_floor g key rnd g1 rnd1 hstep ih.1 ih.2

/-! ## The frame of `attack` -/

/-- A write into an array puts the value at its index, or (outside the array)
changes nothing. -/
theorem get2_set2_self_or {α : Type} (m : List (List α)) (x y : Int) (v : α) :
    get2 (set2 m x y v) x y = some v ∨ get2 (set2 m x y v) x y = get2 m x y := by
  unfold set2
  split
  · rename_i hxy
    split
    · rename_i row hrow
      obtain ⟨hy1, hy2⟩ := List.getElem?_eq_some.mp hrow
      unfold get2
      rw [if_pos hxy, if_pos hxy, List.getElem?_set_self hy1, hrow]
      simp only [Option.some_bind]
      by_cases hx : x.toNat < row.length
      · left; exact List.getElem?_set_self hx
      · right
        rw [List.set_eq_of_length_le (by omega)]
    · right; rfl
  · right; rfl

/-- The effect of one hit on the enemies of the cell `(x, y)`, told by the
enemies standing there. -/
theorem hitFirst_target (a x y : Int) :
    ∀ es : List Enemy,
      (es.filter (Enemy.isAt x y) = [] → hitFirst a x y es = (es, false)) ∧
      (∀ e rest, es.filter (Enemy.isAt x y) = e :: rest → ¬ e.health - a ≤ 0 →
        (hitFirst a x y es).1.filter (Enemy.isAt x y) =
          { e with health := e.health - a } :: rest ∧ (hitFirst a x y es).2 = false) := by
  intro es
  induction es with
  | nil =>
    refine ⟨fun _ => rfl, ?_⟩
    intro e rest h
    simp at h
  | cons b bs ih =>
    by_cases hb : b.x = x ∧ b.y = y
    · have h1 : Enemy.isAt x y b = true := by
        unfold Enemy.isAt; exact decide_eq_true hb
      constructor
      · intro h
        rw [List.filter_cons, if_pos h1] at h
        cases h
      · intro e rest h hd
        rw [List.filter_cons, if_pos h1] at h
        obtain ⟨rfl, h2⟩ := List.cons.inj h
        unfold hitFirst
        rw [if_pos hb, if_neg hd]
        have h3 : Enemy.isAt x y { b with health := b.health - a } = true := h1
        simp only [List.filter_cons, h3, if_true, h2, and_self]
    · have h1 : Enemy.isAt x y b = false := by
        unfold Enemy.isAt; exact decide_eq_false hb
      constructor
      · intro h
        rw [List.filter_cons, h1] at h
        simp only [Bool.false_eq_true, if_false] at h
        unfold hitFirst
        rw [if_neg hb, ih.1 h]
      · intro e rest h hd
        rw [List.filter_cons, h1] at h
        simp only [Bool.false_eq_true, if_false] at h
        obtain ⟨h2, h3⟩ := ih.2 e rest h hd
        unfold hitFirst
        rw [if_neg hb]
        simp only [List.filter_cons, h1, Bool.false_eq_true, if_false, h2, h3, and_self]

/-- The effect of the pass of `attack` for the cell `(x, y)` on that cell. -/
theorem attackCell_target (g : Game) (x y : Int) :
    (g.enemies.filter (Enemy.isAt x y) = [] →
      (g.attackCell x y).enemies.filter (Enemy.isAt x y) = [] ∧
      get2 (g.attackCell x y).map x y = get2 g.map x y) ∧
    (∀ e rest, g.enemies.filter (Enemy.isAt x y) = e :: rest →
      (g.player.attackPower < e.health →
        (g.attackCell x y).enemies.filter (Enemy.isAt x y) =
          { e with health := e.health - g.player.attackPower } :: rest ∧
        get2 (g.attackCell x y).map x y = get2 g.map x y) ∧
      (e.health ≤ g.player.attackPower →
        (g.attackCell x y).enemies.filter (Enemy.isAt x y) = rest ∧
        (get2 (g.attackCell x y).map x y = some TileType.FLOOR ∨
          get2 (g.attackCell x y).map x y = get2 g.map x y) ∧
        (g.WF → g.InMap ⟨x, y⟩ → get2 (g.attackCell x y).map x y = some TileType.FLOOR))) := by
  obtain ⟨t1, t2⟩ := hitFirst_target g.player.attackPower x y g.enemies
  refine ⟨?_, ?_⟩
  · intro h
    unfold Game.attackCell
    simp only [t1 h, Bool.false_eq_true, if_false]
    exact ⟨h, trivial⟩
  · intro e rest h
    constructor
    · intro hh
      obtain ⟨a, b⟩ := t2 e rest h (by omega)
      unfold Game.attackCell
      simp only [b, Bool.false_eq_true, if_false]
      exact ⟨a, trivial⟩
    · intro hh
      obtain ⟨a, b⟩ := hitFirst_filter_same g.player.attackPower x y e rest (by omega)
        g.enemies h
      unfold Game.attackCell
      simp only [b, if_true]
      exact ⟨a, get2_set2_self_or _ _ _ _, fun hg hin => get2_set2_same hg hin _⟩

/-- The whole of `attack` acts on a neighbouring cell as the single pass for
that cell acts on a state with the same enemies on the cell, the same tile
there and the same player. -/
theorem attack_at (g : Game) (d : Dir) (hd : d ∈ attackOffsets) :
    ∃ g2 : Game, g2.player = g.player ∧ (g.WF → g2.WF) ∧ g2.mapWidth = g.mapWidth ∧
      g2.mapHeight = g.mapHeight ∧
      g2.enemies.filter (Enemy.isAt (g.player.x + d.dx) (g.player.y + d.dy)) =
        g.enemies.filter (Enemy.isAt (g.player.x + d.dx) (g.player.y + d.dy)) ∧
      get2 g2.map (g.player.x + d.dx) (g.player.y + d.dy) =
        get2 g.map (g.player.x + d.dx) (g.player.y + d.dy) ∧
      g.attack.enemies.filter (Enemy.isAt (g.player.x + d.dx) (g.player.y + d.dy)) =
        (g2.attackCell (g.player.x + d.dx) (g.player.y + d.dy)).enemies.filter
          (Enemy.isAt (g.player.x + d.dx) (g.player.y + d.dy)) ∧
      get2 g.attack.map (g.player.x + d.dx) (g.player.y + d.dy) =
        get2 (g2.attackCell (g.player.x + d.dx) (g.player.y + d.dy)).map
          (g.player.x + d.dx) (g.player.y + d.dy) := by
  have hnd : attackOffsets.Nodup := by decide
  obtain ⟨pre, post, hsplit⟩ := List.append_of_mem hd
  rw [hsplit] at hnd
  have hpre : d ∉ pre := fun h =>
    (List.nodup_append.mp hnd).2.2 h (List.mem_cons_self _ _)
  have hpost : d ∉ post := (List.nodup_cons.mp (List.nodup_append.mp hnd).2.1).1
  have hoff : ∀ (p : Player) (l : List Dir), d ∉ l → ∀ d1 ∈ l,
      ¬ (p.x + d.dx = p.x + d1.dx ∧ p.y + d.dy = p.y + d1.dy) := by
    intro p l hl d1 hd1 h
    apply hl
    have : d = d1 := by
      cases d; cases d1
      simp only [Dir.mk.injEq]
      simp only at h
      omega
    rw [this]; exact hd1
  unfold Game.attack
  rw [hsplit, List.foldl_append, List.foldl_cons]
  have f1 := attackFold_frame pre g
  obtain ⟨a1, a2⟩ := attackFold_other (g.player.x + d.dx) (g.player.y + d.dy) pre g
    (hoff g.player pre hpre)
  generalize pre.foldl (fun g1 d => g1.attackCell (g1.player.x + d.dx) (g1.player.y + d.dy)) g
    = g2 at f1 a1 a2 ⊢
  obtain ⟨p1, -, p3, p4, -, p6⟩ := f1
  rw [p1]
  have p5 := (attackCell_frame g2 (g.player.x + d.dx) (g.player.y + d.dy)).1
  obtain ⟨c1, c2⟩ := attackFold_other (g.player.x + d.dx) (g.player.y + d.dy) post
    (g2.attackCell (g.player.x + d.dx) (g.player.y + d.dy))
    (by rw [p5, p1]; exact hoff g.player post hpost)
  exact ⟨g2, p1, p6, p3, p4, a1, a2, c1, c2⟩

/-- The effect of `attack` on a cell next to the player, told by the enemies
standing there: nothing without an enemy; otherwise the first enemy loses
`attackPower`, and is removed, its cell set to Floor, when that leaves no
health. -/
theorem attack_target (g : Game) (d : Dir) (hd : d ∈ attackOffsets) :
    (g.enemies.filter (Enemy.isAt (g.player.x + d.dx) (g.player.y + d.dy)) = [] →
      g.attack.enemies.filter (Enemy.isAt (g.player.x + d.dx) (g.player.y + d.dy)) = [] ∧
      get2 g.attack.map (g.player.x + d.dx) (g.player.y + d.dy) =
        get2 g.map (g.player.x + d.dx) (g.player.y + d.dy)) ∧
    (∀ e rest,
      g.enemies.filter (Enemy.isAt (g.player.x + d.dx) (g.player.y + d.dy)) = e :: rest →
      (g.player.attackPower < e.health →
        g.attack.enemies.filter (Enemy.isAt (g.player.x + d.dx) (g.player.y + d.dy)) =
          { e with health := e.health - g.player.attackPower } :: rest ∧
        get2 g.attack.map (g.player.x + d.dx) (g.player.y + d.dy) =
          get2 g.map (g.player.x + d.dx) (g.player.y + d.dy)) ∧
      (e.health ≤ g.player.attackPower →
        g.attack.enemies.filter (Enemy.isAt (g.player.x + d.dx) (g.player.y + d.dy)) = rest ∧
        (get2 g.attack.map (g.player.x + d.dx) (g.player.y + d.dy) = some TileType.FLOOR ∨
          get2 g.attack.map (g.player.x + d.dx) (g.player.y + d.dy) =
            get2 g.map (g.player.x + d.dx) (g.player.y + d.dy)) ∧
        (g.WF → g.InMap ⟨g.player.x + d.dx, g.player.y + d.dy⟩ →
          get2 g.attack.map (g.player.x + d.dx) (g.player.y + d.dy)
            = some TileType.FLOOR))) := by
  obtain ⟨g2, q1, q2, q3, q4, q5, q6, q7, q8⟩ := attack_at g d hd
  obtain ⟨t1, t2⟩ := attackCell_target g2 (g.player.x + d.dx) (g.player.y + d.dy)
  rw [q5, q6] at t1
  rw [q5, q6, q1] at t2
  rw [q7, q8]
  refine ⟨t1, ?_⟩
  intro e rest h
  obtain ⟨u1, u2⟩ := t2 e rest h
  refine ⟨u1, ?_⟩
  intro hh
  obtain ⟨v1, v2, v3⟩ := u2 hh
  refine ⟨v1, v2, ?_⟩
  intro hg hin
  exact v3 (q2 hg) (by unfold Game.InMap at hin ⊢; rw [q3, q4]; exact hin)

/-- The cells that are not next to the player are out of reach of `attack`. -/
theorem attack_elsewhere (g : Game) (x y : Int)
    (hfar : ∀ d ∈ attackOffsets, ¬ (x = g.player.x + d.dx ∧ y = g.player.y + d.dy)) :
    g.attack.enemies.filter (Enemy.isAt x y) = g.enemies.filter (Enemy.isAt x y) ∧
    get2 g.attack.map x y = get2 g.map x y :=
  attackFold_other x y attackOffsets g hfar

/-! ## `checkConnectivity` and `findIsolatedAreas` agree -/

/-- A walk over Floor cells never leaves the area it starts in. -/
theorem component_closed {g : Game} {areas : List Area} (comp : IsComponents g areas) (i : Nat)
    (hi : i < areas.length) {a b : Cell} (ha : a ∈ (areas[i]).cells)
    (hr : Relation.ReflTransGen g.FloorAdj a b) : b ∈ (areas[i]).cells := by
  induction hr with
  | refl => exact ha
  | tail _ hcd ih =>
    rename_i c d _
    obtain ⟨hadj, -, hd⟩ := hcd
    obtain ⟨D, hD, hdD⟩ := (comp.cover d).mp hd
    obtain ⟨j, hj, rfl⟩ := List.getElem_of_mem hD
    have hpw := List.pairwise_iff_getElem.mp comp.apart
    rcases Nat.lt_trichotomy i j with h | h | h
    · exact absurd hadj (hpw i j hi hj h c ih d hdD)
    · subst h; exact hdD
    · exact absurd hadj.symm (hpw j i hj hi h d hdD c ih)

/-- When every Floor cell is joined to one Floor cell there is exactly one
area. -/
theorem areas_single {g : Game} {areas : List Area} (comp : IsComponents g areas) (s : Cell)
    (hs : g.IsFloor s) (hall : ∀ c, g.IsFloor c → Relation.ReflTransGen g.FloorAdj s c) :
    areas.length = 1 := by
  obtain ⟨A, hA, hsA⟩ := (comp.cover s).mp hs
  obtain ⟨i, hi, rfl⟩ := List.getElem_of_mem hA
  have hdis := List.pairwise_iff_getElem.mp (List.nodup_flatMap.mp comp.nodup).2
  have hone : ∀ j (hj : j < areas.length), j = i := by
    intro j hj
    have hne := comp.nonempty (areas[j]) (List.getElem_mem hj)
    obtain ⟨b, hb⟩ := List.exists_mem_of_ne_nil _ hne
    have hbfl : g.IsFloor b := (comp.cover b).mpr ⟨areas[j], List.getElem_mem hj, hb⟩
    have hbi : b ∈ (areas[i]).cells := component_closed comp i hi hsA (hall b hbfl)
    rcases Nat.lt_trichotomy i j with h | h | h
    · exact absurd hb (List.disjoint_left.mp (hdis i j hi hj h) hbi)
    · exact h.symm
    · exact absurd hbi (List.disjoint_left.mp (hdis j i hj hi h) hb)
  by_contra hlen
  have h2 : 2 ≤ areas.length := by omega
  have e0 := hone 0 (by omega)
  have e1 := hone 1 (by omega)
  omega

/-- The two analyses of a rectangular map agree, and `ensureConnectivity`
returns at once when there is at most one area. -/
theorem connectivity_areas {g : Game} (hg : g.WF) :
    ∃ areas, g.findIsolatedAreas = some areas ∧
      (g.checkConnectivity = some true ↔ areas.length = 1) ∧
      ((∀ c, ¬ g.IsFloor c) → areas = []) ∧
      (areas.length ≤ 1 → ∀ rnd, g.ensureConnectivity rnd = some (g, rnd)) := by
  obtain ⟨areas, hr, comp⟩ := findIsolatedAreas_spec hg
  refine ⟨areas, hr, ?_, ?_, ?_⟩
  · constructor
    · intro h
      obtain ⟨s, hs, hall⟩ := (checkConnectivity_true_iff hg).mp h
      exact areas_single comp s (firstFloor_some hg hs).1
        (fun c hc => ((floorConnected_iff g s c).mp (hall c hc)).2)
    · intro hlen
      obtain ⟨A, rfl⟩ := List.length_eq_one.mp hlen
      have hne := comp.nonempty A (List.mem_singleton_self A)
      obtain ⟨a0, ha0⟩ := List.exists_mem_of_ne_nil _ hne
      have hfl0 : g.IsFloor a0 := (comp.cover a0).mpr ⟨A, List.mem_singleton_self A, ha0⟩
      refine checkConnectivity_of_hub hg hfl0 ?_
      intro c hc
      obtain ⟨B, hB, hcB⟩ := (comp.cover c).mp hc
      rw [List.mem_singleton] at hB
      subst hB
      exact (floorConnected_iff g a0 c).mpr
        ⟨hfl0, comp.conn B (List.mem_singleton_self B) a0 ha0 c hcB⟩
  · intro hno
    cases areas with
    | nil => rfl
    | cons A rest =>
      have hne := comp.nonempty A (List.mem_cons_self _ _)
      obtain ⟨a0, ha0⟩ := List.exists_mem_of_ne_nil _ hne
      exact absurd ((comp.cover a0).mpr ⟨A, List.mem_cons_self _ _, ha0⟩) (hno a0)
  · intro hlen rnd
    unfold Game.ensureConnectivity
    rw [hr]
    simp only
    rw [if_pos hlen]

/-! ## The claims -/

/-- C1: on every rectangular grid with at least one Floor cell, and for every
outcome of the random draws, `ensureConnectivity` returns and afterwards
`checkConnectivity` answers true (any two Floor cells are joined by a walk of
4-adjacent Floor cells); and on a map of at least 3 by 3 cells `generateMap`
returns a game whose map `checkConnectivity` accepts. -/
theorem ensureConnectivity_connects (g : Game) (rnd : List Nat) :
    (g.WF → (∃ c, g.IsFloor c) →
      ∃ g1 rnd1, g.ensureConnectivity rnd = some (g1, rnd1) ∧
        g1.checkConnectivity = some true ∧
        ∀ a b, g1.IsFloor a → g1.IsFloor b → g1.FloorConnected a b) ∧
    (3 ≤ g.mapWidth → 3 ≤ g.mapHeight →
      ∃ g1 rnd1, g.generateMap rnd = some (g1, rnd1) ∧ g1.checkConnectivity = some true) := by
  constructor
  · intro hg hex
    obtain ⟨g1, rnd1, h1, h2, -, -, -, m0, h6, h7⟩ := ensureConnectivity_spec hg rnd hex
    refine ⟨g1, rnd1, h1, ?_, all_connected_of_hub h7⟩
    exact checkConnectivity_of_hub h2 h6 (fun c hc => (floorConnected_iff g1 m0 c).mpr ⟨h6, h7 c hc⟩)
  · intro hw hh
    obtain ⟨g1, rnd1, h1, -, -, -, h5⟩ := generateMap_spec g rnd hw hh
    exact ⟨g1, rnd1, h1, h5⟩

theorem ensureConnectivity_connects_witness :
    (∃ g1 rnd1, sampleGrid.ensureConnectivity [0, 1, 2, 3] = some (g1, rnd1) ∧
        g1.checkConnectivity = some true ∧
        ∀ a b, g1.IsFloor a → g1.IsFloor b → g1.FloorConnected a b) ∧
    (∃ g1 rnd1, Game.new.generateMap [3, 1, 4, 1, 5, 9, 2, 6] = some (g1, rnd1) ∧
        g1.checkConnectivity = some true) :=
  ⟨(ensureConnectivity_connects sampleGrid [0, 1, 2, 3]).1 (by decide) ⟨⟨0, 0⟩, by decide⟩,
   (ensureConnectivity_connects Game.new [3, 1, 4, 1, 5, 9, 2, 6]).2 (by decide) (by decide)⟩

/-- C2: on a rectangular grid `checkConnectivity` always answers, and it
answers true exactly when there is a Floor cell and every Floor cell is joined
to the first Floor cell of the row-major order by a walk of 4-adjacent Floor
cells; without any Floor cell it answers false. -/
theorem checkConnectivity_correct (g : Game) (hg : g.WF) :
    (g.checkConnectivity = some true ↔
      ∃ s, g.IsFloor s ∧ (∀ c, g.IsFloor c → RowMajorLe s c) ∧
        ∀ c, g.IsFloor c → g.FloorConnected s c) ∧
    (g.checkConnectivity = some true ∨ g.checkConnectivity = some false) ∧
    ((∀ c, ¬ g.IsFloor c) → g.checkConnectivity = some false) := by
  refine ⟨⟨?_, ?_⟩, checkConnectivity_total hg, ?_⟩
  · intro h
    obtain ⟨s, hs, hall⟩ := (checkConnectivity_true_iff hg).mp h
    exact ⟨s, (firstFloor_some hg hs).1, (firstFloor_some hg hs).2, hall⟩
  · rintro ⟨s, hs, -, hall⟩
    exact checkConnectivity_of_hub hg hs hall
  · intro hnone
    rcases checkConnectivity_total hg with h | h
    · obtain ⟨s, hs, -⟩ := (checkConnectivity_true_iff hg).mp h
      exact absurd (firstFloor_some hg hs).1 (hnone s)
    · exact h

theorem checkConnectivity_correct_witness :
    (sampleGrid.checkConnectivity = some true ↔
      ∃ s, sampleGrid.IsFloor s ∧ (∀ c, sampleGrid.IsFloor c → RowMajorLe s c) ∧
        ∀ c, sampleGrid.IsFloor c → sampleGrid.FloorConnected s c) ∧
    (sampleGrid.checkConnectivity = some true ∨ sampleGrid.checkConnectivity = some false) ∧
    ((∀ c, ¬ sampleGrid.IsFloor c) → sampleGrid.checkConnectivity = some false) :=
  checkConnectivity_correct sampleGrid (by decide)

/-- C3: on a rectangular grid `findIsolatedAreas` returns areas such that every
Floor cell occurs exactly once in all the areas taken together, every cell of
an area is a Floor cell, any two cells of one area are joined by a walk of
4-adjacent Floor cells, no cell of one area is 4-adjacent to a cell of an area
at another index, and no area is empty. -/
theorem findIsolatedAreas_partition (g : Game) (hg : g.WF) :
    ∃ areas, g.findIsolatedAreas = some areas ∧
      (∀ c, g.IsFloor c → (areas.map (fun A => A.cells.count c)).sum = 1) ∧
      (∀ A ∈ areas, ∀ c ∈ A.cells, g.IsFloor c) ∧
      (∀ A ∈ areas, ∀ a ∈ A.cells, ∀ b ∈ A.cells, g.FloorConnected a b) ∧
      (∀ (i j : Nat) (A B : Area), i ≠ j → areas[i]? = some A → areas[j]? = some B →
        ∀ a ∈ A.cells, ∀ b ∈ B.cells, ¬ Adj4 a b) ∧
      (∀ A ∈ areas, A.cells ≠ []) := by
  obtain ⟨areas, hr, comp⟩ := findIsolatedAreas_spec hg
  have hfl : ∀ A ∈ areas, ∀ c ∈ A.cells, g.IsFloor c :=
    fun A hA c hc => (comp.cover c).mpr ⟨A, hA, hc⟩
  refine ⟨areas, hr, ?_, hfl, ?_, ?_, comp.nonempty⟩
  · intro c hc
    obtain ⟨A, hA, hcA⟩ := (comp.cover c).mp hc
    have h1 : (areas.flatMap Area.cells).count c = 1 :=
      List.count_eq_one_of_mem comp.nodup (List.mem_flatMap.mpr ⟨A, hA, hcA⟩)
    rw [List.flatMap, List.count_flatten, List.map_map] at h1
    exact h1
  · intro A hA a ha b hb
    exact (floorConnected_iff g a b).mpr ⟨hfl A hA a ha, comp.conn A hA a ha b hb⟩
  · intro i j A B hij hA hB a ha b hb hadj
    have hpw := List.pairwise_iff_getElem.mp comp.apart
    obtain ⟨hi, hiA⟩ := List.getElem?_eq_some.mp hA
    obtain ⟨hj, hjB⟩ := List.getElem?_eq_some.mp hB
    rcases Nat.lt_or_gt_of_ne hij with h | h
    · exact hpw i j hi hj h a (hiA ▸ ha) b (hjB ▸ hb) hadj
    · exact hpw j i hj hi h b (hjB ▸ hb) a (hiA ▸ ha) hadj.symm

theorem findIsolatedAreas_partition_witness :
    ∃ areas, sampleGrid.findIsolatedAreas = some areas ∧
      (∀ c, sampleGrid.IsFloor c → (areas.map (fun A => A.cells.count c)).sum = 1) ∧
      (∀ A ∈ areas, ∀ c ∈ A.cells, sampleGrid.IsFloor c) ∧
      (∀ A ∈ areas, ∀ a ∈ A.cells, ∀ b ∈ A.cells, sampleGrid.FloorConnected a b) ∧
      (∀ (i j : Nat) (A B : Area), i ≠ j → areas[i]? = some A → areas[j]? = some B →
        ∀ a ∈ A.cells, ∀ b ∈ B.cells, ¬ Adj4 a b) ∧
      (∀ A ∈ areas, A.cells ≠ []) :=
  findIsolatedAreas_partition sampleGrid (by decide)

/-- C4: for a start and a target inside the map, a path returned by `findPath`
is not empty, starts at the start, ends at the target, moves by one
4-directional step at a time, and every cell after the first lies inside the
map and is neither Wall nor EnemyMarker. -/
theorem findPath_path_valid (g : Game) (s t : Cell) (path : List Cell) (hs : g.InMap s)
    (_ht : g.InMap t) (h : g.findPath s.x s.y t.x t.y = some (some path)) :
    path ≠ [] ∧ path.head? = some s ∧ path.getLast? = some t ∧ path.Chain' Adj4 ∧
    ∀ c ∈ path.tail, g.InMap c ∧ get2 g.map c.x c.y ≠ some TileType.WALL ∧
      get2 g.map c.x c.y ≠ some TileType.ENEMY := by
  by_cases hw : get2 g.map t.x t.y = some TileType.WALL
  · have := (findPath_spec s t hs).1 (by simpa [Game.tileIs] using hw)
    rw [this] at h
    cases h
  · obtain ⟨r, hr, hspec⟩ := findPath_cases s t hs hw
    rw [hr] at h
    simp only [Option.some.injEq] at h
    subst h
    obtain ⟨⟨h1, h2, h3, h4⟩, -⟩ := hspec
    refine ⟨?_, h1, h2, h3, h4⟩
    intro hnil
    rw [hnil] at h1
    simp at h1

theorem findPath_path_valid_witness :
    ([⟨0, 0⟩, ⟨1, 0⟩, ⟨2, 0⟩, ⟨3, 0⟩, ⟨4, 0⟩, ⟨4, 1⟩, ⟨4, 2⟩, ⟨4, 3⟩, ⟨4, 4⟩] : List Cell) ≠ [] ∧
    ([⟨0, 0⟩, ⟨1, 0⟩, ⟨2, 0⟩, ⟨3, 0⟩, ⟨4, 0⟩, ⟨4, 1⟩, ⟨4, 2⟩, ⟨4, 3⟩, ⟨4, 4⟩] : List Cell).head?
      = some ⟨0, 0⟩ ∧
    ([⟨0, 0⟩, ⟨1, 0⟩, ⟨2, 0⟩, ⟨3, 0⟩, ⟨4, 0⟩, ⟨4, 1⟩, ⟨4, 2⟩, ⟨4, 3⟩, ⟨4, 4⟩] : List Cell).getLast?
      = some ⟨4, 4⟩ ∧
    ([⟨0, 0⟩, ⟨1, 0⟩, ⟨2, 0⟩, ⟨3, 0⟩, ⟨4, 0⟩, ⟨4, 1⟩, ⟨4, 2⟩, ⟨4, 3⟩, ⟨4, 4⟩] : List Cell).Chain'
      Adj4 ∧
    ∀ c ∈ ([⟨0, 0⟩, ⟨1, 0⟩, ⟨2, 0⟩, ⟨3, 0⟩, ⟨4, 0⟩, ⟨4, 1⟩, ⟨4, 2⟩, ⟨4, 3⟩, ⟨4, 4⟩] :
        List Cell).tail,
      markedRoom.InMap c ∧ get2 markedRoom.map c.x c.y ≠ some TileType.WALL ∧
        get2 markedRoom.map c.x c.y ≠ some TileType.ENEMY :=
  findPath_path_valid markedRoom ⟨0, 0⟩ ⟨4, 4⟩ _ (by decide) (by decide) (by decide)

/-- C5: for a start and a target inside the map, a path returned by `findPath`
has no more cells than any walk from the start to the target whose cells after
the first are inside the map and neither Wall nor EnemyMarker; and when every
cell of the map is such a cell, `findPath` returns a path of exactly Manhattan
distance plus one cells; in the 5 by 5 room without obstacles the path from
(0,0) to (4,4) has 9 cells, with or without the markers of the enemy and of the
player on those two cells. -/
theorem findPath_shortest (g : Game) (s t : Cell) (hs : g.InMap s) (ht : g.InMap t) :
    (∀ path, g.findPath s.x s.y t.x t.y = some (some path) →
      ∀ l, IsWalk g.Passable s t l → path.length ≤ l.length) ∧
    ((∀ c, g.InMap c → g.Passable c) →
      ∃ path, g.findPath s.x s.y t.x t.y = some (some path) ∧
        path.length = manhattan s t + 1) ∧
    (openRoom.findPath 0 0 4 4).map (Option.map List.length) = some (some 9) ∧
    (markedRoom.findPath 0 0 4 4).map (Option.map List.length) = some (some 9) := by
  refine ⟨?_, ?_, by decide, by decide⟩
  · intro path h l hl
    by_cases hw : get2 g.map t.x t.y = some TileType.WALL
    · have := (findPath_spec s t hs).1 (by simpa [Game.tileIs] using hw)
      rw [this] at h
      cases h
    · obtain ⟨r, hr, hspec⟩ := findPath_cases s t hs hw
      rw [hr] at h
      simp only [Option.some.injEq] at h
      subst h
      exact hspec.2 l hl
  · intro hopen
    obtain ⟨r, hr, hspec⟩ := findPath_cases s t hs (hopen t ht).2.1
    obtain ⟨l, hl, hlen⟩ := straight_walk g t ht (manhattan s t) s hs rfl
    have hl2 : IsWalk g.Passable s t l := isWalk_mono hopen hl
    cases r with
    | none => exact absurd ⟨l, hl2⟩ hspec
    | some path =>
      refine ⟨path, hr, le_antisymm ?_ ?_⟩
      · rw [← hlen]; exact hspec.2 l hl2
      · exact walk_length_ge path s t hspec.1.1 hspec.1.2.1 hspec.1.2.2.1

theorem findPath_shortest_witness :
    (∀ path, openRoom.findPath 0 0 4 4 = some (some path) →
      ∀ l, IsWalk openRoom.Passable ⟨0, 0⟩ ⟨4, 4⟩ l → path.length ≤ l.length) ∧
    (∃ path, openRoom.findPath 0 0 4 4 = some (some path) ∧ path.length = 9) :=
  ⟨(findPath_shortest openRoom ⟨0, 0⟩ ⟨4, 4⟩ (by decide) (by decide)).1,
   (findPath_shortest openRoom ⟨0, 0⟩ ⟨4, 4⟩ (by decide) (by decide)).2.1 openRoom_passable⟩

/-- C6: for a start and a target inside the map, `findPath` returns `null` when
the target cell is a Wall, and returns `null` when there is no walk from the
start to the target whose cells after the first are inside the map and neither
Wall nor EnemyMarker. -/
theorem findPath_null (g : Game) (s t : Cell) (hs : g.InMap s) (_ht : g.InMap t) :
    (get2 g.map t.x t.y = some TileType.WALL → g.findPath s.x s.y t.x t.y = some none) ∧
    ((¬ ∃ l, IsWalk g.Passable s t l) → g.findPath s.x s.y t.x t.y = some none) := by
  have hwall : get2 g.map t.x t.y = some TileType.WALL →
      g.findPath s.x s.y t.x t.y = some none :=
    fun hw => (findPath_spec s t hs).1 (by simpa [Game.tileIs] using hw)
  refine ⟨hwall, ?_⟩
  intro hno
  by_cases hw : get2 g.map t.x t.y = some TileType.WALL
  · exact hwall hw
  · obtain ⟨r, hr, hspec⟩ := findPath_cases s t hs hw
    cases r with
    | none => exact hr
    | some path => exact absurd ⟨path, hspec.1⟩ hno

theorem findPath_null_witness :
    sampleGrid.findPath 0 0 1 0 = some none ∧ sampleGrid.findPath 0 0 2 0 = some none :=
  ⟨(findPath_null sampleGrid ⟨0, 0⟩ ⟨1, 0⟩ (by decide) (by decide)).1 (by decide),
   (findPath_null sampleGrid ⟨0, 0⟩ ⟨2, 0⟩ (by decide) (by decide)).2
     (no_walk_of_walled_in (by decide) sampleGrid_corner_walled_in)⟩

/-- C7: for a start inside the map, whenever the search loop of `findPath`
reaches a state whose first queued cell is the target (where it calls
`buildPath` with its distance map), `buildPath` terminates and returns a path,
not `null`; hence `findPath` returns a path whenever the target is not a Wall
and some walk leads from the start to the target over cells that are inside
the map and neither Wall nor EnemyMarker. -/
theorem buildPath_never_null (g : Game) (s t : Cell) (hs : g.InMap s) (_ht : g.InMap t) :
    (∀ distMap queue, PathState g s t distMap (t :: queue) →
      ∃ path, g.buildPath distMap s.x s.y t.x t.y = some (some path)) ∧
    (get2 g.map t.x t.y ≠ some TileType.WALL → (∃ l, IsWalk g.Passable s t l) →
      ∃ path, g.findPath s.x s.y t.x t.y = some (some path)) := by
  constructor
  · intro dm q hst
    obtain ⟨pre, lo, inv, hcl⟩ := pathState_inv hs hst
    obtain ⟨p, hp, -⟩ := buildPath_spec inv hcl
    exact ⟨p, hp⟩
  · intro hw hwalk
    obtain ⟨r, hr, hspec⟩ := findPath_cases s t hs hw
    cases r with
    | none => exact absurd hwalk hspec
    | some path => exact ⟨path, hr⟩

theorem buildPath_never_null_witness :
    (∃ path, openRoom.buildPath searchAfterTwo.1 0 0 1 0 = some (some path)) ∧
    (∃ path, openRoom.findPath 0 0 1 0 = some (some path)) := by
  have h0 : PathState openRoom ⟨0, 0⟩ ⟨1, 0⟩ (set2 (fill2 5 5 (-1)) 0 0 0) [⟨0, 0⟩] :=
    PathState.init
  have h1 : PathState openRoom ⟨0, 0⟩ ⟨1, 0⟩ searchAfterOne.1 [⟨0, 1⟩, ⟨1, 0⟩] :=
    PathState.pass (set2 (fill2 5 5 (-1)) 0 0 0) ⟨0, 0⟩ [] h0 (by decide)
  have h2 : PathState openRoom ⟨0, 0⟩ ⟨1, 0⟩ searchAfterTwo.1 [⟨1, 0⟩, ⟨0, 2⟩, ⟨1, 1⟩] :=
    PathState.pass searchAfterOne.1 ⟨0, 1⟩ [⟨1, 0⟩] h1 (by decide)
  exact ⟨(buildPath_never_null openRoom ⟨0, 0⟩ ⟨1, 0⟩ (by decide) (by decide)).1
      searchAfterTwo.1 [⟨0, 2⟩, ⟨1, 1⟩] h2,
    (buildPath_never_null openRoom ⟨0, 0⟩ ⟨1, 0⟩ (by decide) (by decide)).2 (by decide)
      ⟨[⟨0, 0⟩, ⟨1, 0⟩], rfl, rfl,
        List.chain'_cons.mpr ⟨by decide, List.chain'_singleton _⟩, by decide⟩⟩

/-- C8: for every cell `a` inside the map that is not a Wall, `findPath` from
`a` to `a` returns the single-cell path `[a]`. -/
theorem findPath_self (g : Game) (a : Cell) (_ha : g.InMap a)
    (hw : get2 g.map a.x a.y ≠ some TileType.WALL) :
    g.findPath a.x a.y a.x a.y = some (some [a]) := by
  unfold Game.findPath
  rw [if_neg (by simp [tileIs_false_of_ne hw])]
  simp [Game.pathLoop, Game.buildPath, Game.buildLoop]

theorem findPath_self_witness : markedRoom.findPath 0 0 0 0 = some (some [⟨0, 0⟩]) :=
  findPath_self markedRoom ⟨0, 0⟩ (by decide) (by decide)

/-- C9 (as stated, refuted): in the 5 by 5 room without obstacles, with the
enemy at (0,0) and the player at (4,4), one pursuit step moves the enemy to
(1,0), whose Chebyshev distance to (4,4) is 4, not smaller than the Chebyshev
distance 4 from (0,0). -/
theorem moveEnemySmartly_chebyshev_counterexample :
    (markedRoom.moveEnemySmartly 0 []).map (fun r => r.1.enemies) = some [⟨1, 0, 30, 30⟩] ∧
    (openRoom.moveEnemySmartly 0 []).map (fun r => r.1.enemies) = some [⟨1, 0, 30, 30⟩] ∧
    ¬ (chebyshev ⟨1, 0⟩ ⟨4, 4⟩ < chebyshev ⟨0, 0⟩ ⟨4, 4⟩) := by
  decide

/-- C9 (amended): in the 5 by 5 room without obstacles, with the enemy at (0,0)
and the player at (4,4), whatever the random draws, one pursuit step moves the
enemy to (1,0), which is 4-adjacent to (0,0) and strictly closer to (4,4) in
Manhattan distance (7 against 8), while the Chebyshev distance stays 4. -/
theorem moveEnemySmartly_pursuit_step (rnd : List Nat) :
    (markedRoom.moveEnemySmartly 0 rnd).map (fun r => r.1.enemies) = some [⟨1, 0, 30, 30⟩] ∧
    (openRoom.moveEnemySmartly 0 rnd).map (fun r => r.1.enemies) = some [⟨1, 0, 30, 30⟩] ∧
    Adj4 ⟨1, 0⟩ ⟨0, 0⟩ ∧
    manhattan ⟨1, 0⟩ ⟨4, 4⟩ < manhattan ⟨0, 0⟩ ⟨4, 4⟩ ∧
    chebyshev ⟨1, 0⟩ ⟨4, 4⟩ = chebyshev ⟨0, 0⟩ ⟨4, 4⟩ :=
  ⟨rfl, rfl, by decide, by decide, by decide⟩

/-- C10: the rooms that `generateRooms` places on the all-Wall map of
`createEmptyMap` keep a gap, whatever the random draws: for two rooms at
different indices of the returned list, no cell of the footprint of the one
lies in the footprint of the other enlarged by a margin of one cell on every
side. -/
theorem generateRooms_gap (g : Game) (rnd : List Nat) (i j : Nat) (r1 r2 : Room) (c : Cell)
    (hij : i ≠ j) (h1 : (g.createEmptyMap.generateRooms rnd).2.1[i]? = some r1)
    (h2 : (g.createEmptyMap.generateRooms rnd).2.1[j]? = some r2) (hc : r1.Covers c) :
    ¬ r2.CoversWithMargin c := by
  obtain ⟨e1, e2, -, -⟩ := createEmptyMap_spec g
  obtain ⟨inv, -, -⟩ := generateRooms_spec e1 e2 rnd
  have hpw := List.pairwise_iff_getElem.mp inv.apart
  obtain ⟨hi, hi1⟩ := List.getElem?_eq_some.mp h1
  obtain ⟨hj, hj2⟩ := List.getElem?_eq_some.mp h2
  rcases Nat.lt_or_gt_of_ne hij with h | h
  · have := (hpw i j hi hj h c).1
    rw [hi1, hj2] at this
    exact this hc
  · have := (hpw j i hj hi h c).2
    rw [hi1, hj2] at this
    exact this hc

set_option maxRecDepth 100000 in
theorem generateRooms_gap_witness :
    ¬ (⟨5, 1, 3, 3⟩ : Room).CoversWithMargin ⟨3, 3⟩ :=
  generateRooms_gap wideGame wideDraws 0 1 ⟨1, 1, 3, 3⟩ ⟨5, 1, 3, 3⟩ ⟨3, 3⟩ (by decide)
    (by decide) (by decide) (by decide)

/-- C11 (as stated, refuted): on the 24 by 5 map, with the draws `wideDraws`,
`generateRooms` places the rooms (1,1,3,3) and (5,1,3,3) first; the cell (4,1)
lies between them, in the margin of both, so the two footprints enlarged by
their margins do share a cell. -/
theorem generateRooms_margins_overlap_counterexample :
    (wideGame.createEmptyMap.generateRooms wideDraws).2.1[0]? = some ⟨1, 1, 3, 3⟩ ∧
    (wideGame.createEmptyMap.generateRooms wideDraws).2.1[1]? = some ⟨5, 1, 3, 3⟩ ∧
    (⟨1, 1, 3, 3⟩ : Room).CoversWithMargin ⟨4, 1⟩ ∧
    (⟨5, 1, 3, 3⟩ : Room).CoversWithMargin ⟨4, 1⟩ := by
  rw [wideGame_rooms]
  exact ⟨rfl, rfl, by decide, by decide⟩

/-- C11 (amended): starting from the all-Wall map of `createEmptyMap`, for
every sequence of draws and every two rooms at different indices of the list
returned by `generateRooms`, the two footprints are separated by at least one
full column or row: one room ends strictly before the cell in front of the
other begins, horizontally or vertically.  (Only one margin fits in the gap:
the margins of the two rooms may share it.) -/
theorem generateRooms_separated (g : Game) (rnd : List Nat) (i j : Nat) (r1 r2 : Room)
    (hij : i ≠ j) (h1 : (g.createEmptyMap.generateRooms rnd).2.1[i]? = some r1)
    (h2 : (g.createEmptyMap.generateRooms rnd).2.1[j]? = some r2) :
    r1.x + r1.width < r2.x ∨ r2.x + r2.width < r1.x ∨
    r1.y + r1.height < r2.y ∨ r2.y + r2.height < r1.y := by
  obtain ⟨e1, e2, -, -⟩ := createEmptyMap_spec g
  obtain ⟨inv, -, -⟩ := generateRooms_spec e1 e2 rnd
  have hpw := List.pairwise_iff_getElem.mp inv.apart
  obtain ⟨hi, hi1⟩ := List.getElem?_eq_some.mp h1
  obtain ⟨hj, hj2⟩ := List.getElem?_eq_some.mp h2
  have s1 := inv.size r1 (List.getElem?_mem h1)
  have s2 := inv.size r2 (List.getElem?_mem h2)
  by_contra hcon
  have key : ¬ ((r1.Covers ⟨max r1.x (r2.x - 1), max r1.y (r2.y - 1)⟩) ∧
      r2.CoversWithMargin ⟨max r1.x (r2.x - 1), max r1.y (r2.y - 1)⟩) := by
    rintro ⟨hc, hm⟩
    rcases Nat.lt_or_gt_of_ne hij with h | h
    · have := (hpw i j hi hj h ⟨max r1.x (r2.x - 1), max r1.y (r2.y - 1)⟩).1
      rw [hi1, hj2] at this
      exact this hc hm
    · have := (hpw j i hj hi h ⟨max r1.x (r2.x - 1), max r1.y (r2.y - 1)⟩).2
      rw [hi1, hj2] at this
      exact this hc hm
  apply key
  unfold Room.Covers Room.CoversWithMargin
  simp only
  omega

theorem generateRooms_separated_witness :
    (1 : Int) + 3 < 5 ∨ (5 : Int) + 3 < 1 ∨ (1 : Int) + 3 < 1 ∨ (1 : Int) + 3 < 1 :=
  generateRooms_separated wideGame wideDraws 0 1 ⟨1, 1, 3, 3⟩ ⟨5, 1, 3, 3⟩ (by decide)
    (by rw [wideGame_rooms]; rfl) (by rw [wideGame_rooms]; rfl)

/-- C12: on a rectangular map with at least one Floor cell, for every outcome
of the draws of the shuffle, `placeEntities` run on a game without enemies and
items leaves the map as it is, gives the player, every enemy and every item a
Floor cell of that map, and gives no two of them the same cell. -/
theorem placeEntities_distinct_floor (g : Game) (hg : g.WF) (rnd : List Nat)
    (he : g.enemies = []) (hi : g.items = []) (hf : ∃ c, g.IsFloor c) :
    (g.placeEntities rnd).1.map = g.map ∧
    (g.placeEntities rnd).1.entityCells.Nodup ∧
    ∀ c ∈ (g.placeEntities rnd).1.entityCells, g.IsFloor c := by
  obtain ⟨rs, hnd, hfl, hcells⟩ := placeEntities_cells g hg rnd he hi hf
  refine ⟨rfl, ?_, ?_⟩
  · rw [hcells]; exact (List.take_sublist 23 rs).nodup hnd
  · intro c hc
    rw [hcells] at hc
    exact hfl c (List.mem_of_mem_take hc)

theorem placeEntities_distinct_floor_witness :
    (emptyRoom.placeEntities [3, 1, 4, 1, 5, 9, 2, 6]).1.map = emptyRoom.map ∧
    (emptyRoom.placeEntities [3, 1, 4, 1, 5, 9, 2, 6]).1.entityCells.Nodup ∧
    ∀ c ∈ (emptyRoom.placeEntities [3, 1, 4, 1, 5, 9, 2, 6]).1.entityCells, emptyRoom.IsFloor c :=
  placeEntities_distinct_floor emptyRoom (by decide) [3, 1, 4, 1, 5, 9, 2, 6] rfl rfl
    ⟨⟨0, 0⟩, by decide⟩

/-- C13: on a rectangular map with `n` Floor cells, `placeEntities` run on a
game without enemies and items is a total function (it never fails) that
creates exactly `min(10, n - 1)` enemies, each with health 30 of 30, and the
item list made of exactly `min(2, n - 11)` swords followed by exactly
`min(10, n - 13)` health potions (the differences cut off at 0); with
`n >= 23` these are 10 enemies, 2 swords and 10 potions. -/
theorem placeEntities_amounts (g : Game) (_hg : g.WF) (rnd : List Nat) (he : g.enemies = [])
    (hi : g.items = []) :
    ∃ swords potions : List Item,
      (g.placeEntities rnd).1.items = swords ++ potions ∧
      (g.placeEntities rnd).1.enemies.length = min 10 (g.totalEmptyCount - 1) ∧
      swords.length = min 2 (g.totalEmptyCount - 11) ∧
      potions.length = min 10 (g.totalEmptyCount - 13) ∧
      (∀ e ∈ (g.placeEntities rnd).1.enemies, e.health = 30 ∧ e.maxHealth = 30) ∧
      (∀ i ∈ swords, i.type = TileType.SWORD) ∧
      (∀ i ∈ potions, i.type = TileType.HEALTH_POTION) ∧
      (23 ≤ g.totalEmptyCount → (g.placeEntities rnd).1.enemies.length = 10 ∧
        swords.length = 2 ∧ potions.length = 10) := by
  obtain ⟨swords, potions, h1, h2, h3, h4, h5, h6, h7⟩ := placeEntities_counts g rnd he hi
  refine ⟨swords, potions, h1, h2, h3, h4, h5, h6, h7, ?_⟩
  intro hn
  rw [h2, h3, h4]
  omega

theorem placeEntities_amounts_witness :
    emptyRoom.totalEmptyCount = 25 ∧ sampleGrid.totalEmptyCount = 6 ∧
    (∃ swords potions : List Item,
      (emptyRoom.placeEntities [3, 1, 4]).1.items = swords ++ potions ∧
      (emptyRoom.placeEntities [3, 1, 4]).1.enemies.length = 10 ∧
      swords.length = 2 ∧ potions.length = 10) ∧
    (∃ swords potions : List Item,
      (sampleGrid.placeEntities [3, 1, 4]).1.items = swords ++ potions ∧
      (sampleGrid.placeEntities [3, 1, 4]).1.enemies.length = 5 ∧
      swords.length = 0 ∧ potions.length = 0) := by
  have n1 : emptyRoom.totalEmptyCount = 25 := by decide
  have n2 : sampleGrid.totalEmptyCount = 6 := by decide
  refine ⟨n1, n2, ?_, ?_⟩
  · obtain ⟨swords, potions, h1, -, -, -, -, -, -, h8⟩ :=
      placeEntities_amounts emptyRoom (by decide) [3, 1, 4] rfl rfl
    obtain ⟨a, b, c⟩ := h8 (by rw [n1]; decide)
    exact ⟨swords, potions, h1, a, b, c⟩
  · obtain ⟨swords, potions, h1, h2, h3, h4, -⟩ :=
      placeEntities_amounts sampleGrid (by decide) [3, 1, 4] rfl rfl
    rw [n2] at h2 h3 h4
    exact ⟨swords, potions, h1, h2, h3, h4⟩

/-- C14: in every state in which the first item at the cell `(x, y)` is a
health potion, `checkItems(x, y)` sets the player's health to
`min(maxHealth, health + 20)` and removes that item from the item list; the
other items, their order and everything else in the state stay as they were. -/
theorem checkItems_potion (g : Game) (x y : Int) (before : List Item) (item : Item)
    (after : List Item) (hsplit : g.items = before ++ item :: after)
    (hfirst : ∀ a ∈ before, ¬ (a.x = x ∧ a.y = y)) (hat : item.x = x ∧ item.y = y)
    (htype : item.type = TileType.HEALTH_POTION) :
    g.checkItems x y =
      { g with
        player := { g.player with health := min g.player.maxHealth (g.player.health + 20) },
        items := before ++ after } := by
  unfold Game.checkItems
  rw [hsplit, pickItem_split x y item after hat before hfirst]
  simp only [htype, if_true]

theorem checkItems_potion_witness :
    potionRoom.player.health = 90 ∧ potionRoom.player.maxHealth = 100 ∧
    (potionRoom.checkItems 1 0).player.health = 100 ∧
    (potionRoom.checkItems 1 0).items = [⟨3, 3, TileType.SWORD⟩, ⟨1, 0, TileType.HEALTH_POTION⟩] := by
  have h := checkItems_potion potionRoom 1 0 [⟨3, 3, TileType.SWORD⟩]
    ⟨1, 0, TileType.HEALTH_POTION⟩ [⟨1, 0, TileType.HEALTH_POTION⟩] rfl (by decide) (by decide) rfl
  rw [h]
  exact ⟨rfl, rfl, by decide, rfl⟩

/-- C15: in every state with a rectangular map, if an enemy stands on one of
the 8 cells neighbouring the player, inside the map, is the first enemy in list
order at that cell and has health less than or equal to the player's attack
power, then after `attack` that enemy record is gone from the enemy list (the
enemies left at the cell are exactly those that came later in the list at that
cell, and the list holds one copy of the record less) and the cell holds
Floor. -/
theorem attack_removes_weak_enemy (g : Game) (hg : g.WF) (d : Dir) (hd : d ∈ attackOffsets)
    (before : List Enemy) (e : Enemy) (after : List Enemy)
    (hsplit : g.enemies = before ++ e :: after)
    (hfirst : ∀ a ∈ before, ¬ (a.x = e.x ∧ a.y = e.y))
    (hpos : e.x = g.player.x + d.dx ∧ e.y = g.player.y + d.dy) (hin : g.InMap ⟨e.x, e.y⟩)
    (hh : e.health ≤ g.player.attackPower) :
    g.attack.enemies.filter (Enemy.isAt e.x e.y) = after.filter (Enemy.isAt e.x e.y) ∧
    g.attack.enemies.count e + 1 = g.enemies.count e ∧
    (e ∉ after → e ∉ g.attack.enemies) ∧
    get2 g.attack.map e.x e.y = some TileType.FLOOR := by
  have hself : Enemy.isAt e.x e.y e = true := by simp [Enemy.isAt]
  have hbf : before.filter (Enemy.isAt e.x e.y) = [] := by
    rw [List.filter_eq_nil_iff]
    intro a ha
    have := hfirst a ha
    simpa [Enemy.isAt] using this
  have hf : g.enemies.filter (Enemy.isAt e.x e.y) = e :: after.filter (Enemy.isAt e.x e.y) := by
    rw [hsplit, List.filter_append, hbf, List.filter_cons, if_pos hself, List.nil_append]
  rw [hpos.1, hpos.2] at hin hf
  obtain ⟨k1, k2⟩ := attack_kills g hg d hd e _ hin hh hf
  rw [← hpos.1, ← hpos.2] at k1 k2 hf
  have hcount : ∀ l : List Enemy, (l.filter (Enemy.isAt e.x e.y)).count e = l.count e :=
    fun l => List.count_filter hself
  have hc : g.attack.enemies.count e + 1 = g.enemies.count e := by
    rw [← hcount g.attack.enemies, ← hcount g.enemies, k1, hf, List.count_cons_self]
  refine ⟨k1, hc, ?_, k2⟩
  intro hna hmem
  have h1 : e ∈ g.attack.enemies.filter (Enemy.isAt e.x e.y) :=
    List.mem_filter.mpr ⟨hmem, hself⟩
  rw [k1] at h1
  exact hna (List.mem_filter.mp h1).1

theorem attack_removes_weak_enemy_witness :
    duelRoom.player.attackPower = 10 ∧
    duelRoom.enemies = [⟨1, 2, 30, 30⟩, ⟨2, 1, 8, 30⟩] ∧
    duelRoom.attack.enemies.filter (Enemy.isAt 2 1) = [] ∧
    duelRoom.attack.enemies.count ⟨2, 1, 8, 30⟩ + 1 = duelRoom.enemies.count ⟨2, 1, 8, 30⟩ ∧
    (⟨2, 1, 8, 30⟩ : Enemy) ∉ duelRoom.attack.enemies ∧
    get2 duelRoom.attack.map 2 1 = some TileType.FLOOR := by
  obtain ⟨h1, h2, h3, h4⟩ := attack_removes_weak_enemy duelRoom (by decide) ⟨1, 0⟩ (by decide)
    [⟨1, 2, 30, 30⟩] ⟨2, 1, 8, 30⟩ [] rfl (by decide) (by decide) (by decide) (by decide)
  exact ⟨rfl, rfl, h1, h2, h3 (by simp), h4⟩

/-- C16: in every state in which the player's health is at most 0 or the
enemy list is empty, `handleInput` with any key returns at once: the map, the
player, the enemy list and the item list are unchanged and no random draw is
used. -/
theorem handleInput_terminal (g : Game) (key : String) (rnd : List Nat)
    (h : g.player.health ≤ 0 ∨ g.enemies = []) : g.handleInput key rnd = some (g, rnd) := by
  unfold Game.handleInput
  rw [if_pos]
  rcases h with h | h
  · exact Or.inl h
  · exact Or.inr (by rw [h]; rfl)

theorem handleInput_terminal_witness :
    fallen.player.health = 0 ∧ fallen.handleInput " " [7] = some (fallen, [7]) ∧
    sampleGrid.enemies = [] ∧ sampleGrid.handleInput "d" [7] = some (sampleGrid, [7]) :=
  ⟨rfl, handleInput_terminal fallen " " [7] (Or.inl (by decide)), rfl,
    handleInput_terminal sampleGrid "d" [7] (Or.inr rfl)⟩

/-- C17: in every state, `handleInput` with a key that is none of w, a, s, d
and space (after lower-casing), or with a movement key whose destination cell
is outside the map, a Wall or an EnemyMarker, leaves the map, the player, the
enemy list and the item list unchanged, and no enemy acts (no random draw is
used). -/
theorem handleInput_invalid (g : Game) (key : String) (rnd : List Nat)
    (h : toLowerCase key ∉ ["w", "s", "a", "d", " "] ∨
      ∃ x y, g.destination (toLowerCase key) = some (x, y) ∧
        (¬ g.InMap ⟨x, y⟩ ∨ get2 g.map x y = some TileType.WALL ∨
          get2 g.map x y = some TileType.ENEMY)) :
    g.handleInput key rnd = some (g, rnd) := by
  unfold Game.handleInput
  split
  · rfl
  · rcases h with h | ⟨x, y, hdest, hbad⟩
    · simp only [List.mem_cons, List.mem_singleton, List.not_mem_nil, or_false, not_or] at h
      obtain ⟨k1, k2, k3, k4, k5⟩ := h
      rw [if_neg k5]
      unfold Game.destination
      rw [if_neg k1, if_neg k2, if_neg k3, if_neg k4]
    · have hsp : toLowerCase key ≠ " " := by
        intro hk
        rw [hk] at hdest
        revert hdest
        unfold Game.destination
        simp
      rw [if_neg hsp, hdest]
      simp only
      have hcan : g.canMoveTo x y = false := by
        unfold Game.canMoveTo
        split
        · rfl
        · rename_i hin
          rcases hbad with hb | hb | hb
          · exact absurd (by unfold Game.InMap; simp only; omega) hb
          · simp [Game.tileIs, hb]
          · simp [Game.tileIs, hb]
      rw [hcan]
      simp

theorem handleInput_invalid_witness :
    duelRoom.handleInput "X" [7] = some (duelRoom, [7]) ∧
    duelRoom.handleInput "D" [7] = some (duelRoom, [7]) ∧
    potionRoom.handleInput "w" [7] = some (potionRoom, [7]) :=
  ⟨handleInput_invalid duelRoom "X" [7] (Or.inl (by decide)),
   handleInput_invalid duelRoom "D" [7] (Or.inr ⟨2, 1, by decide, Or.inr (Or.inr (by decide))⟩),
   handleInput_invalid potionRoom "w" [7] (Or.inr ⟨0, -1, by decide, Or.inl (by decide)⟩)⟩

/-- C18 (as stated, refuted): the health does go below 0.  In the state
`cornered` the health 5 lies in `[0, maxHealth]` and one turn of `moveEnemies`
takes it to -5, each of the two adjacent enemies dealing 5; and the game
`arena`, which `generateMap` builds from the constructor's game with the draws
`arenaDraws`, reaches health -10 with the three keys s, s, w (100, then 60
after eight hits, 30 after six, -10 after eight). -/
theorem health_below_zero_counterexample :
    (0 ≤ cornered.player.health ∧ cornered.player.health ≤ cornered.player.maxHealth ∧
      (cornered.moveEnemies []).map (fun r => r.1.player.health) = some (-5)) ∧
    Game.new.generateMap arenaDraws = some (arena, []) ∧
    (arena.handleInputs fatalKeys []).map (fun r => r.1.player.health) = some (-10) ∧
    ¬ ∀ g0 g : Game, g0.Fresh → Game.Reachable g0 g →
      0 ≤ g.player.health ∧ g.player.health ≤ g.player.maxHealth := by
  refine ⟨⟨by decide, by decide, by decide⟩, arena_generated, arena_fatal, ?_⟩
  intro hall
  obtain ⟨r1, hr1, hh⟩ := Option.map_eq_some'.mp arena_fatal
  have hreach : Game.Reachable arena r1.1 :=
    handleInputs_reachable arena fatalKeys arena [] r1.1 r1.2 Game.Reachable.start hr1
  have := (hall arena r1.1 arena_fresh hreach).1
  rw [hh] at this
  exact absurd this (by decide)

/-- C18 (amended): in every state reachable from a freshly generated game by
any sequence of calls of `handleInput`, the player's health is at most
`maxHealth`, which stays 100, and it is greater than `-5` times the number of
enemies, of which there are at most 10: the health can end below 0 (there is no
lower clamp), but it stays above -50. -/
theorem health_bounds (g0 g : Game) (h0 : g0.Fresh) (h : Game.Reachable g0 g) :
    g.player.health ≤ g.player.maxHealth ∧ g.player.maxHealth = 100 ∧
    -5 * (g.enemies.length : Int) < g.player.health ∧ -50 < g.player.health := by
  obtain ⟨h1, h2, h3, h4⟩ := reachable_health g0 h0 g h
  have : (g.enemies.length : Int) ≤ 10 := by exact_mod_cast h4
  exact ⟨h1, h3, h2, by omega⟩

theorem health_bounds_witness :
    smallStart.player.health ≤ smallStart.player.maxHealth ∧ smallStart.player.maxHealth = 100 ∧
    -5 * (smallStart.enemies.length : Int) < smallStart.player.health ∧
    -50 < smallStart.player.health :=
  health_bounds smallStart smallStart smallStart_fresh Game.Reachable.start

/-- C19 (the code breaks it): the game `arena`, which `generateMap` builds
from the constructor's game with the draws `arenaDraws`, has none of its
enemies marked on the map; after the two keys s, s the enemy that stood on
(3,1) has stepped onto (3,2), where another enemy stands: the cell (3,2) holds
EnemyMarker and two enemy records stand on it.  So it is not true that in every
reachable state a cell holding EnemyMarker is the position of exactly one
enemy record. -/
theorem enemy_marker_shared :
    Game.new.generateMap arenaDraws = some (arena, []) ∧
    (arena.handleInputs crowdKeys []).map
      (fun r => (get2 r.1.map 3 2, (r.1.enemies.filter (Enemy.isAt 3 2)).length)) =
      some (some TileType.ENEMY, 2) ∧
    ¬ ∀ g0 g : Game, g0.Fresh → Game.Reachable g0 g →
      ∀ x y : Int, get2 g.map x y = some TileType.ENEMY →
        (g.enemies.filter (Enemy.isAt x y)).length = 1 := by
  refine ⟨arena_generated, arena_crowd, ?_⟩
  intro hall
  obtain ⟨r1, hr1, hh⟩ := Option.map_eq_some'.mp arena_crowd
  have hreach : Game.Reachable arena r1.1 :=
    handleInputs_reachable arena crowdKeys arena [] r1.1 r1.2 Game.Reachable.start hr1
  obtain ⟨hm, hl⟩ := Prod.mk.inj hh
  have := hall arena r1.1 arena_fresh hreach 3 2 hm
  rw [hl] at this
  exact absurd this (by decide)

/-- C20: when the loop of `moveEnemies` comes to an enemy that the player is
within Chebyshev distance 1 of (`|dx| <= 1` and `|dy| <= 1`, diagonals
included), the pass for that enemy takes exactly 5 off the player's health and
changes nothing else: the map, the enemy list (so the position of that enemy)
and the item list stay as they were, no draw is used, and the loop goes on to
the next enemy. -/
theorem enemyTurn_attack (g : Game) (i : Nat) (enemy : Enemy) (rnd : List Nat)
    (rest : List Nat) (hi : g.enemies[i]? = some enemy)
    (hadj : (enemy.x - g.player.x).natAbs ≤ 1 ∧ (enemy.y - g.player.y).natAbs ≤ 1) :
    g.enemyTurn i rnd =
      some ({ g with player := { g.player with health := g.player.health - 5 } }, rnd) ∧
    Game.moveEnemiesFrom (i :: rest) g rnd =
      Game.moveEnemiesFrom rest
        { g with player := { g.player with health := g.player.health - 5 } } rnd := by
  have h1 : g.enemyTurn i rnd =
      some ({ g with player := { g.player with health := g.player.health - 5 } }, rnd) := by
    unfold Game.enemyTurn
    rw [hi]
    simp only
    rw [if_pos (by unfold Game.canEnemyAttackPlayer; exact decide_eq_true hadj)]
    rfl
  refine ⟨h1, ?_⟩
  rw [Game.moveEnemiesFrom, h1]

theorem enemyTurn_attack_witness :
    cornered.enemyTurn 1 [7] =
      some ({ cornered with player := ⟨1, 1, 0, 100, 10⟩ }, [7]) ∧
    Game.moveEnemiesFrom [1] cornered [7] =
      Game.moveEnemiesFrom [] { cornered with player := ⟨1, 1, 0, 100, 10⟩ } [7] :=
  enemyTurn_attack cornered 1 ⟨2, 2, 30, 30⟩ [7] [] rfl (by decide)

/-- C21: in every state in which no cell other than the player's position
holds PlayerMarker, for every pursuing enemy (inside the map, not adjacent to
the player) `moveEnemySmartly` behaves as follows.  The search of `findPath`
comes to an end.  If it yields a path, the path has more than one cell and its
second cell is passable (`canEnemyMoveTo`: in bounds, not Wall, not
EnemyMarker, not PlayerMarker), and the enemy moves to that second cell.  If it
yields no path, the enemy makes the random single-step move
`moveEnemyRandomly`, which shuffles the four cardinal directions and takes the
first one whose destination is passable (the enemy stays when none is).  A
blocked second cell, the other case in which the enemy would fall back to the
random move, does not occur in such a state. -/
theorem smart_move_or_fallback (g : Game) (i : Nat) (enemy : Enemy) (rnd : List Nat)
    (hi : g.enemies[i]? = some enemy) (hin : g.InMap ⟨enemy.x, enemy.y⟩)
    (hpm : ∀ x y, get2 g.map x y = some TileType.PLAYER → x = g.player.x ∧ y = g.player.y)
    (hfar : ¬ ((enemy.x - g.player.x).natAbs ≤ 1 ∧ (enemy.y - g.player.y).natAbs ≤ 1)) :
    (∃ r, g.findPath enemy.x enemy.y g.player.x g.player.y = some r) ∧
    (∀ path, g.findPath enemy.x enemy.y g.player.x g.player.y = some (some path) →
      1 < path.length) ∧
    (∀ c0 next rest,
      g.findPath enemy.x enemy.y g.player.x g.player.y = some (some (c0 :: next :: rest)) →
      g.canEnemyMoveTo next.x next.y = true ∧
      g.moveEnemySmartly i rnd = some (g.performEnemyMove i next.x next.y, rnd)) ∧
    (∀ c0 next rest,
      g.findPath enemy.x enemy.y g.player.x g.player.y = some (some (c0 :: next :: rest)) →
      g.canEnemyMoveTo next.x next.y = false →
      g.moveEnemySmartly i rnd = some (g.moveEnemyRandomly i rnd)) ∧
    (g.findPath enemy.x enemy.y g.player.x g.player.y = some none →
      g.moveEnemySmartly i rnd = some (g.moveEnemyRandomly i rnd)) ∧
    (shuffleArray pathDirections rnd).1.Perm pathDirections ∧
    g.moveEnemyRandomly i rnd =
      match (shuffleArray pathDirections rnd).1.find?
          (fun d => g.canEnemyMoveTo (enemy.x + d.dx) (enemy.y + d.dy)) with
      | some d => (g.performEnemyMove i (enemy.x + d.dx) (enemy.y + d.dy),
          (shuffleArray pathDirections rnd).2)
      | none => (g, (shuffleArray pathDirections rnd).2) := by
  obtain ⟨b1, b2⟩ := moveEnemySmartly_branches g i enemy rnd hi hfar
  have hfree : ∀ c0 next rest,
      g.findPath enemy.x enemy.y g.player.x g.player.y = some (some (c0 :: next :: rest)) →
      g.canEnemyMoveTo next.x next.y = true := by
    intro c0 next rest hpath
    obtain ⟨h0, hadj, hpass⟩ := path_second (g := g) ⟨enemy.x, enemy.y⟩
      ⟨g.player.x, g.player.y⟩ c0 next rest hin hpath
    refine canEnemyMoveTo_of_passable hpass ?_
    intro hp
    obtain ⟨e1, e2⟩ := hpm _ _ hp
    apply hfar
    rw [h0] at hadj
    unfold Adj4 at hadj
    simp only at hadj
    rw [e1, e2] at hadj
    omega
  refine ⟨findPath_total (g := g) ⟨enemy.x, enemy.y⟩ ⟨g.player.x, g.player.y⟩ hin, ?_, ?_, ?_,
    b2, shuffleArray_perm _ _, ?_⟩
  · intro path hpath
    obtain ⟨c0, next, rest, rfl⟩ := path_two_cells (g := g) ⟨enemy.x, enemy.y⟩
      ⟨g.player.x, g.player.y⟩ hin (not_adjacent_ne hfar) path hpath
    simp
  · intro c0 next rest hpath
    exact ⟨hfree c0 next rest hpath, (b1 c0 next rest hpath).1 (hfree c0 next rest hpath)⟩
  · intro c0 next rest hpath hblocked
    rw [hfree c0 next rest hpath] at hblocked
    cases hblocked
  · unfold Game.moveEnemyRandomly
    rw [hi] <;> rfl

theorem smart_move_or_fallback_witness :
    markedRoom.moveEnemySmartly 0 [7] = some (markedRoom.performEnemyMove 0 1 0, [7]) ∧
    walledGame.findPath 0 0 2 0 = some none ∧
    walledGame.moveEnemySmartly 0 [7] = some (walledGame.moveEnemyRandomly 0 [7]) := by
  have hpm1 : ∀ x y : Int, get2 markedRoom.map x y = some TileType.PLAYER →
      x = markedRoom.player.x ∧ y = markedRoom.player.y := by
    intro x y h
    have hb := get2_inb (w := 5) (h := 5) (by decide : Rect 5 5 markedRoom.map) h
    simp only [Nat.cast_ofNat] at hb
    obtain ⟨b1, b2, b3, b4⟩ := hb
    interval_cases x <;> interval_cases y <;>
      first | exact ⟨rfl, rfl⟩ | exact absurd h (by decide)
  have hpm2 : ∀ x y : Int, get2 walledGame.map x y = some TileType.PLAYER →
      x = walledGame.player.x ∧ y = walledGame.player.y := by
    intro x y h
    have hb := get2_inb (w := 4) (h := 3) (by decide : Rect 4 3 walledGame.map) h
    simp only [Nat.cast_ofNat] at hb
    obtain ⟨b1, b2, b3, b4⟩ := hb
    interval_cases x <;> interval_cases y <;> exact absurd h (by decide)
  have hnone : walledGame.findPath 0 0 2 0 = some none := by decide
  exact ⟨((smart_move_or_fallback markedRoom 0 ⟨0, 0, 30, 30⟩ [7] rfl (by decide) hpm1
      (by decide)).2.2.1 ⟨0, 0⟩ ⟨1, 0⟩ [⟨2, 0⟩, ⟨3, 0⟩, ⟨4, 0⟩, ⟨4, 1⟩, ⟨4, 2⟩, ⟨4, 3⟩, ⟨4, 4⟩]
      (by decide)).2,
    hnone,
    (smart_move_or_fallback walledGame 0 ⟨0, 0, 30, 30⟩ [7] rfl (by decide) hpm2
      (by decide)).2.2.2.2.1 hnone⟩

/-- C22: in every state reachable from a freshly generated game on a map of at
least 3 by 3 cells (the constructor's is 40 by 24) by any sequence of calls of
`handleInput`, the map is rectangular, the player's position lies inside it and
the cell at the player's position holds Floor or PlayerMarker, so neither Wall
nor EnemyMarker. -/
theorem player_on_floor (g0 g : Game) (h0 : g0.Fresh) (hw : 3 ≤ g0.mapWidth)
    (hh : 3 ≤ g0.mapHeight) (h : Game.Reachable g0 g) :
    g.WF ∧ g.InMap g.playerCell ∧
    (get2 g.map g.player.x g.player.y = some TileType.FLOOR ∨
      get2 g.map g.player.x g.player.y = some TileType.PLAYER) ∧
    get2 g.map g.player.x g.player.y ≠ some TileType.WALL ∧
    get2 g.map g.player.x g.player.y ≠ some TileType.ENEMY := by
  obtain ⟨hg, hp⟩ := reachable_on_floor g0 h0 hw hh g h
  refine ⟨hg, ?_, hp, ?_, ?_⟩
  · rcases hp with hp | hp
    · exact get2_inb hg hp
    · exact get2_inb hg hp
  · rcases hp with hp | hp <;> rw [hp] <;> decide
  · rcases hp with hp | hp <;> rw [hp] <;> decide

theorem player_on_floor_witness :
    arena.WF ∧ arena.InMap arena.playerCell ∧
    (get2 arena.map arena.player.x arena.player.y = some TileType.FLOOR ∨
      get2 arena.map arena.player.x arena.player.y = some TileType.PLAYER) ∧
    get2 arena.map arena.player.x arena.player.y ≠ some TileType.WALL ∧
    get2 arena.map arena.player.x arena.player.y ≠ some TileType.ENEMY :=
  player_on_floor arena arena arena_fresh (by decide) (by decide) Game.Reachable.start

/-- C23: on a rectangular map, for all cells `(x1, y1)` and `(x2, y2)` inside
it, after `createStraightCorridor` a cell holds Floor when it lies on the row
`y1` between the two columns or on the column `x2` between the two rows,
whatever it held before, and every other cell holds what it held before; and
`ensureConnectivity` always returns, with every cell that was Floor still
Floor. -/
theorem createStraightCorridor_exact (g : Game) (hg : g.WF) (a b : Cell) (ha : g.InMap a)
    (hb : g.InMap b) :
    (∀ c : Cell, get2 (g.createStraightCorridor a.x a.y b.x b.y).map c.x c.y =
      if (c.y = a.y ∧ min a.x b.x ≤ c.x ∧ c.x ≤ max a.x b.x) ∨
          (c.x = b.x ∧ min a.y b.y ≤ c.y ∧ c.y ≤ max a.y b.y)
      then some TileType.FLOOR else get2 g.map c.x c.y) ∧
    (∀ rnd, ∃ g1 rnd1, g.ensureConnectivity rnd = some (g1, rnd1) ∧
      ∀ c, g.IsFloor c → g1.IsFloor c) := by
  refine ⟨fun c => (corridor_spec hg ha hb).2.2.2 c, ?_⟩
  intro rnd
  by_cases hex : ∃ c, g.IsFloor c
  · obtain ⟨g1, rnd1, h1, -, -, -, h5, -⟩ := ensureConnectivity_spec hg rnd hex
    exact ⟨g1, rnd1, h1, h5⟩
  · obtain ⟨areas, -, -, h3, h4⟩ := connectivity_areas hg
    have he : areas = [] := h3 (fun c hc => hex ⟨c, hc⟩)
    exact ⟨g, rnd, h4 (by rw [he]; decide) rnd, fun _ hc => hc⟩

theorem createStraightCorridor_exact_witness :
    get2 sampleGrid.map 1 0 = some TileType.WALL ∧
    get2 (sampleGrid.createStraightCorridor 0 0 2 2).map 1 0 = some TileType.FLOOR ∧
    get2 (sampleGrid.createStraightCorridor 0 0 2 2).map 2 1 = some TileType.FLOOR ∧
    get2 (sampleGrid.createStraightCorridor 0 0 2 2).map 1 1 = some TileType.WALL ∧
    (∃ g1 rnd1, sampleGrid.ensureConnectivity [0, 0, 0, 0] = some (g1, rnd1) ∧
      ∀ c, sampleGrid.IsFloor c → g1.IsFloor c) := by
  obtain ⟨h1, h2⟩ := createStraightCorridor_exact sampleGrid (by decide) ⟨0, 0⟩ ⟨2, 2⟩
    (by decide) (by decide)
  refine ⟨by decide, ?_, ?_, ?_, h2 [0, 0, 0, 0]⟩
  · have := h1 ⟨1, 0⟩
    rw [if_pos (by decide)] at this
    exact this
  · have := h1 ⟨2, 1⟩
    rw [if_pos (by decide)] at this
    exact this
  · have := h1 ⟨1, 1⟩
    rw [if_neg (by decide)] at this
    exact this.trans (by decide)

/-- C24: in every state `attack` leaves the player (position, health,
attackPower) and the item list unchanged, and `handleInput` with the space key
in a state that is not terminal returns the state after `attack` without any
enemy turn and without a random draw.  On a cell that is not one of the
player's 8 neighbours the enemies and the tile are unchanged.  On a
neighbouring cell without an enemy nothing changes; with enemies, the first of
them in list order loses exactly `attackPower` and the others on the cell are
unchanged: when its health stays positive the tile is unchanged, otherwise it
is removed and the tile of the cell is either unchanged or Floor (Floor when
the map is rectangular and the cell inside it). -/
theorem attack_frame_effect (g : Game) :
    g.attack.player = g.player ∧ g.attack.items = g.items ∧
    (∀ rnd, ¬ (g.player.health ≤ 0 ∨ g.enemies.length = 0) →
      g.handleInput " " rnd = some (g.attack, rnd)) ∧
    (∀ x y, (∀ d ∈ attackOffsets, ¬ (x = g.player.x + d.dx ∧ y = g.player.y + d.dy)) →
      g.attack.enemies.filter (Enemy.isAt x y) = g.enemies.filter (Enemy.isAt x y) ∧
      get2 g.attack.map x y = get2 g.map x y) ∧
    (∀ d ∈ attackOffsets,
      (g.enemies.filter (Enemy.isAt (g.player.x + d.dx) (g.player.y + d.dy)) = [] →
        g.attack.enemies.filter (Enemy.isAt (g.player.x + d.dx) (g.player.y + d.dy)) = [] ∧
        get2 g.attack.map (g.player.x + d.dx) (g.player.y + d.dy) =
          get2 g.map (g.player.x + d.dx) (g.player.y + d.dy)) ∧
      (∀ e rest,
        g.enemies.filter (Enemy.isAt (g.player.x + d.dx) (g.player.y + d.dy)) = e :: rest →
        (g.player.attackPower < e.health →
          g.attack.enemies.filter (Enemy.isAt (g.player.x + d.dx) (g.player.y + d.dy)) =
            { e with health := e.health - g.player.attackPower } :: rest ∧
          get2 g.attack.map (g.player.x + d.dx) (g.player.y + d.dy) =
            get2 g.map (g.player.x + d.dx) (g.player.y + d.dy)) ∧
        (e.health ≤ g.player.attackPower →
          g.attack.enemies.filter (Enemy.isAt (g.player.x + d.dx) (g.player.y + d.dy)) = rest ∧
          (get2 g.attack.map (g.player.x + d.dx) (g.player.y + d.dy) = some TileType.FLOOR ∨
            get2 g.attack.map (g.player.x + d.dx) (g.player.y + d.dy) =
              get2 g.map (g.player.x + d.dx) (g.player.y + d.dy)) ∧
          (g.WF → g.InMap ⟨g.player.x + d.dx, g.player.y + d.dy⟩ →
            get2 g.attack.map (g.player.x + d.dx) (g.player.y + d.dy)
              = some TileType.FLOOR)))) := by
  obtain ⟨a1, a2, -⟩ := attack_frame g
  refine ⟨a1, a2, ?_, fun x y h => attack_elsewhere g x y h, fun d hd => attack_target g d hd⟩
  intro rnd hterm
  unfold Game.handleInput
  rw [if_neg hterm, if_pos (by decide)]

theorem attack_frame_effect_witness :
    duelRoom.enemies = [⟨1, 2, 30, 30⟩, ⟨2, 1, 8, 30⟩] ∧
    duelRoom.attack.player = duelRoom.player ∧
    duelRoom.handleInput " " [7] = some (duelRoom.attack, [7]) ∧
    duelRoom.attack.enemies.filter (Enemy.isAt 1 2) = [⟨1, 2, 20, 30⟩] ∧
    get2 duelRoom.attack.map 1 2 = some TileType.ENEMY ∧
    duelRoom.attack.enemies.filter (Enemy.isAt 2 1) = [] ∧
    get2 duelRoom.attack.map 2 1 = some TileType.FLOOR ∧
    get2 duelRoom.attack.map 3 3 = some TileType.FLOOR := by
  obtain ⟨h1, -, h3, h4, h5⟩ := attack_frame_effect duelRoom
  obtain ⟨-, t1⟩ := h5 ⟨0, 1⟩ (by decide)
  obtain ⟨-, t2⟩ := h5 ⟨1, 0⟩ (by decide)
  obtain ⟨u1, u2⟩ := (t1 ⟨1, 2, 30, 30⟩ [] (by decide)).1 (by decide)
  obtain ⟨v1, -, v3⟩ := (t2 ⟨2, 1, 8, 30⟩ [] (by decide)).2 (by decide)
  refine ⟨rfl, h1, h3 [7] (by decide), u1, u2.trans (by decide), v1,
    v3 (by decide) (by decide), ?_⟩
  exact (h4 3 3 (by decide)).2.trans (by decide)

/-- C25: in every state in which no cell other than the player's position
holds PlayerMarker, for an enemy inside the map that is not within Chebyshev
distance 1 of the player: whenever `findPath` from the enemy to the player
returns a path of more than one cell, the second cell of the path satisfies
`canEnemyMoveTo`, and `moveEnemySmartly` moves the enemy onto it. -/
theorem pursuit_step_free (g : Game) (i : Nat) (enemy : Enemy) (rnd : List Nat)
    (c0 next : Cell) (rest : List Cell)
    (hi : g.enemies[i]? = some enemy) (hin : g.InMap ⟨enemy.x, enemy.y⟩)
    (hpm : ∀ x y, get2 g.map x y = some TileType.PLAYER → x = g.player.x ∧ y = g.player.y)
    (hfar : ¬ ((enemy.x - g.player.x).natAbs ≤ 1 ∧ (enemy.y - g.player.y).natAbs ≤ 1))
    (hpath : g.findPath enemy.x enemy.y g.player.x g.player.y =
      some (some (c0 :: next :: rest))) :
    g.canEnemyMoveTo next.x next.y = true ∧
    g.moveEnemySmartly i rnd = some (g.performEnemyMove i next.x next.y, rnd) := by
  obtain ⟨h0, hadj, hpass⟩ := path_second (g := g) ⟨enemy.x, enemy.y⟩ ⟨g.player.x, g.player.y⟩
    c0 next rest hin hpath
  have hnp : get2 g.map next.x next.y ≠ some TileType.PLAYER := by
    intro hp
    obtain ⟨e1, e2⟩ := hpm _ _ hp
    apply hfar
    rw [h0] at hadj
    unfold Adj4 at hadj
    simp only at hadj
    rw [e1, e2] at hadj
    omega
  have hcan := canEnemyMoveTo_of_passable hpass hnp
  exact ⟨hcan, ((moveEnemySmartly_branches g i enemy rnd hi hfar).1 c0 next rest hpath).1 hcan⟩

theorem pursuit_step_free_witness :
    markedRoom.canEnemyMoveTo 1 0 = true ∧
    markedRoom.moveEnemySmartly 0 [7] = some (markedRoom.performEnemyMove 0 1 0, [7]) := by
  have hpm : ∀ x y : Int, get2 markedRoom.map x y = some TileType.PLAYER →
      x = markedRoom.player.x ∧ y = markedRoom.player.y := by
    intro x y h
    have hb := get2_inb (w := 5) (h := 5) (by decide : Rect 5 5 markedRoom.map) h
    simp only [Nat.cast_ofNat] at hb
    obtain ⟨b1, b2, b3, b4⟩ := hb
    interval_cases x <;> interval_cases y <;>
      first | exact ⟨rfl, rfl⟩ | exact absurd h (by decide)
  exact pursuit_step_free markedRoom 0 ⟨0, 0, 30, 30⟩ [7] ⟨0, 0⟩ ⟨1, 0⟩
    [⟨2, 0⟩, ⟨3, 0⟩, ⟨4, 0⟩, ⟨4, 1⟩, ⟨4, 2⟩, ⟨4, 3⟩, ⟨4, 4⟩] rfl (by decide) hpm (by decide)
    (by decide)

/-- C26: on every rectangular map `checkConnectivity` returns true if and only
if `findIsolatedAreas` returns exactly one area; `ensureConnectivity` returns
the state as it is, using no draw, whenever `checkConnectivity` is true and
whenever the map has no Floor cell (then there is no area and
`checkConnectivity` is false); so it changes the state only when
`checkConnectivity` is false. -/
theorem connectivity_agree (g : Game) (hg : g.WF) :
    (g.checkConnectivity = some true ↔ ∃ A, g.findIsolatedAreas = some [A]) ∧
    (g.checkConnectivity = some true → ∀ rnd, g.ensureConnectivity rnd = some (g, rnd)) ∧
    ((∀ c, ¬ g.IsFloor c) → g.findIsolatedAreas = some [] ∧
      g.checkConnectivity = some false ∧ ∀ rnd, g.ensureConnectivity rnd = some (g, rnd)) ∧
    (∀ rnd g1 rnd1, g.ensureConnectivity rnd = some (g1, rnd1) → g1 ≠ g →
      g.checkConnectivity = some false) := by
  obtain ⟨areas, hr, hiff, hnone, hnoop⟩ := connectivity_areas hg
  have htrue : g.checkConnectivity = some true → ∀ rnd, g.ensureConnectivity rnd = some (g, rnd) :=
    fun h rnd => hnoop (le_of_eq (hiff.mp h)) rnd
  refine ⟨?_, htrue, ?_, ?_⟩
  · rw [hiff]
    constructor
    · intro hlen
      obtain ⟨A, hA⟩ := List.length_eq_one.mp hlen
      exact ⟨A, by rw [hr, hA]⟩
    · rintro ⟨A, hA⟩
      rw [hr] at hA
      simp only [Option.some.injEq] at hA
      rw [hA]; rfl
  · intro hno
    have he := hnone hno
    refine ⟨by rw [hr, he], ?_, fun rnd => hnoop (by rw [he]; decide) rnd⟩
    rcases checkConnectivity_total hg with h | h
    · have := hiff.mp h
      rw [he] at this
      exact absurd this (by decide)
    · exact h
  · intro rnd g1 rnd1 h hne
    rcases checkConnectivity_total hg with ht | hf
    · have := (htrue ht rnd).symm.trans h
      simp only [Option.some.injEq, Prod.mk.injEq] at this
      exact absurd this.1.symm hne
    · exact hf

theorem connectivity_agree_witness :
    emptyRoom.checkConnectivity = some true ∧
    emptyRoom.ensureConnectivity [7] = some (emptyRoom, [7]) ∧
    (∃ A, emptyRoom.findIsolatedAreas = some [A]) ∧
    sampleGrid.checkConnectivity = some false ∧
    ¬ (∃ A, sampleGrid.findIsolatedAreas = some [A]) := by
  have h1 : emptyRoom.checkConnectivity = some true := by decide
  have h2 : sampleGrid.checkConnectivity = some false := by decide
  obtain ⟨a1, a2, -, -⟩ := connectivity_agree emptyRoom (by decide)
  obtain ⟨b1, -, -, -⟩ := connectivity_agree sampleGrid (by decide)
  refine ⟨h1, a2 h1 [7], a1.mp h1, h2, ?_⟩
  intro h
  have := b1.mpr h
  rw [h2] at this
  exact absurd this (by decide)

end SimpleJsGame
